import Mathlib

/-!
Verification of the concurrent hash-trie map (`ctrie`) of the repository.

The Go source mutates a tree of indirection nodes (I-nodes) in place through
CAS operations.  We embed it shallowly as a heap of cells: each cell is the
mutable part of one I-node, namely its `main` pointer together with the
generation the I-node was created in.  Addresses are indices into the heap.
Generation tokens, compared only by identity in Go, are modelled as natural
numbers drawn from a counter (`nextGen`); the Go `nil` generation of the
initial root is modelled as generation `0`, and the counter starts at `1`.

Sequential executions are modelled by threading the heap through the
operations.  A GCAS may fail in Go under contention; we model the outcome of
each GCAS by an oracle, a list of booleans consumed left to right (an empty
oracle means every GCAS succeeds, which is the uncontended sequential case).
Retry loops and recursion through the mutable heap are bounded by fuel;
`none` results signal fuel exhaustion or a state the Go code would panic on.
-/

namespace Ctrie

/-- One key/value entry, with its 32-bit hash (`mapEntry` in the source;
the hash field is the `uint32` truncation of the user hash). -/
structure Entry (K V : Type) where
  key : K
  value : V
  hash : Nat
deriving DecidableEq

/-- A branch of a C-node: an I-node reference (heap address) or a singleton
S-node (`branch` in the source). -/
inductive Br (K V : Type) where
  | inode (addr : Nat)
  | snode (e : Entry K V)
deriving DecidableEq

/-- The main node an I-node points to (`mainNode` in the source).  `cnode`
carries the bitmap, the branch slice and the generation of the C-node;
`lnode` is the persistent list of collision entries; `nilMain` stands for a
`mainNode` whose three content fields are all nil (the source can build such
a value when an L-node shrinks to nothing; reading it panics). -/
inductive MainNode (K V : Type) where
  | cnode (bmp : Nat) (slice : List (Br K V)) (gen : Nat)
  | tnode (e : Entry K V)
  | lnode (es : List (Entry K V))
  | nilMain
deriving DecidableEq

/-- A heap cell: the mutable `main` field of one I-node plus the I-node's
generation. -/
structure Cell (K V : Type) where
  main : MainNode K V
  gen : Nat
deriving DecidableEq

/-- The mutable state: the heap of I-node cells (addresses are list
indices), the generation counter, and the oracle deciding the outcome of
each GCAS (empty oracle: all GCAS succeed). -/
structure St (K V : Type) where
  mem : List (Cell K V)
  nextGen : Nat
  orc : List Bool
deriving DecidableEq

/-- A map handle (`Map` in the source): the root I-node address and the
read-only flag.  The hash and equality functions of the handle are passed
to the operations as parameters. -/
structure CMap where
  root : Nat
  readOnly : Bool
deriving DecidableEq

/-- Read a heap cell. -/
def St.cell {K V : Type} (st : St K V) (a : Nat) : Option (Cell K V) :=
  st.mem.get? a

/-- Number of allocated cells. -/
def St.size {K V : Type} (st : St K V) : Nat :=
  st.mem.length

/-- Replace the `main` field of the cell at address `a`, keeping its
generation (the effect of a successful CAS on `iNode.main`). -/
def writeMem {K V : Type} : List (Cell K V) → Nat → MainNode K V → List (Cell K V)
  | [], _, _ => []
  | c :: cs, 0, m => { c with main := m } :: cs
  | c :: cs, n + 1, m => c :: writeMem cs n m

/-- State after a successful CAS of `main` at address `a`. -/
def St.write {K V : Type} (st : St K V) (a : Nat) (m : MainNode K V) : St K V :=
  { st with mem := writeMem st.mem a m }

/-- Allocate a fresh I-node cell, returning the new state and its address. -/
def St.alloc {K V : Type} (st : St K V) (m : MainNode K V) (gen : Nat) :
    St K V × Nat :=
  ({ st with mem := st.mem ++ [⟨m, gen⟩] }, st.mem.length)

/-- Pop the next GCAS outcome from the oracle; an exhausted oracle yields
success (the uncontended case). -/
def gcasOutcome {K V : Type} (st : St K V) : Bool × St K V :=
  match st.orc with
  | [] => (true, st)
  | b :: r => (b, { st with orc := r })

/-- Structural helper for `popcount`; the fuel dominates the recursion
depth, so `popcountAux n n` computes the bit count of `n`. -/
def popcountAux : Nat → Nat → Nat
  | 0, _ => 0
  | fuel + 1, n => if n = 0 then 0 else n % 2 + popcountAux fuel (n / 2)

/-- Number of set bits (`bits.OnesCount32` in the source; for the 32-bit
values the source applies it to, the result agrees with this). -/
def popcount (n : Nat) : Nat :=
  popcountAux n n

/-- The `flagPos` helper: the flag bit of the 5-bit chunk of `hashcode`
at level `lev` and the position of the corresponding branch in the slice. -/
def flagPos (hashcode lev bmp : Nat) : Nat × Nat :=
  let idx := (hashcode >>> lev) &&& 0x1f
  let flag := 1 <<< idx
  let pos := popcount (bmp &&& (flag - 1))
  (flag, pos)

/-- The `cNode.inserted` operation: a copy of the C-node with the new branch
at position `pos` and `flag` set in the bitmap. -/
def cnInserted {K V : Type} (bmp : Nat) (slice : List (Br K V)) (pos flag : Nat)
    (br : Br K V) (gen : Nat) : MainNode K V :=
  .cnode (bmp ||| flag) (slice.take pos ++ br :: slice.drop pos) gen

/-- The `cNode.updated` operation: a copy of the C-node with the branch at
position `pos` replaced. -/
def cnUpdated {K V : Type} (bmp : Nat) (slice : List (Br K V)) (pos : Nat)
    (br : Br K V) (gen : Nat) : MainNode K V :=
  .cnode bmp (slice.set pos br) gen

/-- The `cNode.removed` operation: a copy of the C-node with the branch at
position `pos` dropped and `flag` cleared from the bitmap. -/
def cnRemoved {K V : Type} (bmp : Nat) (slice : List (Br K V)) (pos flag : Nat)
    (gen : Nat) : MainNode K V :=
  .cnode (bmp ^^^ flag) (slice.take pos ++ slice.drop (pos + 1)) gen

/-- Read the committed main node of the I-node at `a` (`gcasRead`; in the
sequential model the `prev` chain is always settled, so this is a plain
read). -/
def gcasRead {K V : Type} (st : St K V) (a : Nat) : Option (MainNode K V) :=
  (st.cell a).map (·.main)

/-- The `iNode.copyToGen` operation: allocate a fresh I-node of generation
`gen` whose main is the current main of the I-node at `a`. -/
def copyToGen {K V : Type} (st : St K V) (a : Nat) (gen : Nat) :
    Option (St K V × Nat) :=
  match gcasRead st a with
  | none => none
  | some m => some (st.alloc m gen)

/-- Slice traversal of `cNode.renewed`: copy every I-node branch to
generation `gen`, keeping S-node branches shared. -/
def renewedSlice {K V : Type} (st : St K V) (gen : Nat) :
    List (Br K V) → Option (St K V × List (Br K V))
  | [] => some (st, [])
  | .inode a :: rest =>
    match copyToGen st a gen with
    | none => none
    | some (st1, a') =>
      match renewedSlice st1 gen rest with
      | none => none
      | some (st2, rest') => some (st2, .inode a' :: rest')
  | .snode e :: rest =>
    match renewedSlice st gen rest with
    | none => none
    | some (st2, rest') => some (st2, .snode e :: rest')

/-- Structural helper for `newMainNode`: the recursion on the level
(which increases by `5` until it reaches `32`) is driven by fuel.  The
fuel-`0` arm is unreachable for fuel ≥ 8, which `newMainNode` always
supplies (the recursion from any level needs at most 7 steps). -/
def newMainNodeAux {K V : Type} :
    Nat → St K V → Entry K V → Nat → Entry K V → Nat → Nat → Nat →
    St K V × MainNode K V
  | 0, st, _, _, _, _, _, _ => (st, .nilMain)
  | fuel + 1, st, x, xhc, y, yhc, lev, gen =>
    if 32 ≤ lev then
      (st, .lnode [y, x])
    else
      let xidx := (xhc >>> lev) &&& 0x1f
      let yidx := (yhc >>> lev) &&& 0x1f
      let bmp := (1 <<< xidx) ||| (1 <<< yidx)
      if xidx = yidx then
        let p := newMainNodeAux fuel st x xhc y yhc (lev + 5) gen
        let q := p.1.alloc p.2 gen
        (q.1, .cnode bmp [.inode q.2] gen)
      else if xidx < yidx then
        (st, .cnode bmp [.snode x, .snode y] gen)
      else
        (st, .cnode bmp [.snode y, .snode x] gen)

/-- The `newMainNode` recursive constructor for two entries whose hash
chunks agree up to level `lev`; at level ≥ 32 the collision is resolved
with an L-node. -/
def newMainNode {K V : Type} (st : St K V) (x : Entry K V) (xhc : Nat)
    (y : Entry K V) (yhc : Nat) (lev : Nat) (gen : Nat) :
    St K V × MainNode K V :=
  newMainNodeAux 8 st x xhc y yhc lev gen

/-- The `lNode.lookup` scan (the equality function receives the searched
key first, as in the source). -/
def llookup {K V : Type} (eqf : K → K → Bool) (k : K) :
    List (Entry K V) → Option V
  | [] => none
  | x :: xs => if eqf k x.key then some x.value else llookup eqf k xs

/-- The `lNode.removed` operation: the list without the first entry whose
key is equal to `k`, or the list itself when there is none (the source
locates the node and rebuilds the prefix, which has the same effect). -/
def lremoved {K V : Type} (eqf : K → K → Bool) (k : K) :
    List (Entry K V) → List (Entry K V)
  | [] => []
  | x :: xs => if eqf k x.key then xs else x :: lremoved eqf k xs

/-- The `lNode.inserted` operation: prepend the entry after removing any
entry with an equal key. -/
def linserted {K V : Type} (eqf : K → K → Bool) (e : Entry K V)
    (es : List (Entry K V)) : List (Entry K V) :=
  e :: lremoved eqf e.key es

/-- The `entomb` helper: wrap an S-node in a T-node. -/
def entomb {K V : Type} (e : Entry K V) : MainNode K V :=
  .tnode e

/-- The `toContracted` helper: a C-node with a single S-node branch at a
nonzero level becomes a T-node; every other C-node is returned unchanged. -/
def toContracted {K V : Type} (bmp : Nat) (slice : List (Br K V))
    (gen lev : Nat) : MainNode K V :=
  if 0 < lev ∧ slice.length = 1 then
    match slice with
    | [.snode e] => entomb e
    | _ => .cnode bmp slice gen
  else
    .cnode bmp slice gen

/-- `toContracted` on a main node (identity on non-C-nodes). -/
def toContractedM {K V : Type} (m : MainNode K V) (lev : Nat) : MainNode K V :=
  match m with
  | .cnode bmp slice gen => toContracted bmp slice gen lev
  | m => m

/-- The `resurrect` helper: an I-node whose main is a T-node is replaced by
the tombed S-node; any other I-node is kept. -/
def resurrect {K V : Type} (a : Nat) (m : MainNode K V) : Br K V :=
  match m with
  | .tnode e => .snode e
  | _ => .inode a

/-- Slice traversal of `toCompressed`: resurrect every I-node branch. -/
def compressSlice {K V : Type} (st : St K V) :
    List (Br K V) → Option (List (Br K V))
  | [] => some []
  | .inode a :: rest =>
    match st.cell a with
    | none => none
    | some c =>
      match compressSlice st rest with
      | none => none
      | some rest' => some (resurrect a c.main :: rest')
  | .snode e :: rest =>
    match compressSlice st rest with
    | none => none
    | some rest' => some (.snode e :: rest')

/-- The `toCompressed` helper.  As in the source, the compressed C-node is
built without a generation (the Go nil generation, modelled as `0`). -/
def toCompressed {K V : Type} (st : St K V) (bmp : Nat) (slice : List (Br K V))
    (lev : Nat) : Option (MainNode K V) :=
  match compressSlice st slice with
  | none => none
  | some slice' => some (toContracted bmp slice' 0 lev)

/-- The `gcas` protocol step on the I-node at `a`, abstracted by the
oracle: a successful GCAS installs the new main node, a failed one leaves
the heap unchanged (the failed node is rolled back). -/
def gcas {K V : Type} [DecidableEq K] [DecidableEq V] (st : St K V) (a : Nat)
    (old n : MainNode K V) : Option (St K V × Bool) :=
  match st.cell a with
  | none => none
  | some c =>
    if c.main = old then
      match gcasOutcome st with
      | (true, st1) => some (st1.write a n, true)
      | (false, st1) => some (st1, false)
    else
      some (st, false)

/-- The `clean` helper: replace the C-node main of the I-node at `a` by its
compression. -/
def clean {K V : Type} [DecidableEq K] [DecidableEq V] (st : St K V) (a : Nat)
    (lev : Nat) : Option (St K V × Bool) :=
  match gcasRead st a with
  | none => none
  | some m =>
    match m with
    | .cnode bmp slice _ =>
      match toCompressed st bmp slice lev with
      | none => none
      | some m' => gcas st a m m'
    | _ => some (st, true)

/-- Call `clean` through a possibly-nil parent pointer (a nil parent would
be a nil dereference in the source). -/
def cleanOpt {K V : Type} [DecidableEq K] [DecidableEq V] (st : St K V)
    (parent : Option Nat) (lev : Nat) : Option (St K V) :=
  match parent with
  | none => none
  | some p =>
    match clean st p lev with
    | none => none
    | some (st1, _) => some st1

/-- Does a main node carry a T-node? -/
def isTnode {K V : Type} (m : MainNode K V) : Bool :=
  match m with
  | .tnode _ => true
  | _ => false

/-- The `cleanParent` helper: while the branch of the parent `p` for hash
`hc` at level `lev` is still the I-node `i` whose main is a T-node, replace
it with the resurrected S-node; stop when the root generation moved away
from `startGen`. -/
def cleanParent {K V : Type} [DecidableEq K] [DecidableEq V] :
    Nat → St K V → CMap → Nat → Nat → Nat → Nat → Nat → Option (St K V)
  | 0, _, _, _, _, _, _, _ => none
  | fuel + 1, st, c, p, i, hc, lev, startGen =>
    match st.cell i, st.cell p with
    | some ic, some pc =>
      match pc.main with
      | .cnode bmp slice _ =>
        let fp := flagPos hc lev bmp
        if bmp &&& fp.1 = 0 then some st
        else
          match slice.get? fp.2 with
          | none => none
          | some sub =>
            if sub ≠ .inode i ∨ isTnode ic.main = false then some st
            else
              let ncn := cnUpdated bmp slice fp.2 (resurrect i ic.main) ic.gen
              match gcas st p pc.main (toContractedM ncn lev) with
              | none => none
              | some (st1, ok) =>
                if ok then some st1
                else
                  match st1.cell c.root with
                  | none => none
                  | some rc =>
                    if rc.gen ≠ startGen then some st1
                    else cleanParent fuel st1 c p i hc lev startGen
      | _ => some st
    | _, _ => none

/-- The recursive `iinsert` on the I-node at `ia`.  The boolean result is
the success flag of the attempt (`false` asks the caller to retry from the
root).  `startGen` is the root generation observed at the start of the
attempt. -/
def iinsert {K V : Type} [DecidableEq K] [DecidableEq V] :
    Nat → St K V → (K → K → Bool) → CMap → Nat → Entry K V → Nat →
    Option Nat → Nat → Option (St K V × Bool)
  | 0, _, _, _, _, _, _, _, _ => none
  | fuel + 1, st, eqf, c, ia, e, lev, parent, startGen =>
    match st.cell ia with
    | none => none
    | some cl =>
      match cl.main with
      | .cnode bmp slice cgen =>
        let fp := flagPos e.hash lev bmp
        if bmp &&& fp.1 = 0 then
          -- bit absent: insert a fresh S-node (renewing the C-node first
          -- when its generation is stale)
          let ren : Option (St K V × List (Br K V)) :=
            if cgen = cl.gen then some (st, slice)
            else renewedSlice st cl.gen slice
          match ren with
          | none => none
          | some (st1, rslice) =>
            gcas st1 ia cl.main (cnInserted bmp rslice fp.2 fp.1 (.snode e) cl.gen)
        else
          match slice.get? fp.2 with
          | none => none
          | some br =>
            match br with
            | .inode ba =>
              match st.cell ba with
              | none => none
              | some bc =>
                if startGen = bc.gen then
                  iinsert fuel st eqf c ba e (lev + 5) (some ia) startGen
                else
                  match renewedSlice st startGen slice with
                  | none => none
                  | some (st1, rslice) =>
                    match gcas st1 ia cl.main (.cnode bmp rslice startGen) with
                    | none => none
                    | some (st2, ok) =>
                      if ok then iinsert fuel st2 eqf c ia e lev parent startGen
                      else some (st2, false)
            | .snode se =>
              if eqf se.key e.key = false then
                -- hash-prefix collision of distinct keys: extend one level
                let ren : Option (St K V × List (Br K V)) :=
                  if cgen = cl.gen then some (st, slice)
                  else renewedSlice st cl.gen slice
                match ren with
                | none => none
                | some (st1, rslice) =>
                  let p := newMainNode st1 se se.hash e e.hash (lev + 5) cl.gen
                  let q := p.1.alloc p.2 cl.gen
                  gcas q.1 ia cl.main (cnUpdated bmp rslice fp.2 (.inode q.2) cl.gen)
              else
                gcas st ia cl.main (cnUpdated bmp slice fp.2 (.snode e) cl.gen)
      | .tnode _ =>
        match cleanOpt st parent (lev - 5) with
        | none => none
        | some st1 => some (st1, false)
      | .lnode es =>
        gcas st ia cl.main (.lnode (linserted eqf e es))
      | .nilMain => none

/-- The recursive `ilookup` on the I-node at `ia`.  The optional value is
the lookup result; the boolean is the success flag of the attempt. -/
def ilookup {K V : Type} [DecidableEq K] [DecidableEq V] :
    Nat → St K V → (K → K → Bool) → CMap → Nat → K → Nat → Nat →
    Option Nat → Nat → Option (St K V × Option V × Bool)
  | 0, _, _, _, _, _, _, _, _, _ => none
  | fuel + 1, st, eqf, c, ia, k, h, lev, parent, startGen =>
    match st.cell ia with
    | none => none
    | some cl =>
      match cl.main with
      | .cnode bmp slice _ =>
        let fp := flagPos h lev bmp
        if bmp &&& fp.1 = 0 then some (st, none, true)
        else
          match slice.get? fp.2 with
          | none => none
          | some br =>
            match br with
            | .inode ba =>
              match st.cell ba with
              | none => none
              | some bc =>
                if c.readOnly || startGen = bc.gen then
                  ilookup fuel st eqf c ba k h (lev + 5) (some ia) startGen
                else
                  match renewedSlice st startGen slice with
                  | none => none
                  | some (st1, rslice) =>
                    match gcas st1 ia cl.main (.cnode bmp rslice startGen) with
                    | none => none
                    | some (st2, ok) =>
                      if ok then ilookup fuel st2 eqf c ia k h lev parent startGen
                      else some (st2, none, false)
            | .snode se =>
              if eqf se.key k then some (st, some se.value, true)
              else some (st, none, true)
      | .tnode te =>
        -- `cleanReadOnly`
        if c.readOnly = false then
          match cleanOpt st parent (lev - 5) with
          | none => none
          | some st1 => some (st1, none, false)
        else if te.hash = h ∧ eqf te.key k then some (st, some te.value, true)
        else some (st, none, true)
      | .lnode es => some (st, llookup eqf k es, true)
      | .nilMain => none

/-- The recursive `iremove` on the I-node at `ia`.  The optional value is
the removed value; the boolean is the success flag of the attempt.  The
L-node arm mirrors the source exactly, including the success flag it
returns when its GCAS fails. -/
def iremove {K V : Type} [DecidableEq K] [DecidableEq V] :
    Nat → St K V → (K → K → Bool) → CMap → Nat → K → Nat → Nat →
    Option Nat → Nat → Option (St K V × Option V × Bool)
  | 0, _, _, _, _, _, _, _, _, _ => none
  | fuel + 1, st, eqf, c, ia, k, h, lev, parent, startGen =>
    match st.cell ia with
    | none => none
    | some cl =>
      match cl.main with
      | .cnode bmp slice _ =>
        let fp := flagPos h lev bmp
        if bmp &&& fp.1 = 0 then some (st, none, true)
        else
          match slice.get? fp.2 with
          | none => none
          | some br =>
            match br with
            | .inode ba =>
              match st.cell ba with
              | none => none
              | some bc =>
                if startGen = bc.gen then
                  iremove fuel st eqf c ba k h (lev + 5) (some ia) startGen
                else
                  match renewedSlice st startGen slice with
                  | none => none
                  | some (st1, rslice) =>
                    match gcas st1 ia cl.main (.cnode bmp rslice startGen) with
                    | none => none
                    | some (st2, ok) =>
                      if ok then iremove fuel st2 eqf c ia k h lev parent startGen
                      else some (st2, none, false)
            | .snode se =>
              if eqf se.key k = false then some (st, none, true)
              else
                let ncn := cnRemoved bmp slice fp.2 fp.1 cl.gen
                match gcas st ia cl.main (toContractedM ncn lev) with
                | none => none
                | some (st1, ok) =>
                  if ok then
                    match parent with
                    | none => some (st1, some se.value, true)
                    | some p =>
                      match gcasRead st1 ia with
                      | none => none
                      | some m' =>
                        if isTnode m' then
                          match cleanParent fuel st1 c p ia h (lev - 5) startGen with
                          | none => none
                          | some st2 => some (st2, some se.value, true)
                        else some (st1, some se.value, true)
                  else some (st1, none, false)
      | .tnode _ =>
        match cleanOpt st parent (lev - 5) with
        | none => none
        | some st1 => some (st1, none, false)
      | .lnode es =>
        let es' := lremoved eqf k es
        let nln : MainNode K V :=
          match es' with
          | [] => .nilMain
          | [x] => entomb x
          | _ => .lnode es'
        match gcas st ia cl.main nln with
        | none => none
        | some (st1, ok) =>
          if ok then some (st1, llookup eqf k es, true)
          else some (st1, none, true)
      | .nilMain => none

/-- The retry loop of `Map.insert`. -/
def insertTop {K V : Type} [DecidableEq K] [DecidableEq V] :
    Nat → St K V → (K → K → Bool) → CMap → Entry K V → Option (St K V)
  | 0, _, _, _, _ => none
  | fuel + 1, st, eqf, c, e =>
    match st.cell c.root with
    | none => none
    | some rc =>
      match iinsert (fuel + 1) st eqf c c.root e 0 none rc.gen with
      | none => none
      | some (st1, true) => some st1
      | some (st1, false) => insertTop fuel st1 eqf c e

/-- The retry loop of `Map.lookup`. -/
def lookupTop {K V : Type} [DecidableEq K] [DecidableEq V] :
    Nat → St K V → (K → K → Bool) → CMap → K → Nat → Option (St K V × Option V)
  | 0, _, _, _, _, _ => none
  | fuel + 1, st, eqf, c, k, h =>
    match st.cell c.root with
    | none => none
    | some rc =>
      match ilookup (fuel + 1) st eqf c c.root k h 0 none rc.gen with
      | none => none
      | some (st1, v, true) => some (st1, v)
      | some (st1, _, false) => lookupTop fuel st1 eqf c k h

/-- The retry loop of `Map.remove`. -/
def removeTop {K V : Type} [DecidableEq K] [DecidableEq V] :
    Nat → St K V → (K → K → Bool) → CMap → K → Nat → Option (St K V × Option V)
  | 0, _, _, _, _, _ => none
  | fuel + 1, st, eqf, c, k, h =>
    match st.cell c.root with
    | none => none
    | some rc =>
      match iremove (fuel + 1) st eqf c c.root k h 0 none rc.gen with
      | none => none
      | some (st1, v, true) => some (st1, v)
      | some (st1, _, false) => removeTop fuel st1 eqf c k h

/-- Outcome of a public operation: a Go panic, fuel exhaustion of the
model, or a result. -/
inductive Outcome (α : Type) where
  | panic (msg : String)
  | timeout
  | done (a : α)
deriving DecidableEq

/-- The panic message of `assertReadWrite`. -/
def readOnlyMsg : String := "Cannot modify read-only clone"

/-- The 32-bit truncation applied to the user hash (`uint32(c.hashFunc(key))`). -/
def hash32 {K : Type} (hashf : K → Nat) (k : K) : Nat :=
  hashf k % 2 ^ 32

/-- The public `Set`: assert the handle is read-write, then insert. -/
def setOp {K V : Type} [DecidableEq K] [DecidableEq V] (fuel : Nat) (st : St K V)
    (eqf : K → K → Bool) (hashf : K → Nat) (c : CMap) (k : K) (v : V) :
    Outcome (St K V) :=
  if c.readOnly then .panic readOnlyMsg
  else
    match insertTop fuel st eqf c ⟨k, v, hash32 hashf k⟩ with
    | none => .timeout
    | some st1 => .done st1

/-- The public `Get`. -/
def getOp {K V : Type} [DecidableEq K] [DecidableEq V] (fuel : Nat) (st : St K V)
    (eqf : K → K → Bool) (hashf : K → Nat) (c : CMap) (k : K) :
    Option (St K V × Option V) :=
  lookupTop fuel st eqf c k (hash32 hashf k)

/-- The public `Delete`: assert the handle is read-write, then remove.  The
optional value is Go's `(value, ok)` pair. -/
def deleteOp {K V : Type} [DecidableEq K] [DecidableEq V] (fuel : Nat) (st : St K V)
    (eqf : K → K → Bool) (hashf : K → Nat) (c : CMap) (k : K) :
    Outcome (St K V × Option V) :=
  if c.readOnly then .panic readOnlyMsg
  else
    match removeTop fuel st eqf c k (hash32 hashf k) with
    | none => .timeout
    | some r => .done r

/-- The `clone` helper shared by `Clone` and `RClone`.  In the sequential
model the RDCSS succeeds on the first attempt: the source handle receives a
`copyToGen` copy of its root in a fresh generation `g1`; a read-write clone
receives a second `copyToGen` copy in a further fresh generation `g2`, while
a read-only clone shares the old root.  The result is
`(updated source handle, returned handle, state)`. -/
def cloneOp {K V : Type} (st : St K V) (c : CMap) (ro : Bool) :
    Outcome (CMap × CMap × St K V) :=
  if ro && c.readOnly then .done (c, c, st)
  else
    match st.cell c.root with
    | none => .timeout
    | some rc =>
      if c.readOnly then .panic readOnlyMsg
      else
        let g1 := st.nextGen
        let q1 := St.alloc { st with nextGen := st.nextGen + 1 } rc.main g1
        let src : CMap := { c with root := q1.2 }
        if ro then .done (src, { root := c.root, readOnly := true }, q1.1)
        else
          let g2 := q1.1.nextGen
          let q2 := St.alloc { q1.1 with nextGen := q1.1.nextGen + 1 } rc.main g2
          .done (src, { root := q2.2, readOnly := false }, q2.1)

/-- The public `Clone`: same read-only flag as the source. -/
def cloneMap {K V : Type} (st : St K V) (c : CMap) :
    Outcome (CMap × CMap × St K V) :=
  cloneOp st c c.readOnly

/-- The public `RClone`: a read-only clone. -/
def rcloneMap {K V : Type} (st : St K V) (c : CMap) :
    Outcome (CMap × CMap × St K V) :=
  cloneOp st c true

/-- The public `Clear`: assert the handle is read-write, then swing the root
to a fresh empty C-node root under a fresh generation. -/
def clearOp {K V : Type} (st : St K V) (c : CMap) : Outcome (CMap × St K V) :=
  if c.readOnly then .panic readOnlyMsg
  else
    match st.cell c.root with
    | none => .timeout
    | some _ =>
      let g := st.nextGen
      let q := St.alloc { st with nextGen := st.nextGen + 1 } (.cnode 0 [] g) g
      .done ({ c with root := q.2 }, q.1)

/-- The heap of a freshly constructed map: one root I-node whose main is an
empty C-node; the Go nil generation is modelled as `0` and the generation
counter starts at `1`. -/
def newMapSt (K V : Type) : St K V :=
  { mem := [⟨.cnode 0 [] 0, 0⟩], nextGen := 1, orc := [] }

/-- The handle of a freshly constructed map. -/
def newHandle : CMap :=
  { root := 0, readOnly := false }

/-- The branch-count invariant of a single main node: a C-node's slice
holds exactly `popcount bmp` branches and the bitmap fits in 32 bits. -/
def mainOK {K V : Type} (m : MainNode K V) : Prop :=
  ∀ bmp slice g, m = .cnode bmp slice g →
    slice.length = popcount bmp ∧ bmp < 2 ^ 32

/-- The branch-count invariant over the whole heap. -/
def cnLenOK {K V : Type} (st : St K V) : Prop :=
  ∀ a cl, st.cell a = some cl → mainOK cl.main

/-- Frame of one operation attempt with start generation `g`: the heap only
grows, cells whose generation differs from `g` are untouched, generations
of existing cells never change, every newly allocated cell carries
generation `g`, the generation counter is untouched, and an exhausted
GCAS oracle stays exhausted. -/
def opFrame {K V : Type} (st st' : St K V) (g : Nat) : Prop :=
  st.mem.length ≤ st'.mem.length ∧
  (∀ b, b < st.mem.length →
    (∀ cl, st.cell b = some cl → cl.gen ≠ g) → st'.cell b = st.cell b) ∧
  (∀ b cl cl', st.cell b = some cl → st'.cell b = some cl' →
    cl'.gen = cl.gen) ∧
  (∀ b cl, st.mem.length ≤ b → st'.cell b = some cl → cl.gen = g) ∧
  st'.nextGen = st.nextGen ∧
  (st.orc = [] → st'.orc = [])

/-- Boolean equality on `Nat` keys, used to instantiate the model in
concrete scenarios. -/
def natEq (a b : Nat) : Bool :=
  a == b

/-- A constant hash function, as used by the collision tests of the
source (`func([]byte) uint64 { return 42 }`). -/
def hash42 (_ : Nat) : Nat :=
  42

/-- The map `{1 ↦ 11, 2 ↦ 22}` built with the constant hash `42`: the two
colliding entries live in an L-node at the bottom of a six-level I-node
chain. -/
def collideSt : St Nat Nat :=
  { mem := [⟨.cnode 1024 [.inode 7] 0, 0⟩,
            ⟨.lnode [⟨2, 22, 42⟩, ⟨1, 11, 42⟩], 0⟩,
            ⟨.cnode 1 [.inode 1] 0, 0⟩,
            ⟨.cnode 1 [.inode 2] 0, 0⟩,
            ⟨.cnode 1 [.inode 3] 0, 0⟩,
            ⟨.cnode 1 [.inode 4] 0, 0⟩,
            ⟨.cnode 1 [.inode 5] 0, 0⟩,
            ⟨.cnode 2 [.inode 6] 0, 0⟩],
    nextGen := 1,
    orc := [] }

/-- The map `{a ↦ va, b ↦ vb}` built from a fresh map by two inserts of
keys with the same full 32-bit hash `h`: the two colliding entries live in
an L-node at level 35, at the bottom of a chain of single-branch C-nodes
covering levels 0 to 30. -/
def collideSt2 {K V : Type} (a : K) (va : V) (b : K) (vb : V) (h : Nat) :
    St K V :=
  { mem := [⟨.cnode (1 <<< (h &&& 0x1f)) [.inode 7] 0, 0⟩,
            ⟨.lnode [⟨b, vb, h⟩, ⟨a, va, h⟩], 0⟩,
            ⟨.cnode (1 <<< ((h >>> 30) &&& 0x1f)) [.inode 1] 0, 0⟩,
            ⟨.cnode (1 <<< ((h >>> 25) &&& 0x1f)) [.inode 2] 0, 0⟩,
            ⟨.cnode (1 <<< ((h >>> 20) &&& 0x1f)) [.inode 3] 0, 0⟩,
            ⟨.cnode (1 <<< ((h >>> 15) &&& 0x1f)) [.inode 4] 0, 0⟩,
            ⟨.cnode (1 <<< ((h >>> 10) &&& 0x1f)) [.inode 5] 0, 0⟩,
            ⟨.cnode (1 <<< ((h >>> 5) &&& 0x1f)) [.inode 6] 0, 0⟩],
    nextGen := 1,
    orc := [] }

/-- Conclusion of the hash-collision scenario: `newMainNode` produces an
L-node only at level ≥ 32; inserting two colliding keys `a` and `b` builds
the L-node map `collideSt2` with both entries in the level-35 L-node; `Get`
finds each of the two entries; deleting `b` returns its value and entombs
the remaining entry; and a `Get` of `a` afterwards still returns `va`. -/
def collisionConcl {K V : Type} [DecidableEq K] [DecidableEq V]
    (eqf : K → K → Bool) (hashf : K → Nat) (a b : K) (va vb : V) : Prop :=
  (∀ (st : St K V) (x : Entry K V) (xhc : Nat) (y : Entry K V)
      (yhc lev g : Nat) (es : List (Entry K V)),
    (newMainNode st x xhc y yhc lev g).2 = .lnode es → 32 ≤ lev) ∧
  setOp 1 (newMapSt K V) eqf hashf newHandle a va =
    .done { mem := [⟨.cnode (1 <<< (hash32 hashf a &&& 0x1f))
        [.snode ⟨a, va, hash32 hashf a⟩] 0, 0⟩], nextGen := 1, orc := [] } ∧
  setOp 1 { mem := [⟨.cnode (1 <<< (hash32 hashf a &&& 0x1f))
        [.snode ⟨a, va, hash32 hashf a⟩] 0, 0⟩], nextGen := 1, orc := [] }
      eqf hashf newHandle b vb =
    .done (collideSt2 a va b vb (hash32 hashf a)) ∧
  (collideSt2 a va b vb (hash32 hashf a)).cell 1 =
    some ⟨.lnode [⟨b, vb, hash32 hashf a⟩, ⟨a, va, hash32 hashf a⟩], 0⟩ ∧
  getOp 8 (collideSt2 a va b vb (hash32 hashf a)) eqf hashf newHandle a =
    some (collideSt2 a va b vb (hash32 hashf a), some va) ∧
  getOp 8 (collideSt2 a va b vb (hash32 hashf a)) eqf hashf newHandle b =
    some (collideSt2 a va b vb (hash32 hashf a), some vb) ∧
  deleteOp 8 (collideSt2 a va b vb (hash32 hashf a)) eqf hashf newHandle b =
    .done ((collideSt2 a va b vb (hash32 hashf a)).write 1
      (.tnode ⟨a, va, hash32 hashf a⟩), some vb) ∧
  ∃ stf, getOp 16 ((collideSt2 a va b vb (hash32 hashf a)).write 1
      (.tnode ⟨a, va, hash32 hashf a⟩)) eqf hashf newHandle a =
    some (stf, some va)

/-- Dynamic kind of the key type, as observed by the `interface{}` type
switches of `NewWithFuncs`. -/
inductive KeyKind where
  | str
  | byteSlice
  | other
deriving DecidableEq

/-- Which equality function a constructed handle ends up using:
the caller's function, the built-in `==` on `string`, or `bytes.Equal`. -/
inductive EqChoice where
  | user
  | builtinStringEq
  | builtinBytesEq
deriving DecidableEq

/-- Which hash function a constructed handle ends up using: the caller's
function, or the process-seeded maphash-based `StringHash` / `BytesHash`. -/
inductive HashChoice where
  | user
  | builtinStringHash
  | builtinBytesHash
deriving DecidableEq

/-- The `NewWithFuncs` constructor: `none` models a nil function argument.
A nil equality function is substituted by the built-in for `string` and
`[]byte` keys and panics for any other key type; then the same is done for
a nil hash function; only then is the root allocated and the handle built. -/
def newWithFuncs (K V : Type) (kind : KeyKind) (eqc : Option EqChoice)
    (hashc : Option HashChoice) :
    Outcome (EqChoice × HashChoice × CMap × St K V) :=
  match (match eqc with
         | some f => Outcome.done f
         | none =>
           match kind with
           | .str => Outcome.done .builtinStringEq
           | .byteSlice => Outcome.done .builtinBytesEq
           | .other => Outcome.panic "no equality type known") with
  | .panic m => .panic m
  | .timeout => .timeout
  | .done ef =>
    match (match hashc with
           | some f => Outcome.done f
           | none =>
             match kind with
             | .str => Outcome.done .builtinStringHash
             | .byteSlice => Outcome.done .builtinBytesHash
             | .other => Outcome.panic "no hash type known") with
    | .panic m => .panic m
    | .timeout => .timeout
    | .done hf => .done (ef, hf, newHandle, newMapSt K V)

/-- A pure, generation-blind lookup: the specification-side description of
the binding of `k` in the tree hanging off the I-node at address `a`.
`none` when the fuel runs out or the path meets a tomb or a broken cell;
`some none` when the key is absent, `some (some v)` when it is bound. -/
def vlookup {K V : Type} (eqf : K → K → Bool) :
    Nat → St K V → Nat → K → Nat → Nat → Option (Option V)
  | 0, _, _, _, _, _ => none
  | fuel + 1, st, a, k, hsh, lev =>
    match st.cell a with
    | none => none
    | some cl =>
      match cl.main with
      | .cnode bmp slice _ =>
        let fp := flagPos hsh lev bmp
        if bmp &&& fp.1 = 0 then some none
        else
          match slice.get? fp.2 with
          | none => none
          | some (.inode ba) => vlookup eqf fuel st ba k hsh (lev + 5)
          | some (.snode se) =>
            if eqf se.key k then some (some se.value) else some none
      | .tnode _ => none
      | .lnode es => some (llookup eqf k es)
      | .nilMain => none

/-- The I-node addresses referenced by the branches of a main node. -/
def branchAddrs {K V : Type} : MainNode K V → List Nat
  | .cnode _ slice _ =>
    slice.filterMap (fun b =>
      match b with
      | .inode x => some x
      | _ => none)
  | _ => []

/-- All branch addresses of `m` fall below `N`. -/
def branchesIn {K V : Type} (m : MainNode K V) (N : Nat) : Prop :=
  ∀ x ∈ branchAddrs m, x < N

/-- The first `N` cells form a closed region of generation `g0`: each
exists, carries generation `g0`, and only references addresses below `N`. -/
def regionGen {K V : Type} (st : St K V) (N g0 : Nat) : Prop :=
  ∀ a, a < N → ∃ cl, st.cell a = some cl ∧ cl.gen = g0 ∧
    branchesIn cl.main N

/-- Every cell of the heap references only allocated addresses. -/
def heapAddrOK {K V : Type} (st : St K V) : Prop :=
  ∀ a cl, st.cell a = some cl → branchesIn cl.main st.mem.length

/-- Every cell of the heap carries the nil generation `0` (the state of a
map built by inserts alone, whose root was allocated with the nil
generation). -/
def allGen0 {K V : Type} (st : St K V) : Prop :=
  ∀ a cl, st.cell a = some cl → cl.gen = 0

/-- A mutation request through a handle: the public `Set` or `Delete`. -/
inductive MOp (K V : Type) where
  | mset (k : K) (v : V)
  | mdel (k : K)

/-- Run a sequence of mutations through the handle `c`, failing if any of
them panics or exhausts its fuel. -/
def applyOps {K V : Type} [DecidableEq K] [DecidableEq V] (fuel : Nat)
    (eqf : K → K → Bool) (hashf : K → Nat) (c : CMap) :
    List (MOp K V) → St K V → Option (St K V)
  | [], st => some st
  | .mset k v :: rest, st =>
    match setOp fuel st eqf hashf c k v with
    | .done st1 => applyOps fuel eqf hashf c rest st1
    | _ => none
  | .mdel k :: rest, st =>
    match deleteOp fuel st eqf hashf c k with
    | .done (st1, _) => applyOps fuel eqf hashf c rest st1
    | _ => none

/-- Build a map from a list of key/value pairs by inserting them in order
into a fresh map. -/
def buildOps {K V : Type} [DecidableEq K] [DecidableEq V] (fuel : Nat)
    (eqf : K → K → Bool) (hashf : K → Nat) (kvs : List (K × V)) :
    Option (St K V) :=
  applyOps fuel eqf hashf newHandle
    (kvs.map (fun p => MOp.mset p.1 p.2)) (newMapSt K V)

/-- The identity hash on `Nat` keys, used to instantiate the model in
concrete scenarios. -/
def idHash (n : Nat) : Nat := n

/-- The conclusion of the snapshot-independence theorem, for a map whose
post-clone state is `st1` (source handle `src`, clone handle `s`), whose
pre-clone state was `st0`, where `st2` results from further mutations
through `src` and `st2'` from further mutations through `s`.  `v` is the
pure content of `s` at key `k` (path depth `n`), `v'` the pure content of
`src` at key `k'` (path depth `n'`): every `Get` on `s` returns `v` both
before and after the source mutations; `v` is exactly what a pre-clone
`Get` on the original handle returned; and every `Get` on the source
returns `v'` both before and after the clone mutations. -/
def snapshotIndepConcl {K V : Type} [DecidableEq K] [DecidableEq V]
    (eqf : K → K → Bool) (hashf : K → Nat) (st0 st1 st2 st2' : St K V)
    (src s : CMap) (k k' : K) (n n' : Nat) (v v' : Option V) : Prop :=
  (∀ m, 2 * n + 2 ≤ m →
    (∃ q, getOp m st1 eqf hashf s k = some (q, v)) ∧
    (∃ q, getOp m st2 eqf hashf s k = some (q, v))) ∧
  (∀ m, n + 1 ≤ m →
    ∃ q, getOp m st0 eqf hashf newHandle k = some (q, v)) ∧
  (∀ m, 2 * n' + 2 ≤ m →
    (∃ q, getOp m st1 eqf hashf src k' = some (q, v')) ∧
    (∃ q, getOp m st2' eqf hashf src k' = some (q, v')))

/-- A single-branch ancestor chain above the I-node `cur` (which sits at
level `lev`): `anc` lists the ancestors bottom-up ending at the root
(level `0`); each holds a one-branch C-node whose bitmap is the hash flag
of its level and whose branch points at the next node down. -/
def upChain {K V : Type} (st : St K V) (hsh : Nat) :
    Nat → Nat → List Nat → Prop
  | lev, _, [] => lev = 0
  | lev, cur, p :: rest =>
    (∃ cg, st.cell p = some
      ⟨.cnode (1 <<< ((hsh >>> (lev - 5)) &&& 0x1f)) [.inode cur] cg, 0⟩) ∧
    5 ≤ lev ∧ upChain st hsh (lev - 5) p rest

/-- The root of an ancestor chain (the chain's last element, or the node
itself for an empty chain). -/
def chainRoot (cur : Nat) : List Nat → Nat
  | [] => cur
  | p :: rest => chainRoot p rest

/-- The map `{1 ↦ 10}` built with the identity hash: one root I-node whose
C-node holds a single S-node (bitmap bit `1`). -/
def snapSt0 : St Nat Nat :=
  { mem := [⟨.cnode 2 [.snode ⟨1, 10, 1⟩] 0, 0⟩], nextGen := 1, orc := [] }

/-- The heap right after `clone()` on `snapSt0`: the two fresh root copies
in generations `1` (source) and `2` (clone) share the old C-node. -/
def snapSt1 : St Nat Nat :=
  { mem := [⟨.cnode 2 [.snode ⟨1, 10, 1⟩] 0, 0⟩,
            ⟨.cnode 2 [.snode ⟨1, 10, 1⟩] 0, 1⟩,
            ⟨.cnode 2 [.snode ⟨1, 10, 1⟩] 0, 2⟩],
    nextGen := 3, orc := [] }

/-- `snapSt1` after `Delete(1)` through the source handle: only the
source's generation-1 root cell changed. -/
def snapSt2 : St Nat Nat :=
  { mem := [⟨.cnode 2 [.snode ⟨1, 10, 1⟩] 0, 0⟩,
            ⟨.cnode 0 [] 1, 1⟩,
            ⟨.cnode 2 [.snode ⟨1, 10, 1⟩] 0, 2⟩],
    nextGen := 3, orc := [] }

/-- `snapSt1` after `Set(1, 99)` through the clone handle: only the
clone's generation-2 root cell changed. -/
def snapSt2' : St Nat Nat :=
  { mem := [⟨.cnode 2 [.snode ⟨1, 10, 1⟩] 0, 0⟩,
            ⟨.cnode 2 [.snode ⟨1, 10, 1⟩] 0, 1⟩,
            ⟨.cnode 2 [.snode ⟨1, 99, 1⟩] 2, 2⟩],
    nextGen := 3, orc := [] }

/-- The source handle after the clone of the scenario above. -/
def snapSrc : CMap := { root := 1, readOnly := false }

/-- The clone handle of the scenario above. -/
def snapS : CMap := { root := 2, readOnly := false }

/-- The branch-order property of the C-node algebra, stated for an
insertion at a clear bit `i` and an update/removal at a set bit `j`:
`cNode.inserted`, `cNode.updated` and `cNode.removed` keep the slice
length equal to `popcount` of the bitmap and store the branch of
index-flag `f` at position `popcount (bmp &&& (f - 1))` (so the branches
sit in ascending index order); `renewed` keeps the length; `newMainNode`
builds only well-formed C-nodes; and the three public operations
(`insert`, `lookup`, `remove`, retry loops included) preserve the
invariant on every reachable C-node of the heap. -/
def branchOrderConcl {K V : Type} [DecidableEq K] [DecidableEq V]
    (bmp : Nat) (slice : List (Br K V)) (i j : Nat) (br : Br K V) (gen : Nat)
    (eqf : K → K → Bool) (c : CMap) (e : Entry K V) (k : K) (hsh : Nat) :
    Prop :=
  (∃ slice',
    cnInserted bmp slice (popcount (bmp &&& (1 <<< i - 1))) (1 <<< i) br gen =
      .cnode (bmp ||| 1 <<< i) slice' gen ∧
    slice'.length = popcount (bmp ||| 1 <<< i) ∧
    slice'[popcount ((bmp ||| 1 <<< i) &&& (1 <<< i - 1))]? = some br ∧
    (∀ m, (bmp ||| 1 <<< i).testBit m = true → m ≠ i →
      slice'[popcount ((bmp ||| 1 <<< i) &&& (1 <<< m - 1))]? =
        slice[popcount (bmp &&& (1 <<< m - 1))]?)) ∧
  (∃ slice',
    cnUpdated bmp slice (popcount (bmp &&& (1 <<< j - 1))) br gen =
      .cnode bmp slice' gen ∧
    slice'.length = popcount bmp ∧
    slice'[popcount (bmp &&& (1 <<< j - 1))]? = some br ∧
    (∀ m, bmp.testBit m = true → m ≠ j →
      slice'[popcount (bmp &&& (1 <<< m - 1))]? =
        slice[popcount (bmp &&& (1 <<< m - 1))]?)) ∧
  (∃ slice',
    cnRemoved bmp slice (popcount (bmp &&& (1 <<< j - 1))) (1 <<< j) gen =
      .cnode (bmp ^^^ 1 <<< j) slice' gen ∧
    slice'.length = popcount (bmp ^^^ 1 <<< j) ∧
    popcount (bmp ^^^ 1 <<< j) + 1 = popcount bmp ∧
    (∀ m, bmp.testBit m = true → m ≠ j →
      slice'[popcount ((bmp ^^^ 1 <<< j) &&& (1 <<< m - 1))]? =
        slice[popcount (bmp &&& (1 <<< m - 1))]?)) ∧
  (∀ (st st' : St K V) (slice2 : List (Br K V)),
    renewedSlice st gen slice = some (st', slice2) →
    slice2.length = slice.length) ∧
  (∀ (st : St K V) (x : Entry K V) (xhc : Nat) (y : Entry K V)
    (yhc lev g : Nat), mainOK (newMainNode st x xhc y yhc lev g).2) ∧
  (∀ (fuel : Nat) (st st' : St K V),
    insertTop fuel st eqf c e = some st' → cnLenOK st → cnLenOK st') ∧
  (∀ (fuel : Nat) (st st' : St K V) (v : Option V),
    lookupTop fuel st eqf c k hsh = some (st', v) → cnLenOK st →
    cnLenOK st') ∧
  (∀ (fuel : Nat) (st st' : St K V) (v : Option V),
    removeTop fuel st eqf c k hsh = some (st', v) → cnLenOK st →
    cnLenOK st')

/-! ### Bit-level toolkit -/

theorem popcountAux_zero (f : Nat) : popcountAux f 0 = 0 := by
  cases f <;> rfl

theorem popcountAux_congr :
    ∀ f1 f2 n : Nat, n ≤ f1 → n ≤ f2 → popcountAux f1 n = popcountAux f2 n := by
  intro f1
  induction f1 using Nat.strong_induction_on with
  | _ f1 ih =>
    intro f2 n h1 h2
    rcases Nat.eq_zero_or_pos n with rfl | hn
    · rw [popcountAux_zero, popcountAux_zero]
    · rcases f1 with _ | g1
      · omega
      · rcases f2 with _ | g2
        · omega
        · simp only [popcountAux, if_neg (Nat.pos_iff_ne_zero.mp hn)]
          rw [ih g1 (by omega) g2 (n / 2) (by omega) (by omega)]

/-- The defining recurrence of `popcount`. -/
theorem popcount_eq (n : Nat) :
    popcount n = if n = 0 then 0 else n % 2 + popcount (n / 2) := by
  match n with
  | 0 => rfl
  | n + 1 =>
    show popcountAux (n + 1) (n + 1) = _
    simp only [popcountAux, if_neg (Nat.succ_ne_zero n), Nat.succ_ne_zero, if_false]
    rw [popcountAux_congr n ((n + 1) / 2) ((n + 1) / 2) (by omega) (le_refl _)]
    rfl

theorem popcount_zero : popcount 0 = 0 := rfl

theorem one_shiftLeft_pos (n : Nat) : 0 < 1 <<< n := by
  rw [Nat.one_shiftLeft]
  exact Nat.two_pow_pos n

theorem two_pow_land_pred (n : Nat) : (1 <<< n) &&& ((1 <<< n) - 1) = 0 := by
  rw [Nat.one_shiftLeft]
  apply Nat.eq_of_testBit_eq
  intro i
  simp only [Nat.testBit_and, Nat.testBit_two_pow, Nat.testBit_two_pow_sub_one,
    Nat.zero_testBit, Bool.and_eq_false_iff]
  by_cases h : n = i
  · right
    subst h
    simp
  · left
    simp [h]

theorem one_shiftLeft_ne_zero (n : Nat) : 1 <<< n ≠ 0 :=
  Nat.pos_iff_ne_zero.mp (one_shiftLeft_pos n)

/-- On an empty bitmap, `flagPos` yields position `0`. -/
theorem flagPos_empty (h lev : Nat) :
    flagPos h lev 0 = (1 <<< ((h >>> lev) &&& 0x1f), 0) := by
  simp [flagPos, popcount_zero]

/-- On a bitmap holding exactly the flag of the hash, `flagPos` yields
position `0`. -/
theorem flagPos_self (h lev : Nat) :
    flagPos h lev (1 <<< ((h >>> lev) &&& 0x1f)) =
      (1 <<< ((h >>> lev) &&& 0x1f), 0) := by
  simp [flagPos, two_pow_land_pred, popcount_zero]

theorem popcount_lor_disjoint (x : Nat) :
    ∀ y : Nat, x &&& y = 0 → popcount (x ||| y) = popcount x + popcount y := by
  induction x using Nat.strong_induction_on with
  | _ x ih =>
    intro y h
    rcases Nat.eq_zero_or_pos x with rfl | hx
    · simp [popcount_zero]
    · rcases Nat.eq_zero_or_pos y with rfl | hy
      · simp [popcount_zero]
      · have hne : x ||| y ≠ 0 := by
          intro h0
          have hle : x ≤ x ||| y :=
            Nat.le_of_testBit (fun i hi => by simp [Nat.testBit_or, hi])
          omega
        have h1 : ¬(x % 2 = 1 ∧ y % 2 = 1) := by
          rw [← Nat.and_mod_two_eq_one, h]
          simp
        have h2 := @Nat.or_mod_two_eq_one x y
        have hmod : (x ||| y) % 2 = x % 2 + y % 2 := by
          have m1 : x % 2 < 2 := Nat.mod_lt x (by omega)
          have m2 : y % 2 < 2 := Nat.mod_lt y (by omega)
          have m3 : (x ||| y) % 2 < 2 := Nat.mod_lt _ (by omega)
          omega
        have hdisj : (x / 2) &&& (y / 2) = 0 := by
          rw [← Nat.and_div_two, h]
        rw [popcount_eq (x ||| y), if_neg hne, Nat.or_div_two,
          ih (x / 2) (Nat.div_lt_self hx (by omega)) (y / 2) hdisj,
          popcount_eq x, if_neg (by omega), popcount_eq y, if_neg (by omega),
          hmod]
        omega

theorem popcount_two_pow (i : Nat) : popcount (2 ^ i) = 1 := by
  induction i with
  | zero => rfl
  | succ i ih =>
    rw [popcount_eq, if_neg (Nat.two_pow_pos (i + 1)).ne']
    have h2 : 2 ^ (i + 1) % 2 = 0 := by
      rw [Nat.pow_succ]
      simp
    have h3 : 2 ^ (i + 1) / 2 = 2 ^ i := by
      rw [Nat.pow_succ, Nat.mul_div_cancel _ (by omega)]
    rw [h2, h3, ih]

theorem and_two_pow_of_testBit_true {x i : Nat} (h : x.testBit i = true) :
    x &&& 2 ^ i = 2 ^ i := by
  apply Nat.eq_of_testBit_eq
  intro m
  by_cases hm : i = m
  · subst hm
    simp [Nat.testBit_and, h, Nat.testBit_two_pow_self]
  · simp [Nat.testBit_and, Nat.testBit_two_pow_of_ne hm]

theorem and_two_pow_of_testBit_false {x i : Nat} (h : x.testBit i = false) :
    x &&& 2 ^ i = 0 := by
  apply Nat.eq_of_testBit_eq
  intro m
  by_cases hm : i = m
  · subst hm
    simp [Nat.testBit_and, h]
  · simp [Nat.testBit_and, Nat.testBit_two_pow_of_ne hm]

theorem two_pow_and_mask {i j : Nat} :
    2 ^ i &&& (2 ^ j - 1) = if i < j then 2 ^ i else 0 := by
  by_cases hij : i < j
  · rw [if_pos hij]
    apply Nat.eq_of_testBit_eq
    intro m
    by_cases hm : i = m
    · subst hm
      simp [Nat.testBit_and, Nat.testBit_two_pow_self,
        Nat.testBit_two_pow_sub_one, hij]
    · simp [Nat.testBit_and, Nat.testBit_two_pow_of_ne hm]
  · rw [if_neg hij]
    apply Nat.eq_of_testBit_eq
    intro m
    by_cases hm : i = m
    · subst hm
      simp [Nat.testBit_and, Nat.testBit_two_pow_sub_one, hij]
    · simp [Nat.testBit_and, Nat.testBit_two_pow_of_ne hm]

theorem testBit_false_of_and_two_pow {bmp i : Nat} (hbit : bmp &&& 2 ^ i = 0) :
    bmp.testBit i = false := by
  by_cases h : bmp.testBit i
  · rw [and_two_pow_of_testBit_true h] at hbit
    exact absurd hbit (Nat.two_pow_pos i).ne'
  · exact Bool.of_not_eq_true h

/-- Positions in a C-node slice: inserting a clear bit `i` shifts the
position of flag `j` up by one exactly when `i < j`. -/
theorem popcount_mask_or (bmp i j : Nat) (hbit : bmp &&& 2 ^ i = 0) :
    popcount ((bmp ||| 2 ^ i) &&& (2 ^ j - 1)) =
      popcount (bmp &&& (2 ^ j - 1)) + if i < j then 1 else 0 := by
  have hbi : bmp.testBit i = false := testBit_false_of_and_two_pow hbit
  rw [Nat.and_distrib_right, two_pow_and_mask]
  have hdisj : (bmp &&& (2 ^ j - 1)) &&& (if i < j then 2 ^ i else 0) = 0 := by
    by_cases hij : i < j
    · rw [if_pos hij]
      exact and_two_pow_of_testBit_false (by simp [Nat.testBit_and, hbi])
    · rw [if_neg hij]
      simp
  rw [popcount_lor_disjoint _ _ hdisj]
  by_cases hij : i < j
  · rw [if_pos hij, if_pos hij, popcount_two_pow]
  · rw [if_neg hij, if_neg hij, popcount_zero]

/-- Positions in a C-node slice: removing a set bit `i` shifts the
position of flag `j` down by one exactly when `i < j`. -/
theorem popcount_mask_xor (bmp i j : Nat) (hbit : bmp &&& 2 ^ i = 2 ^ i) :
    popcount (bmp &&& (2 ^ j - 1)) =
      popcount ((bmp ^^^ 2 ^ i) &&& (2 ^ j - 1)) + if i < j then 1 else 0 := by
  have hb : bmp.testBit i = true := by
    by_cases h : bmp.testBit i
    · exact h
    · rw [and_two_pow_of_testBit_false (Bool.of_not_eq_true h)] at hbit
      exact absurd hbit.symm (Nat.two_pow_pos i).ne'
  have hclear : (bmp ^^^ 2 ^ i) &&& 2 ^ i = 0 := by
    apply and_two_pow_of_testBit_false
    simp [Nat.testBit_xor, hb, Nat.testBit_two_pow_self]
  have hre : (bmp ^^^ 2 ^ i) ||| 2 ^ i = bmp := by
    apply Nat.eq_of_testBit_eq
    intro m
    by_cases hm : i = m
    · subst hm
      simp [Nat.testBit_or, Nat.testBit_xor, hb, Nat.testBit_two_pow_self]
    · simp [Nat.testBit_or, Nat.testBit_xor, Nat.testBit_two_pow_of_ne hm]
  conv_lhs => rw [← hre]
  exact popcount_mask_or (bmp ^^^ 2 ^ i) i j hclear

/-- Counting set bits below level `m + 1` adds the bit at `m`. -/
theorem popcount_mask_succ (bmp m : Nat) :
    popcount (bmp &&& (2 ^ (m + 1) - 1)) =
      popcount (bmp &&& (2 ^ m - 1)) + if bmp.testBit m then 1 else 0 := by
  have hsplit : bmp &&& (2 ^ (m + 1) - 1) =
      (bmp &&& (2 ^ m - 1)) ||| (bmp &&& 2 ^ m) := by
    apply Nat.eq_of_testBit_eq
    intro q
    simp only [Nat.testBit_or, Nat.testBit_and, Nat.testBit_two_pow_sub_one]
    by_cases hq : bmp.testBit q
    · simp only [hq, Bool.true_and]
      by_cases h1 : q < m
      · simp [h1, Nat.lt_succ_of_lt h1]
      · by_cases h2 : q = m
        · subst h2
          simp [Nat.testBit_two_pow_self, Nat.lt_succ_self]
        · have h3 : ¬ q < m + 1 := by omega
          simp [h1, h3, Nat.testBit_two_pow_of_ne (fun h => h2 h.symm)]
    · simp [Bool.of_not_eq_true hq]
  have hdisj : (bmp &&& (2 ^ m - 1)) &&& (bmp &&& 2 ^ m) = 0 := by
    apply Nat.eq_of_testBit_eq
    intro q
    simp only [Nat.testBit_and, Nat.testBit_two_pow_sub_one, Nat.zero_testBit]
    by_cases h2 : m = q
    · subst h2
      simp
    · simp [Nat.testBit_two_pow_of_ne h2]
  rw [hsplit, popcount_lor_disjoint _ _ hdisj]
  by_cases hm : bmp.testBit m
  · rw [and_two_pow_of_testBit_true hm, popcount_two_pow, if_pos hm]
  · rw [and_two_pow_of_testBit_false (Bool.of_not_eq_true hm), popcount_zero,
      if_neg hm]

theorem popcount_mask_mono (bmp : Nat) {j i : Nat} (hij : j ≤ i) :
    popcount (bmp &&& (2 ^ j - 1)) ≤ popcount (bmp &&& (2 ^ i - 1)) := by
  have mono : ∀ d m, popcount (bmp &&& (2 ^ m - 1)) ≤
      popcount (bmp &&& (2 ^ (m + d) - 1)) := by
    intro d
    induction d with
    | zero => intro m; exact le_refl _
    | succ d ihd =>
      intro m
      have h1 := popcount_mask_succ bmp m
      have h2 : popcount (bmp &&& (2 ^ (m + 1) - 1)) ≤
          popcount (bmp &&& (2 ^ (m + 1 + d) - 1)) := ihd (m + 1)
      have harr : m + 1 + d = m + (d + 1) := by omega
      rw [harr] at h2
      by_cases hm : bmp.testBit m = true
      · rw [if_pos hm] at h1
        omega
      · rw [if_neg hm] at h1
        omega
  have h := mono (i - j) j
  have harr : j + (i - j) = i := by omega
  rw [harr] at h
  exact h

/-- With the bit of flag `j` set, strictly fewer bits lie below `j` than
below a higher flag `i`. -/
theorem popcount_mask_lt (bmp i j : Nat) (hj : bmp.testBit j = true)
    (hij : j < i) :
    popcount (bmp &&& (2 ^ j - 1)) < popcount (bmp &&& (2 ^ i - 1)) := by
  have h1 : popcount (bmp &&& (2 ^ (j + 1) - 1)) =
      popcount (bmp &&& (2 ^ j - 1)) + 1 := by
    rw [popcount_mask_succ bmp j, if_pos hj]
  have h2 := popcount_mask_mono bmp (show j + 1 ≤ i by omega)
  omega

theorem popcount_and_le (x : Nat) : ∀ y : Nat, popcount (x &&& y) ≤ popcount x := by
  induction x using Nat.strong_induction_on with
  | _ x ih =>
    intro y
    rcases Nat.eq_zero_or_pos x with rfl | hx
    · simp [popcount_zero]
    · by_cases hxy : x &&& y = 0
      · rw [hxy, popcount_zero]
        exact Nat.zero_le _
      · have hm : (x &&& y) % 2 ≤ x % 2 := by
          have h1 := @Nat.and_mod_two_eq_one x y
          have m1 : x % 2 < 2 := Nat.mod_lt x (by omega)
          have m2 : (x &&& y) % 2 < 2 := Nat.mod_lt _ (by omega)
          omega
        rw [popcount_eq (x &&& y), if_neg hxy, Nat.and_div_two,
          popcount_eq x, if_neg (by omega)]
        have := ih (x / 2) (Nat.div_lt_self hx (by omega)) (y / 2)
        omega

/-- Bits strictly below `j ≤ i` are untouched when the bit `i` is
toggled. -/
theorem xor_two_pow_mask_below (bmp i j : Nat) (hij : j ≤ i) :
    (bmp ^^^ 2 ^ i) &&& (2 ^ j - 1) = bmp &&& (2 ^ j - 1) := by
  apply Nat.eq_of_testBit_eq
  intro q
  simp only [Nat.testBit_and, Nat.testBit_xor, Nat.testBit_two_pow_sub_one]
  by_cases hq : q < j
  · simp [hq, Nat.testBit_two_pow_of_ne (by omega : i ≠ q)]
  · simp [hq]

theorem popcount_xor_two_pow {bmp i : Nat} (hb : bmp.testBit i = true) :
    popcount bmp = popcount (bmp ^^^ 2 ^ i) + 1 := by
  have hclear : (bmp ^^^ 2 ^ i) &&& 2 ^ i = 0 := by
    apply and_two_pow_of_testBit_false
    simp [Nat.testBit_xor, hb, Nat.testBit_two_pow_self]
  have hre : (bmp ^^^ 2 ^ i) ||| 2 ^ i = bmp := by
    apply Nat.eq_of_testBit_eq
    intro m
    by_cases hm : i = m
    · subst hm
      simp [Nat.testBit_or, Nat.testBit_xor, hb, Nat.testBit_two_pow_self]
    · simp [Nat.testBit_or, Nat.testBit_xor, Nat.testBit_two_pow_of_ne hm]
  conv_lhs => rw [← hre]
  rw [popcount_lor_disjoint _ _ hclear, popcount_two_pow]

theorem testBit_true_of_and_two_pow_ne {bmp i : Nat}
    (hbit : bmp &&& 2 ^ i ≠ 0) : bmp.testBit i = true := by
  by_cases h : bmp.testBit i
  · exact h
  · exact absurd (and_two_pow_of_testBit_false (Bool.of_not_eq_true h)) hbit

/-! ### List surgery lemmas for the branch slice -/

theorem getElem?_insertAt {α : Type} (l : List α) (p q : Nat) (b : α)
    (hp : p ≤ l.length) :
    (l.take p ++ b :: l.drop p)[q]? =
      if q < p then l[q]? else if q = p then some b else l[q - 1]? := by
  rcases Nat.lt_or_ge q p with hq | hq
  · rw [if_pos hq, List.getElem?_append_left (by simp; omega),
      List.getElem?_take_of_lt hq]
  · rw [if_neg (by omega)]
    rw [List.getElem?_append_right (by simp; omega)]
    have hlen : (l.take p).length = p := by simp; omega
    rcases Nat.eq_or_lt_of_le hq with rfl | hq2
    · rw [if_pos rfl, hlen]
      simp
    · rw [if_neg (by omega), hlen]
      have hsub : q - p = (q - p - 1) + 1 := by omega
      rw [hsub]
      simp only [List.getElem?_cons_succ, List.getElem?_drop]
      congr 1
      omega

theorem getElem?_removeAt {α : Type} (l : List α) (p q : Nat)
    (hp : p < l.length) :
    (l.take p ++ l.drop (p + 1))[q]? =
      if q < p then l[q]? else l[q + 1]? := by
  rcases Nat.lt_or_ge q p with hq | hq
  · rw [if_pos hq, List.getElem?_append_left (by simp; omega),
      List.getElem?_take_of_lt hq]
  · rw [if_neg (by omega)]
    rw [List.getElem?_append_right (by simp; omega)]
    have hlen : (l.take p).length = p := by simp; omega
    rw [hlen, List.getElem?_drop]
    congr 1
    omega

theorem two_pow_or_positions {a b : Nat} (hab : a < b) :
    popcount ((2 ^ a ||| 2 ^ b) &&& (2 ^ a - 1)) = 0 ∧
    popcount ((2 ^ a ||| 2 ^ b) &&& (2 ^ b - 1)) = 1 := by
  constructor
  · rw [Nat.and_distrib_right, two_pow_and_mask, two_pow_and_mask,
      if_neg (lt_irrefl a), if_neg (by omega : ¬ b < a)]
    simp [popcount_zero]
  · rw [Nat.and_distrib_right, two_pow_and_mask, two_pow_and_mask,
      if_pos hab, if_neg (lt_irrefl b)]
    simp [popcount_two_pow]

/-! ### The C-node branch/bitmap correspondence (node algebra) -/

/-- Inserting a branch under a clear flag: the slice grows to
`popcount` of the grown bitmap, the new branch sits at the position of its
flag, and every present branch keeps the position of its own flag. -/
theorem cnInserted_mapping {K V : Type} (bmp : Nat) (slice : List (Br K V))
    (i : Nat) (br : Br K V) (gen : Nat)
    (hlen : slice.length = popcount bmp)
    (hbit : bmp &&& (1 <<< i) = 0) :
    ∃ slice',
      cnInserted bmp slice (popcount (bmp &&& (1 <<< i - 1))) (1 <<< i) br gen =
        .cnode (bmp ||| 1 <<< i) slice' gen ∧
      slice'.length = popcount (bmp ||| 1 <<< i) ∧
      slice'[popcount ((bmp ||| 1 <<< i) &&& (1 <<< i - 1))]? = some br ∧
      (∀ j, (bmp ||| 1 <<< i).testBit j = true → j ≠ i →
        slice'[popcount ((bmp ||| 1 <<< i) &&& (1 <<< j - 1))]? =
          slice[popcount (bmp &&& (1 <<< j - 1))]?) := by
  simp only [Nat.one_shiftLeft] at hbit ⊢
  set p := popcount (bmp &&& (2 ^ i - 1)) with hp
  have hple : p ≤ slice.length := by
    rw [hlen]
    exact popcount_and_le bmp (2 ^ i - 1)
  have hpc : popcount (bmp ||| 2 ^ i) = popcount bmp + 1 := by
    rw [popcount_lor_disjoint _ _ hbit, popcount_two_pow]
  refine ⟨slice.take p ++ br :: slice.drop p, rfl, ?_, ?_, ?_⟩
  · simp only [List.length_append, List.length_take, List.length_cons,
      List.length_drop, hpc]
    omega
  · have hposi : popcount ((bmp ||| 2 ^ i) &&& (2 ^ i - 1)) = p := by
      rw [popcount_mask_or bmp i i hbit, if_neg (lt_irrefl i)]
      omega
    rw [hposi, getElem?_insertAt slice p p br hple, if_neg (lt_irrefl p),
      if_pos rfl]
  · intro j hjset hji
    have hbmpj : bmp.testBit j = true := by
      rw [Nat.testBit_or, Nat.testBit_two_pow_of_ne hji.symm, Bool.or_false]
        at hjset
      exact hjset
    rw [popcount_mask_or bmp i j hbit]
    by_cases hij : i < j
    · rw [if_pos hij]
      have hge : p ≤ popcount (bmp &&& (2 ^ j - 1)) :=
        popcount_mask_mono bmp (le_of_lt hij)
      rw [getElem?_insertAt slice _ _ br hple, if_neg (by omega),
        if_neg (by omega)]
      simp only [Nat.add_sub_cancel]
    · rw [if_neg hij]
      simp only [Nat.add_zero]
      have hlt : popcount (bmp &&& (2 ^ j - 1)) < p :=
        popcount_mask_lt bmp i j hbmpj (by omega)
      rw [getElem?_insertAt slice _ _ br hple, if_pos hlt]

/-- Updating the branch under a set flag: the slice keeps its length, the
new branch sits at the position of the flag, and every other present
branch keeps its position. -/
theorem cnUpdated_mapping {K V : Type} (bmp : Nat) (slice : List (Br K V))
    (i : Nat) (br : Br K V) (gen : Nat)
    (hlen : slice.length = popcount bmp)
    (hbit : bmp &&& (1 <<< i) ≠ 0) :
    ∃ slice',
      cnUpdated bmp slice (popcount (bmp &&& (1 <<< i - 1))) br gen =
        .cnode bmp slice' gen ∧
      slice'.length = popcount bmp ∧
      slice'[popcount (bmp &&& (1 <<< i - 1))]? = some br ∧
      (∀ j, bmp.testBit j = true → j ≠ i →
        slice'[popcount (bmp &&& (1 <<< j - 1))]? =
          slice[popcount (bmp &&& (1 <<< j - 1))]?) := by
  simp only [Nat.one_shiftLeft] at hbit ⊢
  have hbi : bmp.testBit i = true := testBit_true_of_and_two_pow_ne hbit
  set p := popcount (bmp &&& (2 ^ i - 1)) with hp
  have hplt : p < slice.length := by
    have h1 : popcount (bmp &&& (2 ^ (i + 1) - 1)) = p + 1 := by
      rw [popcount_mask_succ bmp i, if_pos hbi]
    have h2 := popcount_and_le bmp (2 ^ (i + 1) - 1)
    omega
  refine ⟨slice.set p br, rfl, ?_, ?_, ?_⟩
  · rw [List.length_set, hlen]
  · exact List.getElem?_set_self hplt
  · intro j hj hji
    apply List.getElem?_set_ne
    by_cases hij : i < j
    · exact (popcount_mask_lt bmp j i hbi hij).ne
    · exact (popcount_mask_lt bmp i j hj (by omega)).ne'

/-- Removing the branch under a set flag: the slice shrinks to `popcount`
of the cleared bitmap, and every other present branch sits at the position
of its flag in the cleared bitmap. -/
theorem cnRemoved_mapping {K V : Type} (bmp : Nat) (slice : List (Br K V))
    (i : Nat) (gen : Nat)
    (hlen : slice.length = popcount bmp)
    (hbit : bmp &&& (1 <<< i) ≠ 0) :
    ∃ slice',
      cnRemoved bmp slice (popcount (bmp &&& (1 <<< i - 1))) (1 <<< i) gen =
        .cnode (bmp ^^^ 1 <<< i) slice' gen ∧
      slice'.length = popcount (bmp ^^^ 1 <<< i) ∧
      popcount (bmp ^^^ 1 <<< i) + 1 = popcount bmp ∧
      (∀ j, bmp.testBit j = true → j ≠ i →
        slice'[popcount ((bmp ^^^ 1 <<< i) &&& (1 <<< j - 1))]? =
          slice[popcount (bmp &&& (1 <<< j - 1))]?) := by
  simp only [Nat.one_shiftLeft] at hbit ⊢
  have hbi : bmp.testBit i = true := testBit_true_of_and_two_pow_ne hbit
  have hxorpc : popcount bmp = popcount (bmp ^^^ 2 ^ i) + 1 :=
    popcount_xor_two_pow hbi
  set p := popcount (bmp &&& (2 ^ i - 1)) with hp
  have hplt : p < slice.length := by
    have h1 : popcount (bmp &&& (2 ^ (i + 1) - 1)) = p + 1 := by
      rw [popcount_mask_succ bmp i, if_pos hbi]
    have h2 := popcount_and_le bmp (2 ^ (i + 1) - 1)
    omega
  refine ⟨slice.take p ++ slice.drop (p + 1), rfl, ?_, by omega, ?_⟩
  · simp only [List.length_append, List.length_take, List.length_drop]
    omega
  · intro j hj hji
    have hmx := popcount_mask_xor bmp i j (and_two_pow_of_testBit_true hbi)
    by_cases hij : i < j
    · rw [if_pos hij] at hmx
      have hge : p + 1 ≤ popcount (bmp &&& (2 ^ j - 1)) := by
        have h1 : popcount (bmp &&& (2 ^ (i + 1) - 1)) = p + 1 := by
          rw [popcount_mask_succ bmp i, if_pos hbi]
        have h2 := popcount_mask_mono bmp (show i + 1 ≤ j by omega)
        omega
      rw [getElem?_removeAt slice p _ hplt, if_neg (by omega)]
      congr 1
      omega
    · rw [if_neg hij] at hmx
      have hjlei : j ≤ i := by omega
      rw [getElem?_removeAt slice p _ hplt, if_pos (by
        have := popcount_mask_lt bmp i j hj (by omega)
        omega)]
      congr 1
      omega

/-- `cNode.renewed` keeps the slice length (and the bitmap untouched). -/
theorem renewedSlice_length {K V : Type} (gen : Nat) :
    ∀ (slice : List (Br K V)) (st st' : St K V) (slice' : List (Br K V)),
      renewedSlice st gen slice = some (st', slice') →
      slice'.length = slice.length := by
  intro slice
  induction slice with
  | nil =>
    intro st st' slice' h
    simp only [renewedSlice, Option.some.injEq, Prod.mk.injEq] at h
    rw [← h.2]
  | cons b rest ih =>
    intro st st' slice' h
    cases b with
    | inode a =>
      simp only [renewedSlice] at h
      rcases hc : copyToGen st a gen with _ | ⟨st1, a'⟩
      · rw [hc] at h
        cases h
      · rw [hc] at h
        dsimp only at h
        rcases hr : renewedSlice st1 gen rest with _ | ⟨st2, rest'⟩
        · rw [hr] at h
          cases h
        · rw [hr] at h
          simp only [Option.some.injEq, Prod.mk.injEq] at h
          rw [← h.2]
          simp only [List.length_cons]
          rw [ih st1 st2 rest' hr]
    | snode e =>
      simp only [renewedSlice] at h
      rcases hr : renewedSlice st gen rest with _ | ⟨st2, rest'⟩
      · rw [hr] at h
        cases h
      · rw [hr] at h
        simp only [Option.some.injEq, Prod.mk.injEq] at h
        rw [← h.2]
        simp only [List.length_cons]
        rw [ih st st2 rest' hr]

/-- Every C-node built by `newMainNode` satisfies the branch-count
invariant, and for distinct chunk indices its two S-node branches sit in
ascending index order at the positions of their flags. -/
theorem newMainNodeAux_mainOK {K V : Type} :
    ∀ (fuel : Nat) (st : St K V) (x : Entry K V) (xhc : Nat) (y : Entry K V)
      (yhc lev gen : Nat),
      mainOK (newMainNodeAux fuel st x xhc y yhc lev gen).2 := by
  intro fuel
  induction fuel with
  | zero =>
    intro st x xhc y yhc lev gen bmp slice g h
    cases h
  | succ fuel _ =>
    intro st x xhc y yhc lev gen
    intro bmp slice g h
    simp only [newMainNodeAux] at h
    by_cases h32 : 32 ≤ lev
    · rw [if_pos h32] at h
      cases h
    · rw [if_neg h32] at h
      set xidx := (xhc >>> lev) &&& 0x1f with hxidx
      set yidx := (yhc >>> lev) &&& 0x1f with hyidx
      have hxb : xidx ≤ 31 := Nat.and_le_right
      have hyb : yidx ≤ 31 := Nat.and_le_right
      have hlt : ∀ m, m ≤ 31 → 1 <<< m < 2 ^ 32 := by
        intro m hm
        rw [Nat.one_shiftLeft]
        calc 2 ^ m ≤ 2 ^ 31 := Nat.pow_le_pow_right (by omega) hm
          _ < 2 ^ 32 := by omega
      by_cases hxy : xidx = yidx
      · rw [if_pos hxy] at h
        cases h
        constructor
        · rw [← hxy, Nat.or_self, Nat.one_shiftLeft, popcount_two_pow]
          rfl
        · rw [← hxy, Nat.or_self]
          exact hlt xidx hxb
      · rw [if_neg hxy] at h
        have hdisj : (1 <<< xidx) &&& (1 <<< yidx) = 0 := by
          simp only [Nat.one_shiftLeft]
          exact and_two_pow_of_testBit_false
            (Nat.testBit_two_pow_of_ne hxy)
        have hpc2 : popcount ((1 <<< xidx) ||| (1 <<< yidx)) = 2 := by
          simp only [Nat.one_shiftLeft] at hdisj ⊢
          rw [popcount_lor_disjoint _ _ hdisj, popcount_two_pow,
            popcount_two_pow]
        by_cases hord : xidx < yidx
        · rw [if_pos hord] at h
          cases h
          exact ⟨by rw [hpc2]; rfl,
            Nat.or_lt_two_pow (hlt xidx hxb) (hlt yidx hyb)⟩
        · rw [if_neg hord] at h
          cases h
          exact ⟨by rw [hpc2]; rfl,
            Nat.or_lt_two_pow (hlt xidx hxb) (hlt yidx hyb)⟩

/-! ### Heap access lemmas -/

theorem length_writeMem {K V : Type} (mem : List (Cell K V)) (a : Nat)
    (m : MainNode K V) : (writeMem mem a m).length = mem.length := by
  induction mem generalizing a with
  | nil => rfl
  | cons c cs ih =>
    cases a with
    | zero => rfl
    | succ a => simp [writeMem, ih]

theorem getElem?_writeMem {K V : Type} (mem : List (Cell K V)) (a : Nat)
    (m : MainNode K V) (b : Nat) :
    (writeMem mem a m)[b]? =
      if a = b then (mem[b]?).map (fun c => { c with main := m })
      else mem[b]? := by
  induction mem generalizing a b with
  | nil => cases a <;> cases b <;> simp [writeMem]
  | cons c cs ih =>
    cases a with
    | zero =>
      cases b with
      | zero => simp [writeMem]
      | succ b => simp [writeMem]
    | succ a =>
      cases b with
      | zero => simp [writeMem]
      | succ b =>
        simp only [writeMem, List.getElem?_cons_succ, ih]
        by_cases h : a = b
        · simp [h]
        · simp [h]

theorem cell_write {K V : Type} (st : St K V) (a : Nat) (m : MainNode K V)
    (b : Nat) :
    (st.write a m).cell b =
      if a = b then (st.cell b).map (fun c => { c with main := m })
      else st.cell b := by
  simp [St.write, St.cell, getElem?_writeMem]

theorem cell_alloc {K V : Type} (st : St K V) (m : MainNode K V) (gen : Nat)
    (b : Nat) :
    (st.alloc m gen).1.cell b =
      if b = st.mem.length then some ⟨m, gen⟩ else st.cell b := by
  simp only [St.alloc, St.cell]
  by_cases h : b = st.mem.length
  · subst h
    rw [if_pos rfl, List.get?_concat_length]
  · rw [if_neg h]
    rcases Nat.lt_or_ge b st.mem.length with hb | hb
    · rw [List.get?_append hb]
    · have h1 : st.mem.length ≤ b := hb
      have h2 : (st.mem ++ [(⟨m, gen⟩ : Cell K V)]).length ≤ b := by
        simp
        omega
      rw [List.get?_eq_none.mpr h2, List.get?_eq_none.mpr h1]

theorem cell_eq_none_iff {K V : Type} (st : St K V) (b : Nat) :
    st.cell b = none ↔ st.mem.length ≤ b := by
  simp [St.cell]

theorem cell_isSome_of_lt {K V : Type} {st : St K V} {b : Nat}
    (h : b < st.mem.length) : ∃ cl, st.cell b = some cl := by
  rcases hc : st.cell b with _ | cl
  · rw [cell_eq_none_iff] at hc
    omega
  · exact ⟨cl, rfl⟩

theorem gcasOutcome_mem {K V : Type} (st : St K V) :
    (gcasOutcome st).2.mem = st.mem := by
  rcases st with ⟨mem, ng, orc⟩
  cases orc <;> rfl

theorem gcasOutcome_cell {K V : Type} (st : St K V) (b : Nat) :
    (gcasOutcome st).2.cell b = st.cell b := by
  simp [St.cell, gcasOutcome_mem]

theorem gcasOutcome_nextGen {K V : Type} (st : St K V) :
    (gcasOutcome st).2.nextGen = st.nextGen := by
  rcases st with ⟨mem, ng, orc⟩
  cases orc <;> rfl

theorem gcasOutcome_orc_nil {K V : Type} (st : St K V) (h : st.orc = []) :
    (gcasOutcome st).2.orc = [] := by
  rcases st with ⟨mem, ng, orc⟩
  cases orc
  · rfl
  · cases h

theorem write_mem_length {K V : Type} (st : St K V) (a : Nat)
    (m : MainNode K V) : (st.write a m).mem.length = st.mem.length := by
  simp [St.write, length_writeMem]

theorem alloc_mem_length {K V : Type} (st : St K V) (m : MainNode K V)
    (gen : Nat) : (st.alloc m gen).1.mem.length = st.mem.length + 1 := by
  simp [St.alloc]

/-! ### Invariant and frame transfer lemmas -/

theorem cnLenOK_of_cells {K V : Type} {st st' : St K V}
    (h : ∀ b, st'.cell b = st.cell b) (hok : cnLenOK st) : cnLenOK st' :=
  fun a cl hc => hok a cl (by rw [← h a]; exact hc)

theorem mainOK_of_read {K V : Type} {st : St K V} (hok : cnLenOK st)
    {a : Nat} {m : MainNode K V} (h : gcasRead st a = some m) : mainOK m := by
  unfold gcasRead at h
  rcases hc : st.cell a with _ | cl
  · rw [hc] at h
    cases h
  · rw [hc] at h
    cases h
    exact hok a cl hc

theorem cnLenOK_write {K V : Type} {st : St K V} {a : Nat} {m : MainNode K V}
    (hok : cnLenOK st) (hm : mainOK m) : cnLenOK (st.write a m) := by
  intro b cl hc
  rw [cell_write] at hc
  by_cases hab : a = b
  · rw [if_pos hab] at hc
    rcases hcb : st.cell b with _ | c0
    · rw [hcb] at hc
      cases hc
    · rw [hcb] at hc
      cases hc
      exact hm
  · rw [if_neg hab] at hc
    exact hok b cl hc

theorem cnLenOK_alloc {K V : Type} {st : St K V} {m : MainNode K V}
    {gen : Nat} (hok : cnLenOK st) (hm : mainOK m) :
    cnLenOK (st.alloc m gen).1 := by
  intro b cl hc
  rw [cell_alloc] at hc
  by_cases hb : b = st.mem.length
  · rw [if_pos hb] at hc
    cases hc
    exact hm
  · rw [if_neg hb] at hc
    exact hok b cl hc

theorem opFrame_refl {K V : Type} (st : St K V) (g : Nat) : opFrame st st g := by
  refine ⟨le_refl _, fun _ _ _ => rfl, ?_, ?_, rfl, fun h => h⟩
  · intro b cl cl' h1 h2
    rw [h1] at h2
    cases h2
    rfl
  · intro b cl hb hc
    rw [(cell_eq_none_iff st b).mpr hb] at hc
    cases hc

theorem opFrame_of_cells {K V : Type} {st st' : St K V} {g : Nat}
    (hmem : st'.mem = st.mem) (hng : st'.nextGen = st.nextGen)
    (horc : st.orc = [] → st'.orc = []) : opFrame st st' g := by
  have hc : ∀ b, st'.cell b = st.cell b := by
    intro b
    simp [St.cell, hmem]
  refine ⟨by rw [hmem], fun b _ _ => hc b, fun b cl cl' h1 h2 => ?_, ?_,
    hng, horc⟩
  · rw [hc b, h1] at h2
    cases h2
    rfl
  · intro b cl hb hcb
    rw [hc b, (cell_eq_none_iff st b).mpr hb] at hcb
    cases hcb

theorem opFrame_trans {K V : Type} {st1 st2 st3 : St K V} {g : Nat}
    (h1 : opFrame st1 st2 g) (h2 : opFrame st2 st3 g) : opFrame st1 st3 g := by
  obtain ⟨l1, p1, s1, n1, g1, o1⟩ := h1
  obtain ⟨l2, p2, s2, n2, g2, o2⟩ := h2
  refine ⟨le_trans l1 l2, ?_, ?_, ?_, by rw [g2, g1], fun h => o2 (o1 h)⟩
  · intro b hb hg
    have e1 : st2.cell b = st1.cell b := p1 b hb hg
    have e2 : st3.cell b = st2.cell b := by
      apply p2 b (by omega)
      intro cl hcl
      exact hg cl (by rw [← e1]; exact hcl)
    rw [e2, e1]
  · intro b cl cl' hc1 hc3
    have hb : b < st1.mem.length := by
      by_contra hb
      rw [(cell_eq_none_iff st1 b).mpr (by omega)] at hc1
      cases hc1
    obtain ⟨cl2, hc2⟩ := cell_isSome_of_lt (show b < st2.mem.length by omega)
    rw [s2 b cl2 cl' hc2 hc3, s1 b cl cl2 hc1 hc2]
  · intro b cl hb hc3
    by_cases hb2 : b < st2.mem.length
    · obtain ⟨cl2, hc2⟩ := cell_isSome_of_lt hb2
      rw [s2 b cl2 cl hc2 hc3]
      exact n1 b cl2 hb hc2
    · exact n2 b cl (by omega) hc3

theorem opFrame_write {K V : Type} {st : St K V} {a : Nat} {cl : Cell K V}
    {m : MainNode K V} {g : Nat} (ha : st.cell a = some cl) (hg : cl.gen = g) :
    opFrame st (st.write a m) g := by
  have hlen : (st.write a m).mem.length = st.mem.length := write_mem_length st a m
  refine ⟨by omega, ?_, ?_, ?_, rfl, fun h => h⟩
  · intro b hb hne
    rw [cell_write]
    by_cases hab : a = b
    · subst hab
      exact absurd hg (hne cl ha)
    · rw [if_neg hab]
  · intro b cl1 cl' h1 h2
    rw [cell_write] at h2
    by_cases hab : a = b
    · rw [if_pos hab, h1] at h2
      cases h2
      rfl
    · rw [if_neg hab, h1] at h2
      cases h2
      rfl
  · intro b cl1 hb hc
    rw [cell_write] at hc
    by_cases hab : a = b
    · subst hab
      rw [(cell_eq_none_iff st a).mpr hb] at ha
      cases ha
    · rw [if_neg hab, (cell_eq_none_iff st b).mpr hb] at hc
      cases hc

theorem opFrame_alloc {K V : Type} (st : St K V) (m : MainNode K V) (g : Nat) :
    opFrame st (st.alloc m g).1 g := by
  have hlen := alloc_mem_length st m g
  refine ⟨by omega, ?_, ?_, ?_, rfl, fun h => h⟩
  · intro b hb _
    rw [cell_alloc, if_neg (by omega)]
  · intro b cl cl' h1 h2
    have hb : b < st.mem.length := by
      by_contra hb
      rw [(cell_eq_none_iff st b).mpr (by omega)] at h1
      cases h1
    rw [cell_alloc, if_neg (by omega), h1] at h2
    cases h2
    rfl
  · intro b cl hb hc
    rw [cell_alloc] at hc
    by_cases hbl : b = st.mem.length
    · rw [if_pos hbl] at hc
      cases hc
      rfl
    · rw [if_neg hbl, (cell_eq_none_iff st b).mpr hb] at hc
      cases hc

/-! ### Frame and invariant preservation through the protocol helpers -/

theorem gcas_frame {K V : Type} [DecidableEq K] [DecidableEq V] {st : St K V}
    {a : Nat} {old n : MainNode K V} {st' : St K V} {ok : Bool} {g : Nat}
    {cl : Cell K V} (hg : gcas st a old n = some (st', ok))
    (ha : st.cell a = some cl) (hgen : cl.gen = g) (hok : cnLenOK st)
    (hn : mainOK n) : cnLenOK st' ∧ opFrame st st' g := by
  unfold gcas at hg
  rw [ha] at hg
  dsimp only at hg
  by_cases he : cl.main = old
  · rw [if_pos he] at hg
    rcases ho : gcasOutcome st with ⟨b, st1⟩
    have hmem : st1.mem = st.mem := by
      have h0 := gcasOutcome_mem st
      rw [ho] at h0
      exact h0
    have hng : st1.nextGen = st.nextGen := by
      have h0 := gcasOutcome_nextGen st
      rw [ho] at h0
      exact h0
    have horc : st.orc = [] → st1.orc = [] := by
      intro h0
      have h1 := gcasOutcome_orc_nil st h0
      rw [ho] at h1
      exact h1
    have hcells : ∀ b2, st1.cell b2 = st.cell b2 := by
      intro b2
      simp [St.cell, hmem]
    rw [ho] at hg
    cases b
    · dsimp only at hg
      cases hg
      exact ⟨cnLenOK_of_cells hcells hok, opFrame_of_cells hmem hng horc⟩
    · dsimp only at hg
      cases hg
      refine ⟨cnLenOK_write (cnLenOK_of_cells hcells hok) hn, ?_⟩
      exact opFrame_trans (opFrame_of_cells hmem hng horc)
        (opFrame_write (by rw [hcells a]; exact ha) hgen)
  · rw [if_neg he] at hg
    cases hg
    exact ⟨hok, opFrame_refl st g⟩

theorem renewedSlice_frame {K V : Type} {g : Nat} :
    ∀ (slice : List (Br K V)) (st st' : St K V) (slice' : List (Br K V)),
      renewedSlice st g slice = some (st', slice') → cnLenOK st →
      cnLenOK st' ∧ opFrame st st' g := by
  intro slice
  induction slice with
  | nil =>
    intro st st' slice' h hok
    simp only [renewedSlice, Option.some.injEq, Prod.mk.injEq] at h
    rw [← h.1]
    exact ⟨hok, opFrame_refl st g⟩
  | cons b rest ih =>
    intro st st' slice' h hok
    cases b with
    | inode a =>
      simp only [renewedSlice] at h
      rcases hc : copyToGen st a g with _ | ⟨st1, a'⟩
      · rw [hc] at h
        cases h
      · rw [hc] at h
        dsimp only at h
        have hstep : cnLenOK st1 ∧ opFrame st st1 g := by
          unfold copyToGen at hc
          rcases hm : gcasRead st a with _ | m
          · rw [hm] at hc
            cases hc
          · rw [hm] at hc
            cases hc
            exact ⟨cnLenOK_alloc hok (mainOK_of_read hok hm),
              opFrame_alloc st m g⟩
        rcases hr : renewedSlice st1 g rest with _ | ⟨st2, rest'⟩
        · rw [hr] at h
          cases h
        · rw [hr] at h
          simp only [Option.some.injEq, Prod.mk.injEq] at h
          have hrec := ih st1 st2 rest' hr hstep.1
          rw [← h.1]
          exact ⟨hrec.1, opFrame_trans hstep.2 hrec.2⟩
    | snode e =>
      simp only [renewedSlice] at h
      rcases hr : renewedSlice st g rest with _ | ⟨st2, rest'⟩
      · rw [hr] at h
        cases h
      · rw [hr] at h
        simp only [Option.some.injEq, Prod.mk.injEq] at h
        have hrec := ih st st2 rest' hr hok
        rw [← h.1]
        exact hrec

theorem newMainNodeAux_frame {K V : Type} (g : Nat) :
    ∀ (fuel : Nat) (st : St K V) (x : Entry K V) (xhc : Nat) (y : Entry K V)
      (yhc lev : Nat), cnLenOK st →
      cnLenOK (newMainNodeAux fuel st x xhc y yhc lev g).1 ∧
      opFrame st (newMainNodeAux fuel st x xhc y yhc lev g).1 g := by
  intro fuel
  induction fuel with
  | zero =>
    intro st x xhc y yhc lev hok
    exact ⟨hok, opFrame_refl st g⟩
  | succ fuel ih =>
    intro st x xhc y yhc lev hok
    simp only [newMainNodeAux]
    by_cases h32 : 32 ≤ lev
    · rw [if_pos h32]
      exact ⟨hok, opFrame_refl st g⟩
    · rw [if_neg h32]
      by_cases hxy : (xhc >>> lev) &&& 0x1f = (yhc >>> lev) &&& 0x1f
      · rw [if_pos hxy]
        have hrec := ih st x xhc y yhc (lev + 5) hok
        have hm := newMainNodeAux_mainOK fuel st x xhc y yhc (lev + 5) g
        exact ⟨cnLenOK_alloc hrec.1 hm,
          opFrame_trans hrec.2 (opFrame_alloc _ _ g)⟩
      · rw [if_neg hxy]
        by_cases hord : (xhc >>> lev) &&& 0x1f < (yhc >>> lev) &&& 0x1f
        · rw [if_pos hord]
          exact ⟨hok, opFrame_refl st g⟩
        · rw [if_neg hord]
          exact ⟨hok, opFrame_refl st g⟩

theorem compressSlice_length {K V : Type} {st : St K V} :
    ∀ (slice slice' : List (Br K V)), compressSlice st slice = some slice' →
      slice'.length = slice.length := by
  intro slice
  induction slice with
  | nil =>
    intro slice' h
    simp only [compressSlice, Option.some.injEq] at h
    rw [← h]
  | cons b rest ih =>
    intro slice' h
    cases b with
    | inode a =>
      simp only [compressSlice] at h
      rcases hc : st.cell a with _ | c
      · rw [hc] at h
        cases h
      · rw [hc] at h
        rcases hr : compressSlice st rest with _ | rest'
        · rw [hr] at h
          cases h
        · rw [hr] at h
          simp only [Option.some.injEq] at h
          rw [← h]
          simp only [List.length_cons]
          rw [ih rest' hr]
    | snode e =>
      simp only [compressSlice] at h
      rcases hr : compressSlice st rest with _ | rest'
      · rw [hr] at h
        cases h
      · rw [hr] at h
        simp only [Option.some.injEq] at h
        rw [← h]
        simp only [List.length_cons]
        rw [ih rest' hr]

theorem toContracted_mainOK {K V : Type} {bmp : Nat} {slice : List (Br K V)}
    {g lev : Nat} (hlen : slice.length = popcount bmp) (hb : bmp < 2 ^ 32) :
    mainOK (toContracted bmp slice g lev) := by
  unfold toContracted
  by_cases hc : 0 < lev ∧ slice.length = 1
  · rw [if_pos hc]
    rcases slice with _ | ⟨b0, rest⟩
    · exact absurd hc.2 (by simp)
    · rcases rest with _ | ⟨b1, rest⟩
      · cases b0 with
        | snode e =>
          intro b' s' g' h
          cases h
        | inode a =>
          intro b' s' g' h
          cases h
          exact ⟨hlen, hb⟩
      · exfalso
        have h2 := hc.2
        simp at h2
  · rw [if_neg hc]
    intro b' s' g' h
    cases h
    exact ⟨hlen, hb⟩

theorem toContractedM_mainOK {K V : Type} {m : MainNode K V} {lev : Nat}
    (hm : mainOK m) : mainOK (toContractedM m lev) := by
  cases m with
  | cnode bmp slice g =>
    have h := hm bmp slice g rfl
    exact toContracted_mainOK h.1 h.2
  | tnode e => exact hm
  | lnode es => exact hm
  | nilMain => exact hm

theorem toCompressed_mainOK {K V : Type} {st : St K V} {bmp : Nat}
    {slice : List (Br K V)} {lev : Nat} {m' : MainNode K V}
    (h : toCompressed st bmp slice lev = some m')
    (hlen : slice.length = popcount bmp) (hb : bmp < 2 ^ 32) : mainOK m' := by
  unfold toCompressed at h
  rcases hc : compressSlice st slice with _ | slice'
  · rw [hc] at h
    cases h
  · rw [hc] at h
    cases h
    exact toContracted_mainOK (by rw [compressSlice_length slice slice' hc]; exact hlen) hb

theorem clean_frame {K V : Type} [DecidableEq K] [DecidableEq V] {st : St K V}
    {a lev : Nat} {st' : St K V} {bres : Bool} {g : Nat} {cl : Cell K V}
    (h : clean st a lev = some (st', bres)) (ha : st.cell a = some cl)
    (hgen : cl.gen = g) (hok : cnLenOK st) :
    cnLenOK st' ∧ opFrame st st' g := by
  unfold clean at h
  have hr : gcasRead st a = some cl.main := by
    unfold gcasRead
    rw [ha]
    rfl
  rw [hr] at h
  dsimp only at h
  rcases hm : cl.main with ⟨bmp, slice, cg⟩ | ⟨te⟩ | ⟨es⟩ | _
  · rw [hm] at h
    dsimp only at h
    rcases hcp : toCompressed st bmp slice lev with _ | m'
    · rw [hcp] at h
      cases h
    · rw [hcp] at h
      have hmo := hok a cl ha bmp slice cg hm
      rw [← hm] at h
      exact gcas_frame h ha hgen hok (toCompressed_mainOK hcp hmo.1 hmo.2)
  · rw [hm] at h
    dsimp only at h
    cases h
    exact ⟨hok, opFrame_refl st g⟩
  · rw [hm] at h
    dsimp only at h
    cases h
    exact ⟨hok, opFrame_refl st g⟩
  · rw [hm] at h
    dsimp only at h
    cases h
    exact ⟨hok, opFrame_refl st g⟩

theorem cleanOpt_frame {K V : Type} [DecidableEq K] [DecidableEq V]
    {st : St K V} {parent : Option Nat} {lev : Nat} {st' : St K V} {g : Nat}
    (h : cleanOpt st parent lev = some st')
    (hp : ∀ p, parent = some p → ∀ pcl, st.cell p = some pcl → pcl.gen = g)
    (hok : cnLenOK st) : cnLenOK st' ∧ opFrame st st' g := by
  unfold cleanOpt at h
  rcases parent with _ | p
  · cases h
  · dsimp only at h
    rcases hc : clean st p lev with _ | ⟨st1, b1⟩
    · rw [hc] at h
      cases h
    · rw [hc] at h
      cases h
      rcases hcell : st.cell p with _ | pcl
      · unfold clean gcasRead at hc
        rw [hcell] at hc
        cases hc
      · exact clean_frame hc hcell (hp p rfl pcl hcell) hok

theorem cleanParent_frame {K V : Type} [DecidableEq K] [DecidableEq V] :
    ∀ (fuel : Nat) (st : St K V) (c : CMap) (p i hc lev startGen : Nat)
      (st' : St K V),
      cleanParent fuel st c p i hc lev startGen = some st' →
      (∀ pcl, st.cell p = some pcl → pcl.gen = startGen) → cnLenOK st →
      cnLenOK st' ∧ opFrame st st' startGen := by
  intro fuel
  induction fuel with
  | zero =>
    intro st c p i hc lev startGen st' h hp hok
    cases h
  | succ fuel ih =>
    intro st c p i hcd lev startGen st' h hp hok
    simp only [cleanParent] at h
    rcases hci : st.cell i with _ | ic
    · rw [hci] at h
      cases h
    · rw [hci] at h
      rcases hcp : st.cell p with _ | pc
      · rw [hcp] at h
        cases h
      · rw [hcp] at h
        dsimp only at h
        rcases hpm : pc.main with ⟨bmp, slice, cg⟩ | ⟨te⟩ | ⟨es⟩ | _
        · rw [hpm] at h
          dsimp only at h
          by_cases hflag : bmp &&& (flagPos hcd lev bmp).1 = 0
          · rw [if_pos hflag] at h
            cases h
            exact ⟨hok, opFrame_refl st startGen⟩
          · rw [if_neg hflag] at h
            rcases hsub : slice.get? (flagPos hcd lev bmp).2 with _ | sub
            · rw [hsub] at h
              cases h
            · rw [hsub] at h
              dsimp only at h
              by_cases hcnd : sub ≠ Br.inode i ∨ isTnode ic.main = false
              · rw [if_pos hcnd] at h
                cases h
                exact ⟨hok, opFrame_refl st startGen⟩
              · rw [if_neg hcnd] at h
                have hpmo := hok p pc hcp bmp slice cg hpm
                have hnew : mainOK (toContractedM
                    (cnUpdated bmp slice (flagPos hcd lev bmp).2
                      (resurrect i ic.main) ic.gen) lev) := by
                  apply toContractedM_mainOK
                  intro b' s' g' hh
                  unfold cnUpdated at hh
                  cases hh
                  refine ⟨?_, hpmo.2⟩
                  rw [List.length_set]
                  exact hpmo.1
                rcases hg : gcas st p (MainNode.cnode bmp slice cg) (toContractedM
                    (cnUpdated bmp slice (flagPos hcd lev bmp).2
                      (resurrect i ic.main) ic.gen) lev) with _ | ⟨st1, okb⟩
                · rw [hg] at h
                  cases h
                · rw [hg] at h
                  dsimp only at h
                  have hgf := gcas_frame hg hcp (hp pc hcp) hok hnew
                  cases okb with
                  | true =>
                    cases h
                    exact hgf
                  | false =>
                    rcases hcr : st1.cell c.root with _ | rc
                    · rw [hcr] at h
                      cases h
                    · rw [hcr] at h
                      dsimp only at h
                      by_cases hgne : rc.gen ≠ startGen
                      · rw [if_pos hgne] at h
                        cases h
                        exact hgf
                      · rw [if_neg hgne] at h
                        have hp1 : ∀ pcl', st1.cell p = some pcl' →
                            pcl'.gen = startGen := by
                          intro pcl' hcl'
                          rw [hgf.2.2.2.1 p pc pcl' hcp hcl']
                          exact hp pc hcp
                        have hrec := ih st1 c p i hcd lev startGen st' h hp1
                          hgf.1
                        exact ⟨hrec.1, opFrame_trans hgf.2 hrec.2⟩
        · rw [hpm] at h
          dsimp only at h
          cases h
          exact ⟨hok, opFrame_refl st startGen⟩
        · rw [hpm] at h
          dsimp only at h
          cases h
          exact ⟨hok, opFrame_refl st startGen⟩
        · rw [hpm] at h
          dsimp only at h
          cases h
          exact ⟨hok, opFrame_refl st startGen⟩

theorem frame_gen_transport {K V : Type} {st st' : St K V} {g : Nat}
    (hf : opFrame st st' g) {a : Nat}
    (h : ∀ cl, st.cell a = some cl → cl.gen = g) :
    ∀ cl', st'.cell a = some cl' → cl'.gen = g := by
  intro cl' hc'
  rcases hc : st.cell a with _ | cl
  · exact hf.2.2.2.1 a cl' ((cell_eq_none_iff st a).mp hc) hc'
  · rw [hf.2.2.1 a cl cl' hc hc']
    exact h cl hc

theorem opFrame_cell_gen {K V : Type} {st st' : St K V} {g : Nat}
    (hf : opFrame st st' g) {a : Nat} {cl : Cell K V}
    (ha : st.cell a = some cl) :
    ∃ cl', st'.cell a = some cl' ∧ cl'.gen = cl.gen := by
  have hb : a < st.mem.length := by
    by_contra hb
    rw [(cell_eq_none_iff st a).mpr (by omega)] at ha
    cases ha
  obtain ⟨cl', hc'⟩ := cell_isSome_of_lt (lt_of_lt_of_le hb hf.1)
  exact ⟨cl', hc', hf.2.2.1 a cl cl' ha hc'⟩

theorem newMainNode_frame {K V : Type} (g : Nat) (st : St K V)
    (x : Entry K V) (xhc : Nat) (y : Entry K V) (yhc lev : Nat)
    (hok : cnLenOK st) :
    cnLenOK (newMainNode st x xhc y yhc lev g).1 ∧
    opFrame st (newMainNode st x xhc y yhc lev g).1 g :=
  newMainNodeAux_frame g 8 st x xhc y yhc lev hok

theorem newMainNode_mainOK {K V : Type} (st : St K V) (x : Entry K V)
    (xhc : Nat) (y : Entry K V) (yhc lev g : Nat) :
    mainOK (newMainNode st x xhc y yhc lev g).2 :=
  newMainNodeAux_mainOK 8 st x xhc y yhc lev g

theorem mainOK_cnInserted {K V : Type} {bmp : Nat} {slice : List (Br K V)}
    {pos idx : Nat} {br : Br K V} {gen : Nat}
    (hlen : slice.length = popcount bmp) (hb : bmp < 2 ^ 32) (hidx : idx ≤ 31)
    (hflag : bmp &&& (1 <<< idx) = 0) :
    mainOK (cnInserted bmp slice pos (1 <<< idx) br gen) := by
  intro b' s' g' hh
  unfold cnInserted at hh
  cases hh
  have hpow : 2 ^ idx < 2 ^ 32 := by
    calc 2 ^ idx ≤ 2 ^ 31 := Nat.pow_le_pow_right (by omega) hidx
      _ < 2 ^ 32 := by omega
  rw [Nat.one_shiftLeft] at hflag
  constructor
  · simp only [List.length_append, List.length_take, List.length_cons,
      List.length_drop, Nat.one_shiftLeft]
    rw [popcount_lor_disjoint _ _ hflag, popcount_two_pow]
    omega
  · rw [Nat.one_shiftLeft]
    exact Nat.or_lt_two_pow hb hpow

theorem mainOK_cnUpdated {K V : Type} {bmp : Nat} {slice : List (Br K V)}
    {pos : Nat} {br : Br K V} {gen : Nat}
    (hlen : slice.length = popcount bmp) (hb : bmp < 2 ^ 32) :
    mainOK (cnUpdated bmp slice pos br gen) := by
  intro b' s' g' hh
  unfold cnUpdated at hh
  cases hh
  refine ⟨?_, hb⟩
  rw [List.length_set]
  exact hlen

theorem mainOK_cnode {K V : Type} {bmp : Nat} {slice : List (Br K V)}
    {gen : Nat} (hlen : slice.length = popcount bmp) (hb : bmp < 2 ^ 32) :
    mainOK (MainNode.cnode bmp slice gen : MainNode K V) := by
  intro b' s' g' hh
  cases hh
  exact ⟨hlen, hb⟩

theorem mainOK_cnRemoved {K V : Type} {bmp : Nat} {slice : List (Br K V)}
    {idx : Nat} {gen : Nat}
    (hlen : slice.length = popcount bmp) (hb : bmp < 2 ^ 32) (hidx : idx ≤ 31)
    (hflag : bmp &&& (1 <<< idx) ≠ 0) :
    mainOK (cnRemoved bmp slice (popcount (bmp &&& (1 <<< idx - 1)))
      (1 <<< idx) gen) := by
  intro b' s' g' hh
  unfold cnRemoved at hh
  cases hh
  rw [Nat.one_shiftLeft] at hflag ⊢
  have hbi : bmp.testBit idx = true := testBit_true_of_and_two_pow_ne hflag
  have hxor := popcount_xor_two_pow hbi
  have hplt : popcount (bmp &&& (2 ^ idx - 1)) < slice.length := by
    have h1 : popcount (bmp &&& (2 ^ (idx + 1) - 1)) =
        popcount (bmp &&& (2 ^ idx - 1)) + 1 := by
      rw [popcount_mask_succ bmp idx, if_pos hbi]
    have h2 := popcount_and_le bmp (2 ^ (idx + 1) - 1)
    omega
  constructor
  · simp only [List.length_append, List.length_take, List.length_drop,
      Nat.one_shiftLeft]
    omega
  · exact Nat.xor_lt_two_pow hb (by
      calc 2 ^ idx ≤ 2 ^ 31 := Nat.pow_le_pow_right (by omega) hidx
        _ < 2 ^ 32 := by omega)

theorem mainOK_lnode {K V : Type} (es : List (Entry K V)) :
    mainOK (MainNode.lnode es) := by
  intro b' s' g' hh
  cases hh

theorem mainOK_tnode {K V : Type} (e : Entry K V) :
    mainOK (MainNode.tnode e) := by
  intro b' s' g' hh
  cases hh

theorem mainOK_nilMain {K V : Type} : mainOK (MainNode.nilMain : MainNode K V) := by
  intro b' s' g' hh
  cases hh

/-- `iinsert` preserves the branch-count invariant, and an attempt with
start generation `g` writes only to cells of generation `g` and allocates
only cells of generation `g`. -/
theorem iinsert_frame {K V : Type} [DecidableEq K] [DecidableEq V] :
    ∀ (fuel : Nat) (st : St K V) (eqf : K → K → Bool) (c : CMap) (ia : Nat)
      (e : Entry K V) (lev : Nat) (parent : Option Nat) (startGen : Nat)
      (st' : St K V) (ok : Bool),
      iinsert fuel st eqf c ia e lev parent startGen = some (st', ok) →
      cnLenOK st →
      (∀ icl, st.cell ia = some icl → icl.gen = startGen) →
      (∀ p, parent = some p → ∀ pcl, st.cell p = some pcl →
        pcl.gen = startGen) →
      cnLenOK st' ∧ opFrame st st' startGen := by
  intro fuel
  induction fuel with
  | zero =>
    intro st eqf c ia e lev parent startGen st' ok h hok hia hpar
    cases h
  | succ fuel ih =>
    intro st eqf c ia e lev parent startGen st' ok h hok hia hpar
    simp only [iinsert] at h
    rcases hci : st.cell ia with _ | cl
    · rw [hci] at h
      cases h
    · rw [hci] at h
      dsimp only at h
      have higen : cl.gen = startGen := hia cl hci
      rcases hm : cl.main with ⟨bmp, slice, cg⟩ | ⟨te⟩ | ⟨es⟩ | _
      · rw [hm] at h
        dsimp only at h
        have hcmo := hok ia cl hci bmp slice cg hm
        obtain ⟨idx, hidx, hfp1, hfp2⟩ :
            ∃ idx, idx ≤ 31 ∧ (flagPos e.hash lev bmp).1 = 1 <<< idx ∧
              (flagPos e.hash lev bmp).2 =
                popcount (bmp &&& (1 <<< idx - 1)) :=
          ⟨(e.hash >>> lev) &&& 0x1f, Nat.and_le_right, rfl, rfl⟩
        by_cases hflag : bmp &&& (flagPos e.hash lev bmp).1 = 0
        · rw [if_pos hflag] at h
          by_cases hge : cg = cl.gen
          · rw [if_pos hge] at h
            dsimp only at h
            have hnew : mainOK (cnInserted bmp slice
                (flagPos e.hash lev bmp).2 (flagPos e.hash lev bmp).1
                (.snode e) cl.gen) := by
              rw [hfp1]
              exact mainOK_cnInserted hcmo.1 hcmo.2 hidx (by rw [← hfp1]; exact hflag)
            exact gcas_frame h hci higen hok hnew
          · rw [if_neg hge] at h
            rcases hrs : renewedSlice st cl.gen slice with _ | ⟨st1, rslice⟩
            · rw [hrs] at h
              cases h
            · rw [hrs] at h
              dsimp only at h
              rw [higen] at hrs
              have hrf := renewedSlice_frame slice st st1 rslice hrs hok
              obtain ⟨cl1, hci1, hg1⟩ := opFrame_cell_gen hrf.2 hci
              have hnew : mainOK (cnInserted bmp rslice
                  (flagPos e.hash lev bmp).2 (flagPos e.hash lev bmp).1
                  (.snode e) cl.gen) := by
                rw [hfp1]
                refine mainOK_cnInserted ?_ hcmo.2 hidx (by rw [← hfp1]; exact hflag)
                rw [renewedSlice_length cl.gen slice st st1 rslice (by rw [higen]; exact hrs)]
                exact hcmo.1
              have hgf := gcas_frame h hci1 (by rw [hg1, higen]) hrf.1 hnew
              exact ⟨hgf.1, opFrame_trans hrf.2 hgf.2⟩
        · rw [if_neg hflag] at h
          rcases hbr : slice.get? (flagPos e.hash lev bmp).2 with _ | br
          · rw [hbr] at h
            cases h
          · rw [hbr] at h
            dsimp only at h
            cases br with
            | inode ba =>
              dsimp only at h
              rcases hcb : st.cell ba with _ | bc
              · rw [hcb] at h
                cases h
              · rw [hcb] at h
                dsimp only at h
                by_cases hsg : startGen = bc.gen
                · rw [if_pos hsg] at h
                  exact ih st eqf c ba e (lev + 5) (some ia) startGen st' ok h
                    hok
                    (fun icl hicl => by
                      rw [hcb] at hicl
                      cases hicl
                      omega)
                    (fun p hp pcl hpcl => by
                      cases hp
                      rw [hci] at hpcl
                      cases hpcl
                      exact higen)
                · rw [if_neg hsg] at h
                  rcases hrs : renewedSlice st startGen slice with _ | ⟨st1, rslice⟩
                  · rw [hrs] at h
                    cases h
                  · rw [hrs] at h
                    dsimp only at h
                    have hrf := renewedSlice_frame slice st st1 rslice hrs hok
                    obtain ⟨cl1, hci1, hg1⟩ := opFrame_cell_gen hrf.2 hci
                    have hnew : mainOK (MainNode.cnode bmp rslice startGen :
                        MainNode K V) := by
                      refine mainOK_cnode ?_ hcmo.2
                      rw [renewedSlice_length startGen slice st st1 rslice hrs]
                      exact hcmo.1
                    rcases hg2 : gcas st1 ia cl.main
                        (MainNode.cnode bmp rslice startGen) with _ | ⟨st2, ok2⟩
                    · rw [hm] at hg2
                      rw [hg2] at h
                      cases h
                    · rw [hm] at hg2
                      rw [hg2] at h
                      dsimp only at h
                      rw [← hm] at hg2
                      have hgf := gcas_frame hg2 hci1 (by rw [hg1, higen])
                        hrf.1 hnew
                      have hfr01 := opFrame_trans hrf.2 hgf.2
                      cases ok2 with
                      | true =>
                        have hrec := ih st2 eqf c ia e lev parent startGen st' ok h
                          hgf.1
                          (frame_gen_transport hfr01 hia)
                          (fun p hp => frame_gen_transport hfr01 (hpar p hp))
                        exact ⟨hrec.1, opFrame_trans hfr01 hrec.2⟩
                      | false =>
                        cases h
                        exact ⟨hgf.1, hfr01⟩
            | snode se =>
              dsimp only at h
              by_cases hkeq : eqf se.key e.key = false
              · rw [if_pos hkeq] at h
                by_cases hge : cg = cl.gen
                · rw [if_pos hge] at h
                  dsimp only at h
                  have hnmf := newMainNode_frame cl.gen st se se.hash e
                    e.hash (lev + 5) hok
                  have hnmo := newMainNode_mainOK st se se.hash e e.hash
                    (lev + 5) cl.gen
                  have hall : cnLenOK ((newMainNode st se se.hash e e.hash
                      (lev + 5) cl.gen).1.alloc (newMainNode st se se.hash e
                      e.hash (lev + 5) cl.gen).2 cl.gen).1 :=
                    cnLenOK_alloc hnmf.1 hnmo
                  have hfr01 : opFrame st ((newMainNode st se se.hash e
                      e.hash (lev + 5) cl.gen).1.alloc (newMainNode st
                      se se.hash e e.hash (lev + 5) cl.gen).2 cl.gen).1
                      startGen := by
                    rw [← higen]
                    exact opFrame_trans hnmf.2 (opFrame_alloc _ _ cl.gen)
                  obtain ⟨cl1, hci1, hg1⟩ := opFrame_cell_gen hfr01 hci
                  have hnew : mainOK (cnUpdated bmp slice
                      (flagPos e.hash lev bmp).2
                      (.inode ((newMainNode st se se.hash e e.hash
                        (lev + 5) cl.gen).1.alloc (newMainNode st se
                        se.hash e e.hash (lev + 5) cl.gen).2 cl.gen).2)
                      cl.gen) :=
                    mainOK_cnUpdated hcmo.1 hcmo.2
                  have hgf := gcas_frame h hci1 (by rw [hg1, higen]) hall hnew
                  exact ⟨hgf.1, opFrame_trans hfr01 hgf.2⟩
                · rw [if_neg hge] at h
                  rcases hrs : renewedSlice st cl.gen slice with _ | ⟨st1, rslice⟩
                  · rw [hrs] at h
                    cases h
                  · rw [hrs] at h
                    dsimp only at h
                    rw [higen] at hrs
                    have hrf := renewedSlice_frame slice st st1 rslice hrs hok
                    have hnmf := newMainNode_frame cl.gen st1 se se.hash e
                      e.hash (lev + 5) hrf.1
                    have hnmo := newMainNode_mainOK st1 se se.hash e e.hash
                      (lev + 5) cl.gen
                    have hall : cnLenOK ((newMainNode st1 se se.hash e e.hash
                        (lev + 5) cl.gen).1.alloc (newMainNode st1 se se.hash e
                        e.hash (lev + 5) cl.gen).2 cl.gen).1 :=
                      cnLenOK_alloc hnmf.1 hnmo
                    have hfr1 : opFrame st1 ((newMainNode st1 se se.hash e
                        e.hash (lev + 5) cl.gen).1.alloc (newMainNode st1
                        se se.hash e e.hash (lev + 5) cl.gen).2 cl.gen).1
                        startGen := by
                      rw [← higen]
                      exact opFrame_trans hnmf.2 (opFrame_alloc _ _ cl.gen)
                    have hfr01 := opFrame_trans hrf.2 hfr1
                    obtain ⟨cl1, hci1, hg1⟩ := opFrame_cell_gen hfr01 hci
                    have hnew : mainOK (cnUpdated bmp rslice
                        (flagPos e.hash lev bmp).2
                        (.inode ((newMainNode st1 se se.hash e e.hash
                          (lev + 5) cl.gen).1.alloc (newMainNode st1 se
                          se.hash e e.hash (lev + 5) cl.gen).2 cl.gen).2)
                        cl.gen) := by
                      refine mainOK_cnUpdated ?_ hcmo.2
                      rw [renewedSlice_length startGen slice st st1 rslice hrs]
                      exact hcmo.1
                    have hgf := gcas_frame h hci1 (by rw [hg1, higen]) hall hnew
                    exact ⟨hgf.1, opFrame_trans hfr01 hgf.2⟩
              · rw [if_neg hkeq] at h
                have hnew : mainOK (cnUpdated bmp slice
                    (flagPos e.hash lev bmp).2 (.snode e) cl.gen) :=
                  mainOK_cnUpdated hcmo.1 hcmo.2
                exact gcas_frame h hci higen hok hnew
      · rw [hm] at h
        dsimp only at h
        rcases hcl : cleanOpt st parent (lev - 5) with _ | st1
        · rw [hcl] at h
          cases h
        · rw [hcl] at h
          cases h
          exact cleanOpt_frame hcl hpar hok
      · rw [hm] at h
        dsimp only at h
        exact gcas_frame h hci higen hok (mainOK_lnode _)
      · rw [hm] at h
        cases h

/-- `iremove` preserves the branch-count invariant and writes only within
its start generation. -/
theorem iremove_frame {K V : Type} [DecidableEq K] [DecidableEq V] :
    ∀ (fuel : Nat) (st : St K V) (eqf : K → K → Bool) (c : CMap) (ia : Nat)
      (k : K) (hsh lev : Nat) (parent : Option Nat) (startGen : Nat)
      (st' : St K V) (v : Option V) (ok : Bool),
      iremove fuel st eqf c ia k hsh lev parent startGen = some (st', v, ok) →
      cnLenOK st →
      (∀ icl, st.cell ia = some icl → icl.gen = startGen) →
      (∀ p, parent = some p → ∀ pcl, st.cell p = some pcl →
        pcl.gen = startGen) →
      cnLenOK st' ∧ opFrame st st' startGen := by
  intro fuel
  induction fuel with
  | zero =>
    intro st eqf c ia k hsh lev parent startGen st' v ok h hok hia hpar
    cases h
  | succ fuel ih =>
    intro st eqf c ia k hsh lev parent startGen st' v ok h hok hia hpar
    simp only [iremove] at h
    rcases hci : st.cell ia with _ | cl
    · rw [hci] at h
      cases h
    · rw [hci] at h
      dsimp only at h
      have higen : cl.gen = startGen := hia cl hci
      rcases hm : cl.main with ⟨bmp, slice, cg⟩ | ⟨te⟩ | ⟨es⟩ | _
      · rw [hm] at h
        dsimp only at h
        have hcmo := hok ia cl hci bmp slice cg hm
        obtain ⟨idx, hidx, hfp1, hfp2⟩ :
            ∃ idx, idx ≤ 31 ∧ (flagPos hsh lev bmp).1 = 1 <<< idx ∧
              (flagPos hsh lev bmp).2 =
                popcount (bmp &&& (1 <<< idx - 1)) :=
          ⟨(hsh >>> lev) &&& 0x1f, Nat.and_le_right, rfl, rfl⟩
        by_cases hflag : bmp &&& (flagPos hsh lev bmp).1 = 0
        · rw [if_pos hflag] at h
          cases h
          exact ⟨hok, opFrame_refl st startGen⟩
        · rw [if_neg hflag] at h
          rcases hbr : slice.get? (flagPos hsh lev bmp).2 with _ | br
          · rw [hbr] at h
            cases h
          · rw [hbr] at h
            dsimp only at h
            cases br with
            | inode ba =>
              dsimp only at h
              rcases hcb : st.cell ba with _ | bc
              · rw [hcb] at h
                cases h
              · rw [hcb] at h
                dsimp only at h
                by_cases hsg : startGen = bc.gen
                · rw [if_pos hsg] at h
                  exact ih st eqf c ba k hsh (lev + 5) (some ia) startGen st'
                    v ok h hok
                    (fun icl hicl => by
                      rw [hcb] at hicl
                      cases hicl
                      omega)
                    (fun p hp pcl hpcl => by
                      cases hp
                      rw [hci] at hpcl
                      cases hpcl
                      exact higen)
                · rw [if_neg hsg] at h
                  rcases hrs : renewedSlice st startGen slice with _ | ⟨st1, rslice⟩
                  · rw [hrs] at h
                    cases h
                  · rw [hrs] at h
                    dsimp only at h
                    have hrf := renewedSlice_frame slice st st1 rslice hrs hok
                    obtain ⟨cl1, hci1, hg1⟩ := opFrame_cell_gen hrf.2 hci
                    have hnew : mainOK (MainNode.cnode bmp rslice startGen :
                        MainNode K V) := by
                      refine mainOK_cnode ?_ hcmo.2
                      rw [renewedSlice_length startGen slice st st1 rslice hrs]
                      exact hcmo.1
                    rcases hg2 : gcas st1 ia cl.main
                        (MainNode.cnode bmp rslice startGen) with _ | ⟨st2, ok2⟩
                    · rw [hm] at hg2
                      rw [hg2] at h
                      cases h
                    · rw [hm] at hg2
                      rw [hg2] at h
                      dsimp only at h
                      rw [← hm] at hg2
                      have hgf := gcas_frame hg2 hci1 (by rw [hg1, higen])
                        hrf.1 hnew
                      have hfr01 := opFrame_trans hrf.2 hgf.2
                      cases ok2 with
                      | true =>
                        have hrec := ih st2 eqf c ia k hsh lev parent startGen
                          st' v ok h hgf.1
                          (frame_gen_transport hfr01 hia)
                          (fun p hp => frame_gen_transport hfr01 (hpar p hp))
                        exact ⟨hrec.1, opFrame_trans hfr01 hrec.2⟩
                      | false =>
                        cases h
                        exact ⟨hgf.1, hfr01⟩
            | snode se =>
              dsimp only at h
              by_cases hkeq : eqf se.key k = false
              · rw [if_pos hkeq] at h
                cases h
                exact ⟨hok, opFrame_refl st startGen⟩
              · rw [if_neg hkeq] at h
                have hnew : mainOK (toContractedM
                    (cnRemoved bmp slice (flagPos hsh lev bmp).2
                      (flagPos hsh lev bmp).1 cl.gen) lev) := by
                  apply toContractedM_mainOK
                  rw [hfp1, hfp2]
                  exact mainOK_cnRemoved hcmo.1 hcmo.2 hidx
                    (by rw [← hfp1]; exact hflag)
                rcases hg2 : gcas st ia cl.main (toContractedM
                    (cnRemoved bmp slice (flagPos hsh lev bmp).2
                      (flagPos hsh lev bmp).1 cl.gen) lev) with _ | ⟨st1, ok2⟩
                · rw [hm] at hg2
                  rw [hg2] at h
                  cases h
                · rw [hm] at hg2
                  rw [hg2] at h
                  dsimp only at h
                  rw [← hm] at hg2
                  have hgf := gcas_frame hg2 hci higen hok hnew
                  cases ok2 with
                  | true =>
                    rw [if_pos rfl] at h
                    rcases parent with _ | p
                    · dsimp only at h
                      cases h
                      exact hgf
                    · dsimp only at h
                      rcases hgr : gcasRead st1 ia with _ | m'
                      · rw [hgr] at h
                        cases h
                      · rw [hgr] at h
                        dsimp only at h
                        by_cases htn : isTnode m' = true
                        · rw [if_pos htn] at h
                          rcases hcp : cleanParent fuel st1 c p ia hsh
                              (lev - 5) startGen with _ | st2
                          · rw [hcp] at h
                            cases h
                          · rw [hcp] at h
                            cases h
                            have hcpf := cleanParent_frame fuel st1 c p
                              ia hsh (lev - 5) startGen _ hcp
                              (frame_gen_transport hgf.2 (hpar p rfl)) hgf.1
                            exact ⟨hcpf.1, opFrame_trans hgf.2 hcpf.2⟩
                        · rw [if_neg htn] at h
                          cases h
                          exact hgf
                  | false =>
                    rw [if_neg Bool.false_ne_true] at h
                    cases h
                    exact hgf
      · rw [hm] at h
        dsimp only at h
        rcases hcl : cleanOpt st parent (lev - 5) with _ | st1
        · rw [hcl] at h
          cases h
        · rw [hcl] at h
          cases h
          exact cleanOpt_frame hcl hpar hok
      · rw [hm] at h
        dsimp only at h
        rcases hes : lremoved eqf k es with _ | ⟨x, _ | ⟨y, rest⟩⟩
        · rw [hes] at h
          dsimp only at h
          rcases hg2 : gcas st ia cl.main MainNode.nilMain with _ | ⟨st1, ok2⟩
          · rw [hm] at hg2
            rw [hg2] at h
            cases h
          · rw [hm] at hg2
            rw [hg2] at h
            dsimp only at h
            rw [← hm] at hg2
            have hgf := gcas_frame hg2 hci higen hok mainOK_nilMain
            cases ok2 with
            | true =>
              rw [if_pos rfl] at h
              cases h
              exact hgf
            | false =>
              rw [if_neg Bool.false_ne_true] at h
              cases h
              exact hgf
        · rw [hes] at h
          dsimp only at h
          rcases hg2 : gcas st ia cl.main (entomb x) with _ | ⟨st1, ok2⟩
          · rw [hm] at hg2
            rw [hg2] at h
            cases h
          · rw [hm] at hg2
            rw [hg2] at h
            dsimp only at h
            rw [← hm] at hg2
            have hgf := gcas_frame hg2 hci higen hok (mainOK_tnode x)
            cases ok2 with
            | true =>
              rw [if_pos rfl] at h
              cases h
              exact hgf
            | false =>
              rw [if_neg Bool.false_ne_true] at h
              cases h
              exact hgf
        · rw [hes] at h
          dsimp only at h
          rcases hg2 : gcas st ia cl.main (.lnode (x :: y :: rest)) with _ | ⟨st1, ok2⟩
          · rw [hm] at hg2
            rw [hg2] at h
            cases h
          · rw [hm] at hg2
            rw [hg2] at h
            dsimp only at h
            rw [← hm] at hg2
            have hgf := gcas_frame hg2 hci higen hok (mainOK_lnode _)
            cases ok2 with
            | true =>
              rw [if_pos rfl] at h
              cases h
              exact hgf
            | false =>
              rw [if_neg Bool.false_ne_true] at h
              cases h
              exact hgf
      · rw [hm] at h
        cases h

/-- `ilookup` on a read-write handle preserves the branch-count invariant
and writes only within its start generation (the only writes a lookup can
perform are generation renewals and parent cleaning). -/
theorem ilookup_frame {K V : Type} [DecidableEq K] [DecidableEq V] :
    ∀ (fuel : Nat) (st : St K V) (eqf : K → K → Bool) (c : CMap) (ia : Nat)
      (k : K) (hsh lev : Nat) (parent : Option Nat) (startGen : Nat)
      (st' : St K V) (v : Option V) (ok : Bool),
      c.readOnly = false →
      ilookup fuel st eqf c ia k hsh lev parent startGen = some (st', v, ok) →
      cnLenOK st →
      (∀ icl, st.cell ia = some icl → icl.gen = startGen) →
      (∀ p, parent = some p → ∀ pcl, st.cell p = some pcl →
        pcl.gen = startGen) →
      cnLenOK st' ∧ opFrame st st' startGen := by
  intro fuel
  induction fuel with
  | zero =>
    intro st eqf c ia k hsh lev parent startGen st' v ok hro h hok hia hpar
    cases h
  | succ fuel ih =>
    intro st eqf c ia k hsh lev parent startGen st' v ok hro h hok hia hpar
    simp only [ilookup] at h
    rcases hci : st.cell ia with _ | cl
    · rw [hci] at h
      cases h
    · rw [hci] at h
      dsimp only at h
      have higen : cl.gen = startGen := hia cl hci
      rcases hm : cl.main with ⟨bmp, slice, cg⟩ | ⟨te⟩ | ⟨es⟩ | _
      · rw [hm] at h
        dsimp only at h
        have hcmo := hok ia cl hci bmp slice cg hm
        by_cases hflag : bmp &&& (flagPos hsh lev bmp).1 = 0
        · rw [if_pos hflag] at h
          cases h
          exact ⟨hok, opFrame_refl st startGen⟩
        · rw [if_neg hflag] at h
          rcases hbr : slice.get? (flagPos hsh lev bmp).2 with _ | br
          · rw [hbr] at h
            cases h
          · rw [hbr] at h
            dsimp only at h
            cases br with
            | inode ba =>
              dsimp only at h
              rcases hcb : st.cell ba with _ | bc
              · rw [hcb] at h
                cases h
              · rw [hcb] at h
                dsimp only at h
                by_cases hsg : startGen = bc.gen
                · rw [if_pos (by rw [hro, hsg]; simp)] at h
                  exact ih st eqf c ba k hsh (lev + 5) (some ia) startGen st'
                    v ok hro h hok
                    (fun icl hicl => by
                      rw [hcb] at hicl
                      cases hicl
                      omega)
                    (fun p hp pcl hpcl => by
                      cases hp
                      rw [hci] at hpcl
                      cases hpcl
                      exact higen)
                · rw [if_neg (by rw [hro]; simp [hsg])] at h
                  rcases hrs : renewedSlice st startGen slice with _ | ⟨st1, rslice⟩
                  · rw [hrs] at h
                    cases h
                  · rw [hrs] at h
                    dsimp only at h
                    have hrf := renewedSlice_frame slice st st1 rslice hrs hok
                    obtain ⟨cl1, hci1, hg1⟩ := opFrame_cell_gen hrf.2 hci
                    have hnew : mainOK (MainNode.cnode bmp rslice startGen :
                        MainNode K V) := by
                      refine mainOK_cnode ?_ hcmo.2
                      rw [renewedSlice_length startGen slice st st1 rslice hrs]
                      exact hcmo.1
                    rcases hg2 : gcas st1 ia cl.main
                        (MainNode.cnode bmp rslice startGen) with _ | ⟨st2, ok2⟩
                    · rw [hm] at hg2
                      rw [hg2] at h
                      cases h
                    · rw [hm] at hg2
                      rw [hg2] at h
                      dsimp only at h
                      rw [← hm] at hg2
                      have hgf := gcas_frame hg2 hci1 (by rw [hg1, higen])
                        hrf.1 hnew
                      have hfr01 := opFrame_trans hrf.2 hgf.2
                      cases ok2 with
                      | true =>
                        have hrec := ih st2 eqf c ia k hsh lev parent startGen
                          st' v ok hro h hgf.1
                          (frame_gen_transport hfr01 hia)
                          (fun p hp => frame_gen_transport hfr01 (hpar p hp))
                        exact ⟨hrec.1, opFrame_trans hfr01 hrec.2⟩
                      | false =>
                        cases h
                        exact ⟨hgf.1, hfr01⟩
            | snode se =>
              dsimp only at h
              by_cases hkeq : eqf se.key k = true
              · rw [if_pos hkeq] at h
                cases h
                exact ⟨hok, opFrame_refl st startGen⟩
              · rw [if_neg hkeq] at h
                cases h
                exact ⟨hok, opFrame_refl st startGen⟩
      · rw [hm] at h
        dsimp only at h
        rw [if_pos hro] at h
        rcases hcl : cleanOpt st parent (lev - 5) with _ | st1
        · rw [hcl] at h
          cases h
        · rw [hcl] at h
          cases h
          exact cleanOpt_frame hcl hpar hok
      · rw [hm] at h
        dsimp only at h
        cases h
        exact ⟨hok, opFrame_refl st startGen⟩
      · rw [hm] at h
        cases h

/-- A lookup through a read-only handle never writes: the state it returns
is the state it was given. -/
theorem ilookup_readonly {K V : Type} [DecidableEq K] [DecidableEq V] :
    ∀ (fuel : Nat) (st : St K V) (eqf : K → K → Bool) (c : CMap) (ia : Nat)
      (k : K) (hsh lev : Nat) (parent : Option Nat) (startGen : Nat)
      (st' : St K V) (v : Option V) (ok : Bool),
      c.readOnly = true →
      ilookup fuel st eqf c ia k hsh lev parent startGen = some (st', v, ok) →
      st' = st := by
  intro fuel
  induction fuel with
  | zero =>
    intro st eqf c ia k hsh lev parent startGen st' v ok hro h
    cases h
  | succ fuel ih =>
    intro st eqf c ia k hsh lev parent startGen st' v ok hro h
    simp only [ilookup] at h
    rcases hci : st.cell ia with _ | cl
    · rw [hci] at h
      cases h
    · rw [hci] at h
      dsimp only at h
      rcases hm : cl.main with ⟨bmp, slice, cg⟩ | ⟨te⟩ | ⟨es⟩ | _
      · rw [hm] at h
        dsimp only at h
        by_cases hflag : bmp &&& (flagPos hsh lev bmp).1 = 0
        · rw [if_pos hflag] at h
          cases h
          rfl
        · rw [if_neg hflag] at h
          rcases hbr : slice.get? (flagPos hsh lev bmp).2 with _ | br
          · rw [hbr] at h
            cases h
          · rw [hbr] at h
            dsimp only at h
            cases br with
            | inode ba =>
              dsimp only at h
              rcases hcb : st.cell ba with _ | bc
              · rw [hcb] at h
                cases h
              · rw [hcb] at h
                dsimp only at h
                rw [if_pos (by rw [hro]; simp)] at h
                exact ih st eqf c ba k hsh (lev + 5) (some ia) startGen st'
                  v ok hro h
            | snode se =>
              dsimp only at h
              by_cases hkeq : eqf se.key k = true
              · rw [if_pos hkeq] at h
                cases h
                rfl
              · rw [if_neg hkeq] at h
                cases h
                rfl
      · rw [hm] at h
        dsimp only at h
        rw [if_neg (by rw [hro]; simp)] at h
        by_cases hte : te.hash = hsh ∧ eqf te.key k = true
        · rw [if_pos hte] at h
          cases h
          rfl
        · rw [if_neg hte] at h
          cases h
          rfl
      · rw [hm] at h
        dsimp only at h
        cases h
        rfl
      · rw [hm] at h
        cases h

/-- The `Map.insert` retry loop preserves the invariant and is framed by
the root generation. -/
theorem insertTop_frame {K V : Type} [DecidableEq K] [DecidableEq V] :
    ∀ (fuel : Nat) (st : St K V) (eqf : K → K → Bool) (c : CMap)
      (e : Entry K V) (st' : St K V),
      insertTop fuel st eqf c e = some st' → cnLenOK st →
      cnLenOK st' ∧ (∀ rc, st.cell c.root = some rc → opFrame st st' rc.gen) := by
  intro fuel
  induction fuel with
  | zero =>
    intro st eqf c e st' h hok
    cases h
  | succ fuel ih =>
    intro st eqf c e st' h hok
    simp only [insertTop] at h
    rcases hrc : st.cell c.root with _ | rc
    · rw [hrc] at h
      cases h
    · rw [hrc] at h
      dsimp only at h
      rcases hi : iinsert (fuel + 1) st eqf c c.root e 0 none rc.gen
          with _ | ⟨st1, ok1⟩
      · rw [hi] at h
        cases h
      · rw [hi] at h
        have hif := iinsert_frame (fuel + 1) st eqf c c.root e 0 none rc.gen
          st1 ok1 hi hok
          (fun icl hicl => by
            rw [hrc] at hicl
            cases hicl
            rfl)
          (fun p hp => by cases hp)
        cases ok1 with
        | true =>
          cases h
          exact ⟨hif.1, fun rc' hrc' => by
            cases hrc'
            exact hif.2⟩
        | false =>
          dsimp only at h
          have hrec := ih st1 eqf c e st' h hif.1
          refine ⟨hrec.1, fun rc' hrc' => ?_⟩
          cases hrc'
          obtain ⟨rc1, hrc1, hg1⟩ := opFrame_cell_gen hif.2 hrc
          have := hrec.2 rc1 hrc1
          rw [hg1] at this
          exact opFrame_trans hif.2 this

/-- The `Map.remove` retry loop preserves the invariant and is framed by
the root generation. -/
theorem removeTop_frame {K V : Type} [DecidableEq K] [DecidableEq V] :
    ∀ (fuel : Nat) (st : St K V) (eqf : K → K → Bool) (c : CMap) (k : K)
      (hsh : Nat) (st' : St K V) (v : Option V),
      removeTop fuel st eqf c k hsh = some (st', v) → cnLenOK st →
      cnLenOK st' ∧ (∀ rc, st.cell c.root = some rc → opFrame st st' rc.gen) := by
  intro fuel
  induction fuel with
  | zero =>
    intro st eqf c k hsh st' v h hok
    cases h
  | succ fuel ih =>
    intro st eqf c k hsh st' v h hok
    simp only [removeTop] at h
    rcases hrc : st.cell c.root with _ | rc
    · rw [hrc] at h
      cases h
    · rw [hrc] at h
      dsimp only at h
      rcases hi : iremove (fuel + 1) st eqf c c.root k hsh 0 none rc.gen
          with _ | ⟨st1, v1, ok1⟩
      · rw [hi] at h
        cases h
      · rw [hi] at h
        have hif := iremove_frame (fuel + 1) st eqf c c.root k hsh 0 none
          rc.gen st1 v1 ok1 hi hok
          (fun icl hicl => by
            rw [hrc] at hicl
            cases hicl
            rfl)
          (fun p hp => by cases hp)
        cases ok1 with
        | true =>
          cases h
          exact ⟨hif.1, fun rc' hrc' => by
            cases hrc'
            exact hif.2⟩
        | false =>
          dsimp only at h
          have hrec := ih st1 eqf c k hsh st' v h hif.1
          refine ⟨hrec.1, fun rc' hrc' => ?_⟩
          cases hrc'
          obtain ⟨rc1, hrc1, hg1⟩ := opFrame_cell_gen hif.2 hrc
          have := hrec.2 rc1 hrc1
          rw [hg1] at this
          exact opFrame_trans hif.2 this

/-- The `Map.lookup` retry loop on a read-write handle preserves the
invariant and is framed by the root generation. -/
theorem lookupTop_frame {K V : Type} [DecidableEq K] [DecidableEq V] :
    ∀ (fuel : Nat) (st : St K V) (eqf : K → K → Bool) (c : CMap) (k : K)
      (hsh : Nat) (st' : St K V) (v : Option V),
      c.readOnly = false →
      lookupTop fuel st eqf c k hsh = some (st', v) → cnLenOK st →
      cnLenOK st' ∧ (∀ rc, st.cell c.root = some rc → opFrame st st' rc.gen) := by
  intro fuel
  induction fuel with
  | zero =>
    intro st eqf c k hsh st' v hro h hok
    cases h
  | succ fuel ih =>
    intro st eqf c k hsh st' v hro h hok
    simp only [lookupTop] at h
    rcases hrc : st.cell c.root with _ | rc
    · rw [hrc] at h
      cases h
    · rw [hrc] at h
      dsimp only at h
      rcases hi : ilookup (fuel + 1) st eqf c c.root k hsh 0 none rc.gen
          with _ | ⟨st1, v1, ok1⟩
      · rw [hi] at h
        cases h
      · rw [hi] at h
        have hif := ilookup_frame (fuel + 1) st eqf c c.root k hsh 0 none
          rc.gen st1 v1 ok1 hro hi hok
          (fun icl hicl => by
            rw [hrc] at hicl
            cases hicl
            rfl)
          (fun p hp => by cases hp)
        cases ok1 with
        | true =>
          cases h
          exact ⟨hif.1, fun rc' hrc' => by
            cases hrc'
            exact hif.2⟩
        | false =>
          dsimp only at h
          have hrec := ih st1 eqf c k hsh st' v hro h hif.1
          refine ⟨hrec.1, fun rc' hrc' => ?_⟩
          cases hrc'
          obtain ⟨rc1, hrc1, hg1⟩ := opFrame_cell_gen hif.2 hrc
          have := hrec.2 rc1 hrc1
          rw [hg1] at this
          exact opFrame_trans hif.2 this

/-- A `Map.lookup` retry loop through a read-only handle returns the state
unchanged. -/
theorem lookupTop_readonly {K V : Type} [DecidableEq K] [DecidableEq V] :
    ∀ (fuel : Nat) (st : St K V) (eqf : K → K → Bool) (c : CMap) (k : K)
      (hsh : Nat) (st' : St K V) (v : Option V),
      c.readOnly = true →
      lookupTop fuel st eqf c k hsh = some (st', v) → st' = st := by
  intro fuel
  induction fuel with
  | zero =>
    intro st eqf c k hsh st' v hro h
    cases h
  | succ fuel ih =>
    intro st eqf c k hsh st' v hro h
    simp only [lookupTop] at h
    rcases hrc : st.cell c.root with _ | rc
    · rw [hrc] at h
      cases h
    · rw [hrc] at h
      dsimp only at h
      rcases hi : ilookup (fuel + 1) st eqf c c.root k hsh 0 none rc.gen
          with _ | ⟨st1, v1, ok1⟩
      · rw [hi] at h
        cases h
      · rw [hi] at h
        have hsame := ilookup_readonly (fuel + 1) st eqf c c.root k hsh 0
          none rc.gen st1 v1 ok1 hro hi
        cases ok1 with
        | true =>
          cases h
          exact hsame
        | false =>
          dsimp only at h
          rw [ih st1 eqf c k hsh st' v hro h, hsame]

/-! ### The pure lookup and the region toolkit for snapshot isolation -/

theorem cell_lt_of_some {K V : Type} {st : St K V} {a : Nat} {cl : Cell K V}
    (h : st.cell a = some cl) : a < st.mem.length := by
  by_contra hb
  rw [(cell_eq_none_iff st a).mpr (by omega)] at h
  cases h

theorem branchAddrs_of_get {K V : Type} {slice : List (Br K V)} {p x : Nat}
    {bmp g : Nat} (h : slice.get? p = some (Br.inode x)) :
    x ∈ branchAddrs (MainNode.cnode bmp slice g) := by
  simp only [branchAddrs, List.mem_filterMap]
  exact ⟨Br.inode x, List.get?_mem h, rfl⟩

theorem vlookup_mono {K V : Type} [DecidableEq K] [DecidableEq V]
    (eqf : K → K → Bool) :
    ∀ (f : Nat) (st : St K V) (a : Nat) (k : K) (hsh lev : Nat)
      (r : Option V), vlookup eqf f st a k hsh lev = some r →
      ∀ f', f ≤ f' → vlookup eqf f' st a k hsh lev = some r := by
  intro f
  induction f with
  | zero =>
    intro st a k hsh lev r h
    cases h
  | succ f ih =>
    intro st a k hsh lev r h f' hf
    rcases f' with _ | f''
    · omega
    · simp only [vlookup] at h ⊢
      rcases hc : st.cell a with _ | cl
      · rw [hc] at h
        cases h
      · rw [hc] at h
        dsimp only at h ⊢
        rcases hm : cl.main with ⟨bmp, slice, cg⟩ | ⟨te⟩ | ⟨es⟩ | _
        · rw [hm] at h
          dsimp only at h ⊢
          by_cases hflag : bmp &&& (flagPos hsh lev bmp).1 = 0
          · rw [if_pos hflag] at h ⊢
            exact h
          · rw [if_neg hflag] at h ⊢
            rcases hbr : slice.get? (flagPos hsh lev bmp).2 with _ | br
            · rw [hbr] at h
              cases h
            · rw [hbr] at h
              cases br with
              | inode ba =>
                dsimp only at h ⊢
                exact ih st ba k hsh (lev + 5) r h f'' (by omega)
              | snode se =>
                dsimp only at h ⊢
                exact h
        · rw [hm] at h
          cases h
        · rw [hm] at h
          exact h
        · rw [hm] at h
          cases h

theorem vlookup_agree {K V : Type} [DecidableEq K] [DecidableEq V]
    (eqf : K → K → Bool) (N : Nat) (st st' : St K V)
    (hext : ∀ b, b < N → st'.cell b = st.cell b)
    (hclos : ∀ b, b < N → ∀ cl, st.cell b = some cl →
      branchesIn cl.main N) :
    ∀ (fuel a : Nat) (k : K) (hsh lev : Nat), a < N →
      vlookup eqf fuel st' a k hsh lev = vlookup eqf fuel st a k hsh lev := by
  intro fuel
  induction fuel with
  | zero =>
    intro a k hsh lev ha
    rfl
  | succ fuel ih =>
    intro a k hsh lev ha
    simp only [vlookup]
    rw [hext a ha]
    rcases hc : st.cell a with _ | cl
    · rfl
    · dsimp only
      rcases hm : cl.main with ⟨bmp, slice, cg⟩ | ⟨te⟩ | ⟨es⟩ | _
      · dsimp only
        by_cases hflag : bmp &&& (flagPos hsh lev bmp).1 = 0
        · rw [if_pos hflag, if_pos hflag]
        · rw [if_neg hflag, if_neg hflag]
          rcases hbr : slice.get? (flagPos hsh lev bmp).2 with _ | br
          · rfl
          · cases br with
            | inode ba =>
              dsimp only
              refine ih ba k hsh (lev + 5) ?_
              have := hclos a ha cl hc
              rw [hm] at this
              exact this ba (branchAddrs_of_get hbr)
            | snode se =>
              rfl
      · rfl
      · rfl
      · rfl

theorem vlookup_agree_start {K V : Type} [DecidableEq K] [DecidableEq V]
    (eqf : K → K → Bool) (N : Nat) (st st' : St K V)
    {a a' : Nat} {cl cl' : Cell K V}
    (hext : ∀ b, b < N → st'.cell b = st.cell b)
    (hclos : ∀ b, b < N → ∀ c2, st.cell b = some c2 →
      branchesIn c2.main N)
    (ha' : st'.cell a' = some cl') (ha : st.cell a = some cl)
    (hm : cl'.main = cl.main) (hbr : branchesIn cl.main N) :
    ∀ (fuel : Nat) (k : K) (hsh lev : Nat),
      vlookup eqf (fuel + 1) st' a' k hsh lev =
        vlookup eqf (fuel + 1) st a k hsh lev := by
  intro fuel k hsh lev
  simp only [vlookup]
  rw [ha', ha]
  dsimp only
  rw [hm]
  rcases hmm : cl.main with ⟨bmp, slice, cg⟩ | ⟨te⟩ | ⟨es⟩ | _
  · dsimp only
    by_cases hflag : bmp &&& (flagPos hsh lev bmp).1 = 0
    · rw [if_pos hflag, if_pos hflag]
    · rw [if_neg hflag, if_neg hflag]
      rcases hbr2 : slice.get? (flagPos hsh lev bmp).2 with _ | br
      · rfl
      · cases br with
        | inode ba =>
          dsimp only
          refine vlookup_agree eqf N st st' hext hclos fuel ba k hsh
            (lev + 5) ?_
          rw [hmm] at hbr
          exact hbr ba (branchAddrs_of_get hbr2)
        | snode se =>
          rfl
  · rfl
  · rfl
  · rfl

theorem gcas_nil {K V : Type} [DecidableEq K] [DecidableEq V]
    {st : St K V} {a : Nat} {cl : Cell K V} {old nw : MainNode K V}
    (horc : st.orc = []) (ha : st.cell a = some cl) (he : cl.main = old) :
    gcas st a old nw = some (st.write a nw, true) := by
  unfold gcas
  rw [ha]
  dsimp only
  rw [if_pos he]
  have ho : gcasOutcome st = (true, st) := by
    unfold gcasOutcome
    rw [horc]
  rw [ho]

/-- Total description of `cNode.renewed` over a slice whose I-node
branches all dereference: it succeeds, allocates the copies past the old
heap without touching it, and maps each branch position to either the same
S-node or an I-node copy of the original cell's main in generation `g`. -/
theorem renewedSlice_corr {K V : Type} (g : Nat) :
    ∀ (slice : List (Br K V)) (st : St K V),
      (∀ x, Br.inode x ∈ slice → ∃ cl, st.cell x = some cl) →
      ∃ st1 rslice, renewedSlice st g slice = some (st1, rslice) ∧
        rslice.length = slice.length ∧
        (∀ a, a < st.mem.length → st1.cell a = st.cell a) ∧
        st.mem.length ≤ st1.mem.length ∧
        st1.nextGen = st.nextGen ∧
        st1.orc = st.orc ∧
        (∀ p se, slice.get? p = some (Br.snode se) →
          rslice.get? p = some (Br.snode se)) ∧
        (∀ p x, slice.get? p = some (Br.inode x) →
          ∃ x' cl, rslice.get? p = some (Br.inode x') ∧
            st.mem.length ≤ x' ∧
            st.cell x = some cl ∧ st1.cell x' = some ⟨cl.main, g⟩) := by
  intro slice
  induction slice with
  | nil =>
    intro st hlive
    refine ⟨st, [], rfl, rfl, fun a ha => rfl, le_refl _, rfl, rfl, ?_, ?_⟩
    · intro p se hp
      cases p <;> cases hp
    · intro p x hp
      cases p <;> cases hp
  | cons b rest ih =>
    intro st hlive
    cases b with
    | inode a =>
      obtain ⟨cl, hcl⟩ := hlive a (List.mem_cons_self _ _)
      have ht : copyToGen st a g = some (st.alloc cl.main g) := by
        unfold copyToGen gcasRead
        rw [hcl]
        rfl
      rcases hq : st.alloc cl.main g with ⟨stH, aH⟩
      rw [hq] at ht
      have hcellH : ∀ b2, stH.cell b2 =
          if b2 = st.mem.length then some ⟨cl.main, g⟩ else st.cell b2 := by
        intro b2
        have hca := cell_alloc st cl.main g b2
        rw [hq] at hca
        exact hca
      have hlenH : stH.mem.length = st.mem.length + 1 := by
        have := alloc_mem_length st cl.main g
        rw [hq] at this
        exact this
      have haH : aH = st.mem.length := by
        have : (st.alloc cl.main g).2 = st.mem.length := rfl
        rw [hq] at this
        exact this
      have hngH : stH.nextGen = st.nextGen := by
        have : (st.alloc cl.main g).1.nextGen = st.nextGen := rfl
        rw [hq] at this
        exact this
      have horcH : stH.orc = st.orc := by
        have : (st.alloc cl.main g).1.orc = st.orc := rfl
        rw [hq] at this
        exact this
      obtain ⟨st2, rest', hrs, hlen, hcells, hle, hng, horc, hsn, hin⟩ :=
        ih stH (fun x hx => by
          obtain ⟨cl2, hcl2⟩ := hlive x (List.mem_cons_of_mem _ hx)
          refine ⟨if x = st.mem.length then ⟨cl.main, g⟩ else cl2, ?_⟩
          rw [hcellH x]
          by_cases hxl : x = st.mem.length
          · rw [if_pos hxl, if_pos hxl]
          · rw [if_neg hxl, if_neg hxl]
            exact hcl2)
      refine ⟨st2, .inode aH :: rest', ?_, ?_, ?_, ?_, ?_, ?_, ?_, ?_⟩
      · simp only [renewedSlice]
        rw [ht]
        dsimp only
        rw [hrs]
      · simp only [List.length_cons, hlen]
      · intro b2 hb2
        rw [hcells b2 (by omega), hcellH b2,
          if_neg (by omega)]
      · omega
      · rw [hng, hngH]
      · rw [horc, horcH]
      · intro p se hp
        cases p with
        | zero => cases hp
        | succ p =>
          simp only [List.get?_cons_succ] at hp ⊢
          exact hsn p se hp
      · intro p x hp
        cases p with
        | zero =>
          cases hp
          refine ⟨aH, cl, rfl, by omega, hcl, ?_⟩
          rw [hcells aH (by omega), hcellH aH, if_pos haH]
        | succ p =>
          simp only [List.get?_cons_succ] at hp ⊢
          obtain ⟨x', cl2, h1, hfr, h2, h3⟩ := hin p x hp
          have hxlt : x < st.mem.length := by
            obtain ⟨cl3, hcl3⟩ :=
              hlive x (List.mem_cons_of_mem _ (List.get?_mem hp))
            exact cell_lt_of_some hcl3
          rw [hcellH x, if_neg (by omega)] at h2
          exact ⟨x', cl2, h1, by omega, h2, h3⟩
    | snode e =>
      obtain ⟨st2, rest', hrs, hlen, hcells, hle, hng, horc, hsn, hin⟩ :=
        ih st (fun x hx => hlive x (List.mem_cons_of_mem _ hx))
      refine ⟨st2, .snode e :: rest', ?_, ?_, hcells, hle, hng, horc, ?_, ?_⟩
      · simp only [renewedSlice]
        rw [hrs]
      · simp only [List.length_cons, hlen]
      · intro p se hp
        cases p with
        | zero =>
          cases hp
          rfl
        | succ p =>
          simp only [List.get?_cons_succ] at hp ⊢
          exact hsn p se hp
      · intro p x hp
        cases p with
        | zero => cases hp
        | succ p =>
          simp only [List.get?_cons_succ] at hp ⊢
          exact hin p x hp

theorem branchAddrs_of_mem {K V : Type} {slice : List (Br K V)} {x : Nat}
    {bmp g : Nat} (h : Br.inode x ∈ slice) :
    x ∈ branchAddrs (MainNode.cnode bmp slice g) := by
  simp only [branchAddrs, List.mem_filterMap]
  exact ⟨Br.inode x, h, rfl⟩

/-- Adequacy of `ilookup` on a homogeneous region: when every cell of the
closed region carries the lookup's start generation, the lookup descends
without renewing or writing and returns the pure value. -/
theorem ilookup_pure_samegen {K V : Type} [DecidableEq K] [DecidableEq V]
    (eqf : K → K → Bool) (N : Nat) :
    ∀ (fuel : Nat) (st : St K V) (c : CMap) (a : Nat) (k : K)
      (hsh lev : Nat) (parent : Option Nat) (sg : Nat) (v : Option V),
      c.readOnly = false →
      regionGen st N sg →
      a < N →
      vlookup eqf fuel st a k hsh lev = some v →
      ilookup fuel st eqf c a k hsh lev parent sg = some (st, v, true) := by
  intro fuel
  induction fuel with
  | zero =>
    intro st c a k hsh lev parent sg v hro hreg haN hv
    cases hv
  | succ fuel ih =>
    intro st c a k hsh lev parent sg v hro hreg haN hv
    obtain ⟨cl, hcl, hgen, hbrs⟩ := hreg a haN
    simp only [vlookup] at hv
    rw [hcl] at hv
    dsimp only at hv
    simp only [ilookup]
    rw [hcl]
    dsimp only
    rcases hm : cl.main with ⟨bmp, slice, cg⟩ | ⟨te⟩ | ⟨es⟩ | _
    · rw [hm] at hv hbrs
      dsimp only at hv
      dsimp only
      by_cases hflag : bmp &&& (flagPos hsh lev bmp).1 = 0
      · rw [if_pos hflag] at hv ⊢
        cases hv
        rfl
      · rw [if_neg hflag] at hv ⊢
        rcases hget : slice.get? (flagPos hsh lev bmp).2 with _ | br
        · rw [hget] at hv
          cases hv
        · rw [hget] at hv
          cases br with
          | inode ba =>
            dsimp only at hv ⊢
            have hbaN : ba < N := hbrs ba (branchAddrs_of_get hget)
            obtain ⟨bc, hbc, hbgen, hbbr⟩ := hreg ba hbaN
            rw [hbc]
            dsimp only
            rw [if_pos (by rw [hro, hbgen]; simp)]
            exact ih st c ba k hsh (lev + 5) (some a) sg v hro hreg hbaN hv
          | snode se =>
            dsimp only at hv ⊢
            by_cases hk : eqf se.key k = true
            · rw [if_pos hk] at hv ⊢
              cases hv
              rfl
            · rw [if_neg hk] at hv ⊢
              cases hv
              rfl
    · rw [hm] at hv
      cases hv
    · rw [hm] at hv
      dsimp only at hv
      cases hv
      dsimp only
    · rw [hm] at hv
      cases hv

/-- Adequacy of `ilookup` across a generation boundary: starting from a
cell of the lookup's start generation whose subtree lies in a closed
region of a single older generation `g0`, the lookup renews one level per
descent (the writes staying outside the region), succeeds on an exhausted
GCAS oracle, and returns the pure value; fuel `2n+2` covers a pure path
of fuel `n+1`. -/
theorem ilookup_pure_renew {K V : Type} [DecidableEq K] [DecidableEq V]
    (eqf : K → K → Bool) (N g0 : Nat) :
    ∀ (n : Nat) (st : St K V) (c : CMap) (A : Nat) (k : K) (hsh lev : Nat)
      (parent : Option Nat) (sg : Nat) (v : Option V) (clA : Cell K V),
      c.readOnly = false →
      st.orc = [] →
      regionGen st N g0 →
      g0 ≠ sg →
      st.cell A = some clA →
      clA.gen = sg →
      branchesIn clA.main N →
      vlookup eqf (n + 1) st A k hsh lev = some v →
      ∀ m, 2 * n + 2 ≤ m →
        ∃ st', ilookup m st eqf c A k hsh lev parent sg =
          some (st', v, true) := by
  intro n
  induction n with
  | zero =>
    intro st c A k hsh lev parent sg v clA hro horc hreg hne hclA hgenA hbrA
      hv m hm2
    rcases m with _ | m₁
    · omega
    simp only [vlookup] at hv
    rw [hclA] at hv
    dsimp only at hv
    simp only [ilookup]
    rw [hclA]
    dsimp only
    rcases hmm : clA.main with ⟨bmp, slice, cg⟩ | ⟨te⟩ | ⟨es⟩ | _
    · rw [hmm] at hv
      dsimp only at hv
      dsimp only
      by_cases hflag : bmp &&& (flagPos hsh lev bmp).1 = 0
      · rw [if_pos hflag] at hv ⊢
        cases hv
        exact ⟨st, rfl⟩
      · rw [if_neg hflag] at hv ⊢
        rcases hget : slice.get? (flagPos hsh lev bmp).2 with _ | br
        · rw [hget] at hv
          cases hv
        · rw [hget] at hv
          cases br with
          | inode ba =>
            dsimp only at hv
            exact Option.noConfusion hv
          | snode se =>
            dsimp only at hv ⊢
            by_cases hk : eqf se.key k = true
            · rw [if_pos hk] at hv ⊢
              cases hv
              exact ⟨st, rfl⟩
            · rw [if_neg hk] at hv ⊢
              cases hv
              exact ⟨st, rfl⟩
    · rw [hmm] at hv
      cases hv
    · rw [hmm] at hv
      dsimp only at hv
      cases hv
      dsimp only
      exact ⟨st, rfl⟩
    · rw [hmm] at hv
      cases hv
  | succ n' ih =>
    intro st c A k hsh lev parent sg v clA hro horc hreg hne hclA hgenA hbrA
      hv m hm2
    rcases m with _ | m₁
    · omega
    simp only [vlookup] at hv
    rw [hclA] at hv
    dsimp only at hv
    simp only [ilookup]
    rw [hclA]
    dsimp only
    rcases hmm : clA.main with ⟨bmp, slice, cg⟩ | ⟨te⟩ | ⟨es⟩ | _
    · rw [hmm] at hv
      have hbrA2 : branchesIn (MainNode.cnode bmp slice cg) N := by
        rw [hmm] at hbrA
        exact hbrA
      dsimp only at hv
      dsimp only
      by_cases hflag : bmp &&& (flagPos hsh lev bmp).1 = 0
      · rw [if_pos hflag] at hv ⊢
        cases hv
        exact ⟨st, rfl⟩
      · rw [if_neg hflag] at hv ⊢
        rcases hget : slice.get? (flagPos hsh lev bmp).2 with _ | br
        · rw [hget] at hv
          cases hv
        · rw [hget] at hv
          cases br with
          | snode se =>
            dsimp only at hv ⊢
            by_cases hk : eqf se.key k = true
            · rw [if_pos hk] at hv ⊢
              cases hv
              exact ⟨st, rfl⟩
            · rw [if_neg hk] at hv ⊢
              cases hv
              exact ⟨st, rfl⟩
          | inode ba =>
            dsimp only at hv ⊢
            have hbaN : ba < N := hbrA2 ba (branchAddrs_of_get hget)
            obtain ⟨bc, hbc, hbgen, hbbr⟩ := hreg ba hbaN
            rw [hbc]
            dsimp only
            rw [if_neg (show ¬(c.readOnly || decide (sg = bc.gen)) = true by
              rw [hro, hbgen]
              simp
              omega)]
            have hlive : ∀ x, Br.inode x ∈ slice →
                ∃ cl2, st.cell x = some cl2 := by
              intro x hx
              obtain ⟨cl2, hcl2, h1, h2⟩ :=
                hreg x (hbrA2 x (branchAddrs_of_mem hx))
              exact ⟨cl2, hcl2⟩
            obtain ⟨st1, rslice, hrs, hlen1, hcells1, hle1, hng1, horc1,
              hsn1, hin1⟩ := renewedSlice_corr sg slice st hlive
            rw [hrs]
            dsimp only
            have hALt : A < st.mem.length := cell_lt_of_some hclA
            have hclA1 : st1.cell A = some clA := by
              rw [hcells1 A hALt]
              exact hclA
            have horc1nil : st1.orc = [] := by
              rw [horc1]
              exact horc
            rw [gcas_nil horc1nil hclA1 hmm]
            dsimp only
            rw [if_pos rfl]
            rcases m₁ with _ | m₂
            · omega
            obtain ⟨ba', bcl, hget2, hfr, hbc2, hcellba1⟩ :=
              hin1 (flagPos hsh lev bmp).2 ba hget
            have hbcl : bcl = bc := by
              rw [hbc] at hbc2
              exact (Option.some.inj hbc2).symm
            subst hbcl
            have hcellA2 : (st1.write A (MainNode.cnode bmp rslice
                sg)).cell A = some ⟨MainNode.cnode bmp rslice sg, sg⟩ := by
              rw [cell_write, if_pos rfl, hclA1]
              have he : (some clA).map (fun c2 =>
                  ({ c2 with main := MainNode.cnode bmp rslice sg } :
                    Cell K V)) =
                  some ⟨MainNode.cnode bmp rslice sg, clA.gen⟩ := rfl
              rw [he, hgenA]
            have hcellba2 : (st1.write A (MainNode.cnode bmp rslice
                sg)).cell ba' = some ⟨bcl.main, sg⟩ := by
              rw [cell_write, if_neg (by omega)]
              exact hcellba1
            simp only [ilookup]
            rw [hcellA2]
            dsimp only
            rw [if_neg hflag]
            rw [hget2]
            dsimp only
            rw [hcellba2]
            dsimp only
            rw [if_pos (show (c.readOnly || decide (sg =
                (⟨bcl.main, sg⟩ : Cell K V).gen)) = true by
              rw [hro]
              simp)]
            have hext2 : ∀ b, b < N →
                (st1.write A (MainNode.cnode bmp rslice sg)).cell b =
                  st.cell b := by
              intro b hb
              obtain ⟨cl2, hcl2, hg2, hbr2⟩ := hreg b hb
              have hbA : ¬(A = b) := by
                intro he
                subst he
                rw [hcl2] at hclA
                cases hclA
                omega
              rw [cell_write, if_neg hbA]
              rw [hcells1 b (cell_lt_of_some hcl2)]
            have hclos : ∀ b, b < N → ∀ c2, st.cell b = some c2 →
                branchesIn c2.main N := by
              intro b hb c2 hc2
              obtain ⟨cl2, hcl2, h1, hbr2⟩ := hreg b hb
              rw [hcl2] at hc2
              cases hc2
              exact hbr2
            have hregion2 : regionGen (st1.write A (MainNode.cnode bmp
                rslice sg)) N g0 := by
              intro b hb
              obtain ⟨cl2, hcl2, hg2, hbr2⟩ := hreg b hb
              refine ⟨cl2, ?_, hg2, hbr2⟩
              rw [hext2 b hb]
              exact hcl2
            have hv2 : vlookup eqf (n' + 1) (st1.write A (MainNode.cnode
                bmp rslice sg)) ba' k hsh (lev + 5) = some v := by
              rw [vlookup_agree_start eqf N st (st1.write A
                (MainNode.cnode bmp rslice sg)) hext2 hclos hcellba2 hbc
                rfl hbbr n' k hsh (lev + 5)]
              exact hv
            have horc2 : (st1.write A (MainNode.cnode bmp rslice
                sg)).orc = [] := horc1nil
            obtain ⟨st', hrec⟩ := ih (st1.write A (MainNode.cnode bmp
              rslice sg)) c ba' k hsh (lev + 5) (some A) sg v
              ⟨bcl.main, sg⟩ hro horc2 hregion2 hne hcellba2 rfl hbbr hv2
              m₂ (by omega)
            exact ⟨st', hrec⟩
    · rw [hmm] at hv
      cases hv
    · rw [hmm] at hv
      dsimp only at hv
      cases hv
      dsimp only
      exact ⟨st, rfl⟩
    · rw [hmm] at hv
      cases hv

/-- `Map.lookup` adequacy across a generation boundary: the first attempt
already succeeds with the pure value. -/
theorem lookupTop_pure_renew {K V : Type} [DecidableEq K] [DecidableEq V]
    (eqf : K → K → Bool) (N g0 : Nat) (st : St K V) (c : CMap) (k : K)
    (hsh n : Nat) (v : Option V) (rc : Cell K V)
    (hro : c.readOnly = false) (horc : st.orc = [])
    (hreg : regionGen st N g0) (hne : g0 ≠ rc.gen)
    (hrc : st.cell c.root = some rc) (hbr : branchesIn rc.main N)
    (hv : vlookup eqf (n + 1) st c.root k hsh 0 = some v) :
    ∀ m, 2 * n + 2 ≤ m →
      ∃ st', lookupTop m st eqf c k hsh = some (st', v) := by
  intro m hm
  rcases m with _ | m₁
  · omega
  obtain ⟨st', hil⟩ := ilookup_pure_renew eqf N g0 n st c c.root k hsh 0
    none rc.gen v rc hro horc hreg hne hrc rfl hbr hv (m₁ + 1) hm
  refine ⟨st', ?_⟩
  simp only [lookupTop]
  rw [hrc]
  dsimp only
  rw [hil]

/-- `Map.lookup` adequacy on a homogeneous heap: the first attempt reads
the pure value without writing. -/
theorem lookupTop_pure_samegen {K V : Type} [DecidableEq K]
    [DecidableEq V] (eqf : K → K → Bool) (N : Nat) (st : St K V)
    (c : CMap) (k : K) (hsh n : Nat) (v : Option V) (rc : Cell K V)
    (hro : c.readOnly = false) (hreg : regionGen st N rc.gen)
    (hrc : st.cell c.root = some rc) (hrootN : c.root < N)
    (hv : vlookup eqf (n + 1) st c.root k hsh 0 = some v) :
    ∀ m, n + 1 ≤ m → ∃ st', lookupTop m st eqf c k hsh = some (st', v) := by
  intro m hm
  rcases m with _ | m₁
  · omega
  have hv2 := vlookup_mono eqf (n + 1) st c.root k hsh 0 v hv (m₁ + 1)
    (by omega)
  have hil := ilookup_pure_samegen eqf N (m₁ + 1) st c c.root k hsh 0
    none rc.gen v hro hreg hrootN hv2
  refine ⟨st, ?_⟩
  simp only [lookupTop]
  rw [hrc]
  dsimp only
  rw [hil]

/-- A sequence of `Set`/`Delete` calls through a handle preserves the
branch-count invariant and is framed by the handle's root generation. -/
theorem applyOps_frame {K V : Type} [DecidableEq K] [DecidableEq V]
    (fuel : Nat) (eqf : K → K → Bool) (hashf : K → Nat) (c : CMap) :
    ∀ (ops : List (MOp K V)) (st st' : St K V),
      applyOps fuel eqf hashf c ops st = some st' → cnLenOK st →
      ∀ rc, st.cell c.root = some rc →
        cnLenOK st' ∧ opFrame st st' rc.gen := by
  intro ops
  induction ops with
  | nil =>
    intro st st' h hok rc hrc
    cases h
    exact ⟨hok, opFrame_refl st rc.gen⟩
  | cons op rest ih =>
    intro st st' h hok rc hrc
    cases op with
    | mset k v =>
      simp only [applyOps] at h
      rcases hs : setOp fuel st eqf hashf c k v with msg | _ | st1
      · rw [hs] at h
        cases h
      · rw [hs] at h
        cases h
      · rw [hs] at h
        dsimp only at h
        unfold setOp at hs
        by_cases hro : c.readOnly = true
        · rw [if_pos hro] at hs
          cases hs
        · rw [if_neg hro] at hs
          rcases hit : insertTop fuel st eqf c ⟨k, v, hash32 hashf k⟩
              with _ | st1'
          · rw [hit] at hs
            cases hs
          · rw [hit] at hs
            cases hs
            have hif := insertTop_frame fuel st eqf c
              ⟨k, v, hash32 hashf k⟩ st1 hit hok
            have hfr := hif.2 rc hrc
            obtain ⟨rc1, hrc1, hg1⟩ := opFrame_cell_gen hfr hrc
            have hrec := ih st1 st' h hif.1 rc1 hrc1
            rw [hg1] at hrec
            exact ⟨hrec.1, opFrame_trans hfr hrec.2⟩
    | mdel k =>
      simp only [applyOps] at h
      rcases hs : deleteOp fuel st eqf hashf c k with msg | _ | r
      · rw [hs] at h
        cases h
      · rw [hs] at h
        cases h
      · rw [hs] at h
        dsimp only at h
        rcases r with ⟨st1, vr⟩
        dsimp only at h
        unfold deleteOp at hs
        by_cases hro : c.readOnly = true
        · rw [if_pos hro] at hs
          cases hs
        · rw [if_neg hro] at hs
          rcases hit : removeTop fuel st eqf c k (hash32 hashf k)
              with _ | r'
          · rw [hit] at hs
            cases hs
          · rw [hit] at hs
            cases hs
            have hif := removeTop_frame fuel st eqf c k (hash32 hashf k)
              st1 vr hit hok
            have hfr := hif.2 rc hrc
            obtain ⟨rc1, hrc1, hg1⟩ := opFrame_cell_gen hfr hrc
            have hrec := ih st1 st' h hif.1 rc1 hrc1
            rw [hg1] at hrec
            exact ⟨hrec.1, opFrame_trans hfr hrec.2⟩

/-! ### Branch addresses stay inside the heap -/

theorem branchesIn_mono {K V : Type} {m : MainNode K V} {N N' : Nat}
    (h : branchesIn m N) (hle : N ≤ N') : branchesIn m N' :=
  fun x hx => lt_of_lt_of_le (h x hx) hle

theorem mem_branchAddrs_iff {K V : Type} {slice : List (Br K V)}
    {x bmp g : Nat} :
    x ∈ branchAddrs (MainNode.cnode bmp slice g) ↔ Br.inode x ∈ slice := by
  simp only [branchAddrs, List.mem_filterMap]
  constructor
  · rintro ⟨b, hb, he⟩
    cases b with
    | inode a =>
      dsimp only at he
      cases he
      exact hb
    | snode e =>
      dsimp only at he
      cases he
  · intro hb
    exact ⟨Br.inode x, hb, rfl⟩

theorem branchesIn_tnode {K V : Type} (e : Entry K V) (N : Nat) :
    branchesIn (MainNode.tnode e) N := by
  intro x hx
  simp only [branchAddrs] at hx
  cases hx

theorem branchesIn_lnode {K V : Type} (es : List (Entry K V)) (N : Nat) :
    branchesIn (MainNode.lnode es) N := by
  intro x hx
  simp only [branchAddrs] at hx
  cases hx

theorem branchesIn_nilMain {K V : Type} (N : Nat) :
    branchesIn (MainNode.nilMain : MainNode K V) N := by
  intro x hx
  simp only [branchAddrs] at hx
  cases hx

theorem mem_set_elim {α : Type} :
    ∀ (l : List α) (n : Nat) (a x : α), x ∈ l.set n a → x ∈ l ∨ x = a := by
  intro l
  induction l with
  | nil =>
    intro n a x hx
    simp only [List.set] at hx
    cases hx
  | cons b rest ih =>
    intro n a x hx
    cases n with
    | zero =>
      simp only [List.set] at hx
      rcases List.mem_cons.mp hx with h | h
      · right
        exact h
      · left
        exact List.mem_cons_of_mem _ h
    | succ n =>
      simp only [List.set] at hx
      rcases List.mem_cons.mp hx with h | h
      · left
        rw [h]
        exact List.mem_cons_self _ _
      · rcases ih n a x h with h2 | h2
        · left
          exact List.mem_cons_of_mem _ h2
        · right
          exact h2

theorem branchesIn_cnInserted {K V : Type} {bmp : Nat}
    {slice : List (Br K V)} {pos flag : Nat} {br : Br K V} {gen N : Nat}
    (hs : ∀ x, Br.inode x ∈ slice → x < N)
    (hb : ∀ x, br = Br.inode x → x < N) :
    branchesIn (cnInserted bmp slice pos flag br gen) N := by
  intro x hx
  unfold cnInserted at hx
  rw [mem_branchAddrs_iff] at hx
  rcases List.mem_append.mp hx with h1 | h2
  · exact hs x (List.take_subset _ _ h1)
  · rcases List.mem_cons.mp h2 with h3 | h4
    · exact hb x h3.symm
    · exact hs x (List.drop_subset _ _ h4)

theorem branchesIn_cnUpdated {K V : Type} {bmp : Nat}
    {slice : List (Br K V)} {pos : Nat} {br : Br K V} {gen N : Nat}
    (hs : ∀ x, Br.inode x ∈ slice → x < N)
    (hb : ∀ x, br = Br.inode x → x < N) :
    branchesIn (cnUpdated bmp slice pos br gen) N := by
  intro x hx
  unfold cnUpdated at hx
  rw [mem_branchAddrs_iff] at hx
  rcases mem_set_elim slice pos br (Br.inode x) hx with h1 | h2
  · exact hs x h1
  · exact hb x h2.symm

theorem branchesIn_cnRemoved {K V : Type} {bmp : Nat}
    {slice : List (Br K V)} {pos flag : Nat} {gen N : Nat}
    (hs : ∀ x, Br.inode x ∈ slice → x < N) :
    branchesIn (cnRemoved bmp slice pos flag gen) N := by
  intro x hx
  unfold cnRemoved at hx
  rw [mem_branchAddrs_iff] at hx
  rcases List.mem_append.mp hx with h1 | h2
  · exact hs x (List.take_subset _ _ h1)
  · exact hs x (List.drop_subset _ _ h2)

theorem compressSlice_branches {K V : Type} {st : St K V} :
    ∀ (slice slice' : List (Br K V)),
      compressSlice st slice = some slice' →
      ∀ x, Br.inode x ∈ slice' → Br.inode x ∈ slice := by
  intro slice
  induction slice with
  | nil =>
    intro slice' h x hx
    cases h
    cases hx
  | cons b rest ih =>
    intro slice' h x hx
    cases b with
    | inode a =>
      simp only [compressSlice] at h
      rcases hc : st.cell a with _ | c
      · rw [hc] at h
        cases h
      · rw [hc] at h
        dsimp only at h
        rcases hcs : compressSlice st rest with _ | rest'
        · rw [hcs] at h
          cases h
        · rw [hcs] at h
          dsimp only at h
          cases h
          rcases List.mem_cons.mp hx with h1 | h2
          · unfold resurrect at h1
            rcases hm : c.main with _ | te | _ | _
            all_goals rw [hm] at h1
            · cases h1
              exact List.mem_cons_self _ _
            · cases h1
            · cases h1
              exact List.mem_cons_self _ _
            · cases h1
              exact List.mem_cons_self _ _
          · exact List.mem_cons_of_mem _ (ih rest' hcs x h2)
    | snode e =>
      simp only [compressSlice] at h
      rcases hcs : compressSlice st rest with _ | rest'
      · rw [hcs] at h
        cases h
      · rw [hcs] at h
        dsimp only at h
        cases h
        rcases List.mem_cons.mp hx with h1 | h2
        · cases h1
        · exact List.mem_cons_of_mem _ (ih rest' hcs x h2)

theorem branchesIn_toContracted {K V : Type} {bmp : Nat}
    {s : List (Br K V)} {g lev N : Nat}
    (hs : ∀ x, Br.inode x ∈ s → x < N) :
    branchesIn (toContracted bmp s g lev) N := by
  unfold toContracted
  by_cases hc : 0 < lev ∧ s.length = 1
  · rw [if_pos hc]
    rcases s with _ | ⟨b, _ | ⟨b2, rest2⟩⟩
    · exfalso
      have := hc.2
      simp only [List.length_nil] at this
      omega
    · cases b with
      | snode e =>
        exact branchesIn_tnode e N
      | inode a =>
        intro x hx
        dsimp only at hx
        rw [mem_branchAddrs_iff] at hx
        exact hs x hx
    · exfalso
      have := hc.2
      simp only [List.length_cons] at this
      omega
  · rw [if_neg hc]
    intro x hx
    rw [mem_branchAddrs_iff] at hx
    exact hs x hx

theorem toCompressed_branches {K V : Type} {st : St K V} {bmp : Nat}
    {slice : List (Br K V)} {lev : Nat} {m' : MainNode K V} {N : Nat}
    (h : toCompressed st bmp slice lev = some m')
    (hs : ∀ x, Br.inode x ∈ slice → x < N) : branchesIn m' N := by
  unfold toCompressed at h
  rcases hcs : compressSlice st slice with _ | slice'
  · rw [hcs] at h
    cases h
  · rw [hcs] at h
    dsimp only at h
    cases h
    exact branchesIn_toContracted
      (fun x hx => hs x (compressSlice_branches slice slice' hcs x hx))

theorem heapAddr_of_mem_eq {K V : Type} {st st' : St K V}
    (hmem : st'.mem = st.mem) (hok : heapAddrOK st) : heapAddrOK st' := by
  intro b cl hcl
  have hc : st'.cell b = st.cell b := by
    simp [St.cell, hmem]
  rw [hc] at hcl
  rw [show st'.mem.length = st.mem.length by rw [hmem]]
  exact hok b cl hcl

theorem heapAddr_alloc {K V : Type} {st : St K V} {m : MainNode K V}
    {g : Nat} (hok : heapAddrOK st)
    (hm : branchesIn m (st.mem.length + 1)) :
    heapAddrOK (st.alloc m g).1 := by
  intro b cl hcl
  rw [cell_alloc] at hcl
  have hlen := alloc_mem_length st m g
  rw [hlen]
  by_cases hb : b = st.mem.length
  · rw [if_pos hb] at hcl
    cases hcl
    exact hm
  · rw [if_neg hb] at hcl
    exact branchesIn_mono (hok b cl hcl) (by omega)

theorem heapAddr_write {K V : Type} {st : St K V} {a : Nat}
    {m : MainNode K V} (hok : heapAddrOK st)
    (hm : branchesIn m st.mem.length) : heapAddrOK (st.write a m) := by
  intro b cl hcl
  rw [cell_write] at hcl
  rw [write_mem_length]
  by_cases hab : a = b
  · rw [if_pos hab] at hcl
    rcases hc : st.cell b with _ | cl2
    · rw [hc] at hcl
      cases hcl
    · rw [hc] at hcl
      have hred : (some cl2).map (fun c2 =>
          ({ c2 with main := m } : Cell K V)) =
          some { cl2 with main := m } := rfl
      rw [hred] at hcl
      cases hcl
      exact hm
  · rw [if_neg hab] at hcl
    exact hok b cl hcl

theorem gcas_heapAddr {K V : Type} [DecidableEq K] [DecidableEq V]
    {st : St K V} {a : Nat} {old m : MainNode K V} {st' : St K V}
    {ok : Bool} (hg : gcas st a old m = some (st', ok))
    (hok : heapAddrOK st) (hm : branchesIn m st.mem.length) :
    heapAddrOK st' ∧ st'.mem.length = st.mem.length := by
  unfold gcas at hg
  rcases hc : st.cell a with _ | cl
  · rw [hc] at hg
    cases hg
  · rw [hc] at hg
    dsimp only at hg
    by_cases he : cl.main = old
    · rw [if_pos he] at hg
      rcases ho : gcasOutcome st with ⟨b, st1⟩
      have hmem : st1.mem = st.mem := by
        have := gcasOutcome_mem st
        rw [ho] at this
        exact this
      rw [ho] at hg
      cases b
      · dsimp only at hg
        cases hg
        exact ⟨heapAddr_of_mem_eq hmem hok, by rw [hmem]⟩
      · dsimp only at hg
        cases hg
        have hok1 : heapAddrOK st1 := heapAddr_of_mem_eq hmem hok
        have hm1 : branchesIn m st1.mem.length := by
          rw [hmem]
          exact hm
        refine ⟨heapAddr_write hok1 hm1, ?_⟩
        rw [write_mem_length, hmem]
    · rw [if_neg he] at hg
      cases hg
      exact ⟨hok, rfl⟩

theorem clean_heapAddr {K V : Type} [DecidableEq K] [DecidableEq V]
    {st : St K V} {a lev : Nat} {st' : St K V} {ok : Bool}
    (h : clean st a lev = some (st', ok)) (hok : heapAddrOK st) :
    heapAddrOK st' ∧ st'.mem.length = st.mem.length := by
  unfold clean gcasRead at h
  rcases hc : st.cell a with _ | cl
  · rw [hc] at h
    cases h
  · rw [hc] at h
    dsimp only [Option.map] at h
    rcases hm : cl.main with ⟨bmp, slice, cg⟩ | ⟨te⟩ | ⟨es⟩ | _
    · rw [hm] at h
      dsimp only at h
      rcases htc : toCompressed st bmp slice lev with _ | m'
      · rw [htc] at h
        cases h
      · rw [htc] at h
        dsimp only at h
        have hs : ∀ x, Br.inode x ∈ slice → x < st.mem.length := by
          intro x hx
          have := hok a cl hc
          rw [hm] at this
          exact this x (branchAddrs_of_mem hx)
        rw [← hm] at h
        exact gcas_heapAddr h hok (toCompressed_branches htc hs)
    · rw [hm] at h
      dsimp only at h
      cases h
      exact ⟨hok, rfl⟩
    · rw [hm] at h
      dsimp only at h
      cases h
      exact ⟨hok, rfl⟩
    · rw [hm] at h
      dsimp only at h
      cases h
      exact ⟨hok, rfl⟩

theorem cleanOpt_heapAddr {K V : Type} [DecidableEq K] [DecidableEq V]
    {st : St K V} {parent : Option Nat} {lev : Nat} {st' : St K V}
    (h : cleanOpt st parent lev = some st') (hok : heapAddrOK st) :
    heapAddrOK st' ∧ st'.mem.length = st.mem.length := by
  unfold cleanOpt at h
  rcases parent with _ | p
  · cases h
  · dsimp only at h
    rcases hcl : clean st p lev with _ | ⟨st1, ok1⟩
    · rw [hcl] at h
      cases h
    · rw [hcl] at h
      dsimp only at h
      cases h
      exact clean_heapAddr hcl hok

theorem newMainNodeAux_heapAddr {K V : Type} :
    ∀ (fuel : Nat) (st : St K V) (x : Entry K V) (xhc : Nat)
      (y : Entry K V) (yhc lev g : Nat),
      heapAddrOK st →
      heapAddrOK (newMainNodeAux fuel st x xhc y yhc lev g).1 ∧
      st.mem.length ≤ (newMainNodeAux fuel st x xhc y yhc lev g).1.mem.length ∧
      branchesIn (newMainNodeAux fuel st x xhc y yhc lev g).2
        (newMainNodeAux fuel st x xhc y yhc lev g).1.mem.length := by
  intro fuel
  induction fuel with
  | zero =>
    intro st x xhc y yhc lev g hok
    exact ⟨hok, le_refl _, branchesIn_nilMain _⟩
  | succ fuel ih =>
    intro st x xhc y yhc lev g hok
    simp only [newMainNodeAux]
    by_cases h32 : 32 ≤ lev
    · rw [if_pos h32]
      exact ⟨hok, le_refl _, branchesIn_lnode _ _⟩
    · rw [if_neg h32]
      by_cases hidx : (xhc >>> lev) &&& 0x1f = (yhc >>> lev) &&& 0x1f
      · rw [if_pos hidx]
        dsimp only
        obtain ⟨hok1, hle1, hbr1⟩ := ih st x xhc y yhc (lev + 5) g hok
        refine ⟨?_, ?_, ?_⟩
        · exact heapAddr_alloc hok1 (branchesIn_mono hbr1 (by omega))
        · rw [alloc_mem_length]
          omega
        · intro z hz
          rw [mem_branchAddrs_iff] at hz
          rcases List.mem_cons.mp hz with h1 | h1
          · cases h1
            rw [alloc_mem_length]
            have haddr : ((newMainNodeAux fuel st x xhc y yhc (lev + 5)
                g).1.alloc (newMainNodeAux fuel st x xhc y yhc (lev + 5)
                g).2 g).2 =
                (newMainNodeAux fuel st x xhc y yhc (lev + 5)
                  g).1.mem.length := rfl
            omega
          · cases h1
      · rw [if_neg hidx]
        by_cases hlt : (xhc >>> lev) &&& 0x1f < (yhc >>> lev) &&& 0x1f
        · rw [if_pos hlt]
          refine ⟨hok, le_refl _, ?_⟩
          intro z hz
          rw [mem_branchAddrs_iff] at hz
          rcases List.mem_cons.mp hz with h1 | h1
          · cases h1
          · rcases List.mem_cons.mp h1 with h2 | h2
            · cases h2
            · cases h2
        · rw [if_neg hlt]
          refine ⟨hok, le_refl _, ?_⟩
          intro z hz
          rw [mem_branchAddrs_iff] at hz
          rcases List.mem_cons.mp hz with h1 | h1
          · cases h1
          · rcases List.mem_cons.mp h1 with h2 | h2
            · cases h2
            · cases h2

theorem renewedSlice_heapAddr {K V : Type} {g : Nat} :
    ∀ (slice : List (Br K V)) (st st1 : St K V) (rslice : List (Br K V)),
      renewedSlice st g slice = some (st1, rslice) → heapAddrOK st →
      heapAddrOK st1 ∧ st.mem.length ≤ st1.mem.length := by
  intro slice
  induction slice with
  | nil =>
    intro st st1 rslice h hok
    simp only [renewedSlice, Option.some.injEq, Prod.mk.injEq] at h
    rw [← h.1]
    exact ⟨hok, le_refl _⟩
  | cons b rest ih =>
    intro st st1 rslice h hok
    cases b with
    | inode a =>
      simp only [renewedSlice] at h
      rcases hc : copyToGen st a g with _ | ⟨stH, aH⟩
      · rw [hc] at h
        cases h
      · rw [hc] at h
        dsimp only at h
        rcases hr : renewedSlice stH g rest with _ | ⟨st2, rest'⟩
        · rw [hr] at h
          cases h
        · rw [hr] at h
          dsimp only at h
          cases h
          unfold copyToGen gcasRead at hc
          rcases hca : st.cell a with _ | cl
          · rw [hca] at hc
            cases hc
          · rw [hca] at hc
            dsimp only [Option.map] at hc
            have hq : st.alloc cl.main g = (stH, aH) :=
              Option.some.inj hc
            have hq1 : (st.alloc cl.main g).1 = stH := congrArg Prod.fst hq
            have hokH : heapAddrOK stH := by
              rw [← hq1]
              exact heapAddr_alloc hok
                (branchesIn_mono (hok a cl hca) (by omega))
            have hlenH : stH.mem.length = st.mem.length + 1 := by
              rw [← hq1]
              exact alloc_mem_length st cl.main g
            have hrec := ih stH st1 rest' hr hokH
            exact ⟨hrec.1, by omega⟩
    | snode e =>
      simp only [renewedSlice] at h
      rcases hr : renewedSlice st g rest with _ | ⟨st2, rest'⟩
      · rw [hr] at h
        cases h
      · rw [hr] at h
        dsimp only at h
        cases h
        exact ih st st1 rest' hr hok

theorem renewedSlice_branchBound {K V : Type} {g : Nat}
    {slice : List (Br K V)} {st st1 : St K V} {rslice : List (Br K V)}
    (hrs : renewedSlice st g slice = some (st1, rslice))
    (hlive : ∀ x, Br.inode x ∈ slice → ∃ cl, st.cell x = some cl) :
    ∀ x, Br.inode x ∈ rslice → x < st1.mem.length := by
  obtain ⟨st1', rslice', hrs', hlen, hcells, hle, hng, horc, hsn, hin⟩ :=
    renewedSlice_corr g slice st hlive
  rw [hrs] at hrs'
  obtain ⟨h1, h2⟩ := (Prod.mk.injEq _ _ _ _).mp (Option.some.inj hrs')
  subst h1
  subst h2
  intro x hx
  obtain ⟨p, hp⟩ := List.mem_iff_get?.mp hx
  have hplen : p < slice.length := by
    obtain ⟨hlt, _⟩ := List.get?_eq_some.mp hp
    omega
  rcases hbp : slice.get? p with _ | br
  · rw [List.get?_eq_none] at hbp
    omega
  · cases br with
    | snode se =>
      rw [hsn p se hbp] at hp
      cases hp
    | inode ba =>
      obtain ⟨x', cl, hrsl, hfr, hcl, hcl'⟩ := hin p ba hbp
      rw [hrsl] at hp
      cases hp
      exact cell_lt_of_some hcl'

theorem newMainNode_heapAddr {K V : Type} (st : St K V) (x : Entry K V)
    (xhc : Nat) (y : Entry K V) (yhc lev g : Nat) (hok : heapAddrOK st) :
    heapAddrOK (newMainNode st x xhc y yhc lev g).1 ∧
    st.mem.length ≤ (newMainNode st x xhc y yhc lev g).1.mem.length ∧
    branchesIn (newMainNode st x xhc y yhc lev g).2
      (newMainNode st x xhc y yhc lev g).1.mem.length :=
  newMainNodeAux_heapAddr 8 st x xhc y yhc lev g hok

/-- `iinsert` never writes a main node whose branches point outside the
heap: every reachable address stays allocated. -/
theorem iinsert_heapAddr {K V : Type} [DecidableEq K] [DecidableEq V] :
    ∀ (fuel : Nat) (st : St K V) (eqf : K → K → Bool) (c : CMap) (ia : Nat)
      (e : Entry K V) (lev : Nat) (parent : Option Nat) (startGen : Nat)
      (st' : St K V) (ok : Bool),
      iinsert fuel st eqf c ia e lev parent startGen = some (st', ok) →
      heapAddrOK st →
      heapAddrOK st' ∧ st.mem.length ≤ st'.mem.length := by
  intro fuel
  induction fuel with
  | zero =>
    intro st eqf c ia e lev parent startGen st' ok h hok
    cases h
  | succ fuel ih =>
    intro st eqf c ia e lev parent startGen st' ok h hok
    simp only [iinsert] at h
    rcases hci : st.cell ia with _ | cl
    · rw [hci] at h
      cases h
    · rw [hci] at h
      dsimp only at h
      rcases hm : cl.main with ⟨bmp, slice, cgen⟩ | ⟨te⟩ | ⟨es⟩ | _
      · rw [hm] at h
        dsimp only at h
        have hsb : ∀ x, Br.inode x ∈ slice → x < st.mem.length := by
          intro x hx
          have := hok ia cl hci
          rw [hm] at this
          exact this x (branchAddrs_of_mem hx)
        have hlive : ∀ x, Br.inode x ∈ slice →
            ∃ cl2, st.cell x = some cl2 := by
          intro x hx
          exact cell_isSome_of_lt (hsb x hx)
        by_cases hflag : bmp &&& (flagPos e.hash lev bmp).1 = 0
        · rw [if_pos hflag] at h
          by_cases hgen : cgen = cl.gen
          · rw [if_pos hgen] at h
            dsimp only at h
            have hnew : branchesIn (cnInserted bmp slice
                (flagPos e.hash lev bmp).2 (flagPos e.hash lev bmp).1
                (Br.snode e) cl.gen) st.mem.length :=
              branchesIn_cnInserted hsb (fun x hx => by cases hx)
            rw [← hm] at h
            have hg := gcas_heapAddr h hok hnew
            exact ⟨hg.1, by omega⟩
          · rw [if_neg hgen] at h
            rcases hrs : renewedSlice st cl.gen slice with _ | ⟨st1, rslice⟩
            · rw [hrs] at h
              cases h
            · rw [hrs] at h
              dsimp only at h
              have hra := renewedSlice_heapAddr slice st st1 rslice hrs hok
              have hrb := renewedSlice_branchBound hrs hlive
              have hnew : branchesIn (cnInserted bmp rslice
                  (flagPos e.hash lev bmp).2 (flagPos e.hash lev bmp).1
                  (Br.snode e) cl.gen) st1.mem.length :=
                branchesIn_cnInserted hrb (fun x hx => by cases hx)
              rw [← hm] at h
              have hg := gcas_heapAddr h hra.1 hnew
              exact ⟨hg.1, by omega⟩
        · rw [if_neg hflag] at h
          rcases hbr : slice.get? (flagPos e.hash lev bmp).2 with _ | br
          · rw [hbr] at h
            cases h
          · rw [hbr] at h
            dsimp only at h
            cases br with
            | inode ba =>
              dsimp only at h
              rcases hcb : st.cell ba with _ | bc
              · rw [hcb] at h
                cases h
              · rw [hcb] at h
                dsimp only at h
                by_cases hsg : startGen = bc.gen
                · rw [if_pos hsg] at h
                  exact ih st eqf c ba e (lev + 5) (some ia) startGen st'
                    ok h hok
                · rw [if_neg hsg] at h
                  rcases hrs : renewedSlice st startGen slice
                      with _ | ⟨st1, rslice⟩
                  · rw [hrs] at h
                    cases h
                  · rw [hrs] at h
                    dsimp only at h
                    have hra := renewedSlice_heapAddr slice st st1 rslice
                      hrs hok
                    have hrb := renewedSlice_branchBound hrs hlive
                    rcases hg2 : gcas st1 ia cl.main
                        (MainNode.cnode bmp rslice startGen)
                        with _ | ⟨st2, ok2⟩
                    · rw [hm] at hg2
                      rw [hg2] at h
                      cases h
                    · rw [hm] at hg2
                      rw [hg2] at h
                      dsimp only at h
                      rw [← hm] at hg2
                      have hnew : branchesIn (MainNode.cnode bmp rslice
                          startGen) st1.mem.length := by
                        intro x hx
                        rw [mem_branchAddrs_iff] at hx
                        exact hrb x hx
                      have hg := gcas_heapAddr hg2 hra.1 hnew
                      cases ok2 with
                      | true =>
                        have hrec := ih st2 eqf c ia e lev parent startGen
                          st' ok h hg.1
                        exact ⟨hrec.1, by omega⟩
                      | false =>
                        cases h
                        exact ⟨hg.1, by omega⟩
            | snode se =>
              dsimp only at h
              by_cases hkeq : eqf se.key e.key = false
              · rw [if_pos hkeq] at h
                by_cases hgen : cgen = cl.gen
                · rw [if_pos hgen] at h
                  dsimp only at h
                  have hnm := newMainNode_heapAddr st se se.hash e
                    e.hash (lev + 5) cl.gen hok
                  have hq1ok : heapAddrOK ((newMainNode st se se.hash e
                      e.hash (lev + 5) cl.gen).1.alloc (newMainNode st se
                      se.hash e e.hash (lev + 5) cl.gen).2 cl.gen).1 :=
                    heapAddr_alloc hnm.1 (branchesIn_mono hnm.2.2
                      (by omega))
                  have hq1len : ((newMainNode st se se.hash e e.hash
                      (lev + 5) cl.gen).1.alloc (newMainNode st se se.hash
                      e e.hash (lev + 5) cl.gen).2 cl.gen).1.mem.length =
                      (newMainNode st se se.hash e e.hash (lev + 5)
                        cl.gen).1.mem.length + 1 :=
                    alloc_mem_length _ _ _
                  have hq2 : ((newMainNode st se se.hash e e.hash (lev + 5)
                      cl.gen).1.alloc (newMainNode st se se.hash e e.hash
                      (lev + 5) cl.gen).2 cl.gen).2 =
                      (newMainNode st se se.hash e e.hash (lev + 5)
                        cl.gen).1.mem.length := rfl
                  have hnew : branchesIn (cnUpdated bmp slice
                      (flagPos e.hash lev bmp).2
                      (Br.inode ((newMainNode st se se.hash e e.hash
                        (lev + 5) cl.gen).1.alloc (newMainNode st se
                        se.hash e e.hash (lev + 5) cl.gen).2 cl.gen).2)
                      cl.gen)
                      ((newMainNode st se se.hash e e.hash (lev + 5)
                        cl.gen).1.alloc (newMainNode st se se.hash e
                        e.hash (lev + 5) cl.gen).2 cl.gen).1.mem.length := by
                    refine branchesIn_cnUpdated
                      (fun x hx => ?_) (fun x hx => ?_)
                    · have h1 := hsb x hx
                      have h2 := hnm.2.1
                      omega
                    · cases hx
                      rw [hq2, hq1len]
                      omega
                  rw [← hm] at h
                  have hg := gcas_heapAddr h hq1ok hnew
                  have h2 := hnm.2.1
                  refine ⟨hg.1, ?_⟩
                  rw [hg.2, hq1len]
                  omega
                · rw [if_neg hgen] at h
                  rcases hrs : renewedSlice st cl.gen slice
                      with _ | ⟨st1, rslice⟩
                  · rw [hrs] at h
                    cases h
                  · rw [hrs] at h
                    dsimp only at h
                    have hra := renewedSlice_heapAddr slice st st1 rslice
                      hrs hok
                    have hrb := renewedSlice_branchBound hrs hlive
                    have hnm := newMainNode_heapAddr st1 se se.hash e
                      e.hash (lev + 5) cl.gen hra.1
                    have hq1ok : heapAddrOK ((newMainNode st1 se se.hash e
                        e.hash (lev + 5) cl.gen).1.alloc (newMainNode st1
                        se se.hash e e.hash (lev + 5) cl.gen).2
                        cl.gen).1 :=
                      heapAddr_alloc hnm.1 (branchesIn_mono hnm.2.2
                        (by omega))
                    have hq1len : ((newMainNode st1 se se.hash e e.hash
                        (lev + 5) cl.gen).1.alloc (newMainNode st1 se
                        se.hash e e.hash (lev + 5) cl.gen).2
                        cl.gen).1.mem.length =
                        (newMainNode st1 se se.hash e e.hash (lev + 5)
                          cl.gen).1.mem.length + 1 :=
                      alloc_mem_length _ _ _
                    have hq2 : ((newMainNode st1 se se.hash e e.hash
                        (lev + 5) cl.gen).1.alloc (newMainNode st1 se
                        se.hash e e.hash (lev + 5) cl.gen).2 cl.gen).2 =
                        (newMainNode st1 se se.hash e e.hash (lev + 5)
                          cl.gen).1.mem.length := rfl
                    have hnew : branchesIn (cnUpdated bmp rslice
                        (flagPos e.hash lev bmp).2
                        (Br.inode ((newMainNode st1 se se.hash e e.hash
                          (lev + 5) cl.gen).1.alloc (newMainNode st1 se
                          se.hash e e.hash (lev + 5) cl.gen).2 cl.gen).2)
                        cl.gen)
                        ((newMainNode st1 se se.hash e e.hash (lev + 5)
                          cl.gen).1.alloc (newMainNode st1 se se.hash e
                          e.hash (lev + 5) cl.gen).2
                          cl.gen).1.mem.length := by
                      refine branchesIn_cnUpdated
                        (fun x hx => ?_) (fun x hx => ?_)
                      · have h1 := hrb x hx
                        have h2 := hnm.2.1
                        omega
                      · cases hx
                        rw [hq2, hq1len]
                        omega
                    rw [← hm] at h
                    have hg := gcas_heapAddr h hq1ok hnew
                    have h2 := hnm.2.1
                    refine ⟨hg.1, ?_⟩
                    rw [hg.2, hq1len]
                    omega
              · rw [if_neg hkeq] at h
                have hnew : branchesIn (cnUpdated bmp slice
                    (flagPos e.hash lev bmp).2 (Br.snode e) cl.gen)
                    st.mem.length :=
                  branchesIn_cnUpdated hsb (fun x hx => by cases hx)
                rw [← hm] at h
                have hg := gcas_heapAddr h hok hnew
                exact ⟨hg.1, by omega⟩
      · rw [hm] at h
        dsimp only at h
        rcases hcl : cleanOpt st parent (lev - 5) with _ | st1
        · rw [hcl] at h
          cases h
        · rw [hcl] at h
          cases h
          have hc := cleanOpt_heapAddr hcl hok
          exact ⟨hc.1, by omega⟩
      · rw [hm] at h
        dsimp only at h
        rw [← hm] at h
        have hg := gcas_heapAddr h hok (branchesIn_lnode _ _)
        exact ⟨hg.1, by omega⟩
      · rw [hm] at h
        cases h

theorem insertTop_heapAddr {K V : Type} [DecidableEq K] [DecidableEq V] :
    ∀ (fuel : Nat) (st : St K V) (eqf : K → K → Bool) (c : CMap)
      (e : Entry K V) (st' : St K V),
      insertTop fuel st eqf c e = some st' → heapAddrOK st →
      heapAddrOK st' ∧ st.mem.length ≤ st'.mem.length := by
  intro fuel
  induction fuel with
  | zero =>
    intro st eqf c e st' h hok
    cases h
  | succ fuel ih =>
    intro st eqf c e st' h hok
    simp only [insertTop] at h
    rcases hrc : st.cell c.root with _ | rc
    · rw [hrc] at h
      cases h
    · rw [hrc] at h
      dsimp only at h
      rcases hi : iinsert (fuel + 1) st eqf c c.root e 0 none rc.gen
          with _ | ⟨st1, ok1⟩
      · rw [hi] at h
        cases h
      · rw [hi] at h
        have hia := iinsert_heapAddr (fuel + 1) st eqf c c.root e 0 none
          rc.gen st1 ok1 hi hok
        cases ok1 with
        | true =>
          cases h
          exact hia
        | false =>
          dsimp only at h
          have hrec := ih st1 eqf c e st' h hia.1
          exact ⟨hrec.1, by omega⟩

/-- The generations of existing cells and of fresh allocations are all `0`
after an operation framed by generation `0`. -/
theorem allGen0_of_frame {K V : Type} {st st' : St K V}
    (h0 : allGen0 st) (hf : opFrame st st' 0) : allGen0 st' := by
  intro b cl hcl
  by_cases hb : b < st.mem.length
  · obtain ⟨cl0, hcl0⟩ := cell_isSome_of_lt hb
    rw [hf.2.2.1 b cl0 cl hcl0 hcl]
    exact h0 b cl0 hcl0
  · exact hf.2.2.2.1 b cl (by omega) hcl

/-- Invariants of a heap built by `Set` calls through the fresh-map
handle: all addresses live, all generations `0`, the branch-count
invariant, a non-empty heap, and an untouched generation counter and
oracle. -/
theorem buildSteps_inv {K V : Type} [DecidableEq K] [DecidableEq V]
    (fuel : Nat) (eqf : K → K → Bool) (hashf : K → Nat) :
    ∀ (kvs : List (K × V)) (st st' : St K V),
      applyOps fuel eqf hashf newHandle
        (kvs.map (fun p => MOp.mset p.1 p.2)) st = some st' →
      heapAddrOK st → allGen0 st → cnLenOK st → 1 ≤ st.mem.length →
      heapAddrOK st' ∧ allGen0 st' ∧ cnLenOK st' ∧ 1 ≤ st'.mem.length ∧
      st'.nextGen = st.nextGen ∧ (st.orc = [] → st'.orc = []) := by
  intro kvs
  induction kvs with
  | nil =>
    intro st st' h hA h0 hok hne
    simp only [List.map, applyOps] at h
    cases h
    exact ⟨hA, h0, hok, hne, rfl, fun h2 => h2⟩
  | cons p rest ih =>
    intro st st' h hA h0 hok hne
    simp only [List.map, applyOps] at h
    rcases hs : setOp fuel st eqf hashf newHandle p.1 p.2
        with msg | _ | st1
    · rw [hs] at h
      cases h
    · rw [hs] at h
      cases h
    · rw [hs] at h
      dsimp only at h
      unfold setOp at hs
      rw [if_neg (by decide)] at hs
      rcases hit : insertTop fuel st eqf newHandle
          ⟨p.1, p.2, hash32 hashf p.1⟩ with _ | st1'
      · rw [hit] at hs
        cases hs
      · rw [hit] at hs
        cases hs
        obtain ⟨rc, hrc⟩ := cell_isSome_of_lt
          (show newHandle.root < st.mem.length from by
            have : newHandle.root = 0 := rfl
            omega)
        have hgen0 : rc.gen = 0 := h0 newHandle.root rc hrc
        have hif := insertTop_frame fuel st eqf newHandle
          ⟨p.1, p.2, hash32 hashf p.1⟩ st1 hit hok
        have hfr : opFrame st st1 0 := by
          rw [← hgen0]
          exact hif.2 rc hrc
        have hha := insertTop_heapAddr fuel st eqf newHandle
          ⟨p.1, p.2, hash32 hashf p.1⟩ st1 hit hA
        have hrec := ih st1 st' h hha.1 (allGen0_of_frame h0 hfr) hif.1
          (by have := hha.2; omega)
        refine ⟨hrec.1, hrec.2.1, hrec.2.2.1, hrec.2.2.2.1, ?_, ?_⟩
        · rw [hrec.2.2.2.2.1, hfr.2.2.2.2.1]
        · intro horc
          exact hrec.2.2.2.2.2 (hfr.2.2.2.2.2 horc)

/-- The invariants of any map built by a sequence of inserts on a fresh
map. -/
theorem buildOps_inv {K V : Type} [DecidableEq K] [DecidableEq V]
    (fuel : Nat) (eqf : K → K → Bool) (hashf : K → Nat)
    (kvs : List (K × V)) (st' : St K V)
    (h : buildOps fuel eqf hashf kvs = some st') :
    heapAddrOK st' ∧ allGen0 st' ∧ cnLenOK st' ∧ 1 ≤ st'.mem.length ∧
    st'.nextGen = 1 ∧ st'.orc = [] := by
  unfold buildOps at h
  have hA : heapAddrOK (newMapSt K V) := by
    intro a cl hcl
    match a with
    | 0 =>
      rw [show (newMapSt K V).cell 0 =
        some ⟨MainNode.cnode 0 [] 0, 0⟩ from rfl] at hcl
      cases hcl
      intro x hx
      rw [mem_branchAddrs_iff] at hx
      cases hx
    | n + 1 =>
      rw [show (newMapSt K V).cell (n + 1) =
        (([] : List (Cell K V)).get? n) from rfl] at hcl
      simp at hcl
  have h0 : allGen0 (newMapSt K V) := by
    intro a cl hcl
    match a with
    | 0 =>
      rw [show (newMapSt K V).cell 0 =
        some ⟨MainNode.cnode 0 [] 0, 0⟩ from rfl] at hcl
      cases hcl
      rfl
    | n + 1 =>
      rw [show (newMapSt K V).cell (n + 1) =
        (([] : List (Cell K V)).get? n) from rfl] at hcl
      simp at hcl
  have hok : cnLenOK (newMapSt K V) := by
    intro a cl hcl
    match a with
    | 0 =>
      rw [show (newMapSt K V).cell 0 =
        some ⟨MainNode.cnode 0 [] 0, 0⟩ from rfl] at hcl
      cases hcl
      intro b s g hm
      cases hm
      exact ⟨by simp [popcount_zero], by omega⟩
    | n + 1 =>
      rw [show (newMapSt K V).cell (n + 1) =
        (([] : List (Cell K V)).get? n) from rfl] at hcl
      simp at hcl
  have hres := buildSteps_inv fuel eqf hashf kvs (newMapSt K V) st' h hA
    h0 hok (by exact Nat.le_refl 1)
  exact ⟨hres.1, hres.2.1, hres.2.2.1, hres.2.2.2.1,
    hres.2.2.2.2.1, hres.2.2.2.2.2 rfl⟩

/-- A heap with live addresses and homogeneous generation `0` is a closed
generation-`0` region. -/
theorem regionGen_of_inv {K V : Type} {st : St K V} (hA : heapAddrOK st)
    (h0 : allGen0 st) : regionGen st st.mem.length 0 := by
  intro a ha
  obtain ⟨cl, hcl⟩ := cell_isSome_of_lt ha
  exact ⟨cl, hcl, h0 a cl hcl, hA a cl hcl⟩

/-- Characterization of `clone()` on a read-write handle: the RDCSS
installs a generation-`g1` copy of the root as the source's root, the
returned read-write clone gets a generation-`g2` copy, and the old cells
are untouched. -/
theorem cloneOp_rw {K V : Type} (st : St K V) (c : CMap)
    (hro : c.readOnly = false) {rc : Cell K V}
    (hrc : st.cell c.root = some rc) {src s : CMap} {st1 : St K V}
    (h : cloneOp st c false = .done (src, s, st1)) :
    src = { root := st.mem.length, readOnly := false } ∧
    s = { root := st.mem.length + 1, readOnly := false } ∧
    (∀ b, b < st.mem.length → st1.cell b = st.cell b) ∧
    st1.cell st.mem.length = some ⟨rc.main, st.nextGen⟩ ∧
    st1.cell (st.mem.length + 1) = some ⟨rc.main, st.nextGen + 1⟩ ∧
    st1.mem.length = st.mem.length + 2 ∧
    st1.nextGen = st.nextGen + 2 ∧
    st1.orc = st.orc := by
  unfold cloneOp at h
  rw [hro, hrc] at h
  rw [if_neg (by decide)] at h
  dsimp only at h
  rw [if_neg Bool.false_ne_true, if_neg Bool.false_ne_true] at h
  injection h with h1
  injection h1 with hsrc h2
  injection h2 with hs hst
  have hlen1 : (st.mem ++ [(⟨rc.main, st.nextGen⟩ : Cell K V)]).length =
      st.mem.length + 1 := by
    simp
  refine ⟨hsrc.symm, ?_, ?_, ?_, ?_, ?_, ?_, ?_⟩
  · rw [← hs]
    simp only [St.alloc]
    rw [hlen1]
  · intro b hb
    rw [← hst]
    simp only [St.alloc, St.cell]
    rw [List.get?_append (by
        simp only [List.length_append, List.length_cons, List.length_nil]
        omega),
      List.get?_append hb]
  · rw [← hst]
    simp only [St.alloc, St.cell]
    rw [List.get?_append (by
        simp only [List.length_append, List.length_cons, List.length_nil]
        omega),
      List.get?_concat_length]
  · rw [← hst]
    simp only [St.alloc, St.cell]
    rw [show st.mem.length + 1 =
      (st.mem ++ [(⟨rc.main, st.nextGen⟩ : Cell K V)]).length from
        hlen1.symm]
    rw [List.get?_concat_length]
  · rw [← hst]
    simp only [St.alloc]
    simp only [List.length_append, List.length_cons, List.length_nil]
  · rw [← hst]
    rfl
  · rw [← hst]
    rfl

/-! ### Hash-collision toolkit: chains, descent, and tomb lifting -/

theorem newMainNodeAux_lnode_lev {K V : Type} (fuel : Nat) (st : St K V)
    (x : Entry K V) (xhc : Nat) (y : Entry K V) (yhc lev g : Nat)
    (es : List (Entry K V))
    (h : (newMainNodeAux fuel st x xhc y yhc lev g).2 = .lnode es) :
    32 ≤ lev := by
  cases fuel with
  | zero =>
    simp only [newMainNodeAux] at h
    cases h
  | succ fuel =>
    simp only [newMainNodeAux] at h
    by_cases h32 : 32 ≤ lev
    · exact h32
    · rw [if_neg h32] at h
      by_cases hidx : (xhc >>> lev) &&& 0x1f = (yhc >>> lev) &&& 0x1f
      · rw [if_pos hidx] at h
        cases h
      · rw [if_neg hidx] at h
        by_cases hlt : (xhc >>> lev) &&& 0x1f < (yhc >>> lev) &&& 0x1f
        · rw [if_pos hlt] at h
          cases h
        · rw [if_neg hlt] at h
          cases h

theorem ilookup_selfflag_step {K V : Type} [DecidableEq K] [DecidableEq V]
    (eqf : K → K → Bool) (st : St K V) (c : CMap) (fuel p cur lev : Nat)
    (k : K) (hsh : Nat) (parent : Option Nat) (cg g : Nat)
    (ccur : Cell K V)
    (hp : st.cell p = some
      ⟨.cnode (1 <<< ((hsh >>> lev) &&& 0x1f)) [.inode cur] cg, g⟩)
    (hcur : st.cell cur = some ccur) (hgen : ccur.gen = 0) :
    ilookup (fuel + 1) st eqf c p k hsh lev parent 0 =
      ilookup fuel st eqf c cur k hsh (lev + 5) (some p) 0 := by
  simp only [ilookup]
  rw [hp]
  dsimp only
  rw [flagPos_self hsh lev]
  dsimp only
  rw [Nat.and_self]
  rw [if_neg (one_shiftLeft_ne_zero _)]
  rw [List.get?_cons_zero]
  dsimp only
  rw [hcur]
  dsimp only
  rw [if_pos (by rw [hgen]; simp)]

theorem vlookup_selfflag_step {K V : Type} [DecidableEq K] [DecidableEq V]
    (eqf : K → K → Bool) (st : St K V) (fuel p cur lev : Nat) (k : K)
    (hsh cg g : Nat)
    (hp : st.cell p = some
      ⟨.cnode (1 <<< ((hsh >>> lev) &&& 0x1f)) [.inode cur] cg, g⟩) :
    vlookup eqf (fuel + 1) st p k hsh lev =
      vlookup eqf fuel st cur k hsh (lev + 5) := by
  simp only [vlookup]
  rw [hp]
  dsimp only
  rw [flagPos_self hsh lev]
  dsimp only
  rw [Nat.and_self]
  rw [if_neg (one_shiftLeft_ne_zero _)]
  rw [List.get?_cons_zero]

theorem ilookup_chain_descend {K V : Type} [DecidableEq K] [DecidableEq V]
    (eqf : K → K → Bool) (st : St K V) (c : CMap) (k : K) (hsh : Nat) :
    ∀ (anc : List Nat) (cur lev : Nat) (ccur : Cell K V),
      upChain st hsh lev cur anc →
      st.cell cur = some ccur → ccur.gen = 0 →
      ∀ fuel,
        ilookup (fuel + anc.length) st eqf c (chainRoot cur anc) k hsh 0
          none 0 =
        ilookup fuel st eqf c cur k hsh lev anc.head? 0 := by
  intro anc
  induction anc with
  | nil =>
    intro cur lev ccur hch hcell hgen fuel
    have hl : lev = 0 := hch
    subst hl
    simp only [List.length_nil, Nat.add_zero]
    rfl
  | cons p rest ih =>
    intro cur lev ccur hch hcell hgen fuel
    obtain ⟨⟨cg, hp⟩, hlev5, hrest⟩ := hch
    have hih := ih p (lev - 5)
      ⟨.cnode (1 <<< ((hsh >>> (lev - 5)) &&& 0x1f)) [.inode cur] cg, 0⟩
      hrest hp rfl (fuel + 1)
    have hstep := ilookup_selfflag_step eqf st c fuel p cur (lev - 5) k hsh
      rest.head? cg 0 ccur hp hcell hgen
    rw [show lev - 5 + 5 = lev from by omega] at hstep
    show ilookup (fuel + (rest.length + 1)) st eqf c (chainRoot p rest) k
      hsh 0 none 0 = ilookup fuel st eqf c cur k hsh lev (some p) 0
    rw [show fuel + (rest.length + 1) = fuel + 1 + rest.length from by
      omega]
    rw [hih, hstep]

theorem toContracted_singleton_pos {K V : Type} (bmp g lev : Nat)
    (ea : Entry K V) (h : 0 < lev) :
    toContracted bmp [.snode ea] g lev = .tnode ea := by
  unfold toContracted
  rw [if_pos ⟨h, rfl⟩]
  rfl

theorem toContracted_singleton_zero {K V : Type} (bmp g : Nat)
    (ea : Entry K V) :
    toContracted bmp [.snode ea] g 0 = .cnode bmp [.snode ea] g := by
  unfold toContracted
  rw [if_neg (fun hc => absurd hc.1 (lt_irrefl 0))]

theorem upChain_write {K V : Type} {st : St K V} {hsh : Nat} :
    ∀ (anc : List Nat) (lev cur w : Nat) (m : MainNode K V),
      upChain st hsh lev cur anc → w ∉ anc →
      upChain (st.write w m) hsh lev cur anc := by
  intro anc
  induction anc with
  | nil =>
    intro lev cur w m hch hw
    exact hch
  | cons p rest ih =>
    intro lev cur w m hch hw
    obtain ⟨⟨cg, hp⟩, hlev5, hrest⟩ := hch
    refine ⟨⟨cg, ?_⟩, hlev5, ih (lev - 5) p w m hrest
      (fun hmem => hw (List.mem_cons_of_mem _ hmem))⟩
    rw [cell_write, if_neg (show ¬ w = p from fun he => hw (by
      rw [he]; exact List.mem_cons_self _ _))]
    exact hp

theorem upChain_root_cell {K V : Type} {st : St K V} {hsh : Nat} :
    ∀ (anc : List Nat) (lev cur : Nat),
      upChain st hsh lev cur anc → anc ≠ [] →
      ∃ cl, st.cell (chainRoot cur anc) = some cl ∧ cl.gen = 0 := by
  intro anc
  induction anc with
  | nil =>
    intro lev cur hch hne
    exact absurd rfl hne
  | cons p rest ih =>
    intro lev cur hch hne
    obtain ⟨⟨cg, hp⟩, hlev5, hrest⟩ := hch
    rcases rest with _ | ⟨q, rest2⟩
    · exact ⟨_, hp, rfl⟩
    · exact ih (lev - 5) p hrest (by simp)

theorem ilookup_tnode_clean {K V : Type} [DecidableEq K] [DecidableEq V]
    (eqf : K → K → Bool) (st : St K V) (c : CMap)
    (fuel cur p levp : Nat) (k : K) (hsh : Nat) (ea : Entry K V)
    (cg gp : Nat)
    (hro : c.readOnly = false) (horc : st.orc = [])
    (hcur : st.cell cur = some ⟨.tnode ea, 0⟩)
    (hp : st.cell p = some
      ⟨.cnode (1 <<< ((hsh >>> levp) &&& 0x1f)) [.inode cur] cg, gp⟩) :
    ilookup (fuel + 1) st eqf c cur k hsh (levp + 5) (some p) 0 =
      some (st.write p
        (toContracted (1 <<< ((hsh >>> levp) &&& 0x1f)) [.snode ea] 0
          levp), none, false) := by
  simp only [ilookup]
  rw [hcur]
  dsimp only
  rw [if_pos hro]
  unfold cleanOpt
  dsimp only
  rw [Nat.add_sub_cancel]
  unfold clean gcasRead
  rw [hp]
  dsimp only [Option.map]
  unfold toCompressed
  simp only [compressSlice]
  rw [hcur]
  dsimp only
  unfold resurrect
  dsimp only
  rw [gcas_nil horc hp rfl]

theorem ilookup_root_snode {K V : Type} [DecidableEq K] [DecidableEq V]
    (eqf : K → K → Bool) (st : St K V) (c : CMap) (fuel r : Nat)
    (parent : Option Nat) (k : K) (hsh : Nat) (ea : Entry K V) (g cg : Nat)
    (hkey : eqf ea.key k = true)
    (hr : st.cell r = some
      ⟨.cnode (1 <<< ((hsh >>> 0) &&& 0x1f)) [.snode ea] cg, g⟩) :
    ilookup (fuel + 1) st eqf c r k hsh 0 parent 0 =
      some (st, some ea.value, true) := by
  simp only [ilookup]
  rw [hr]
  dsimp only
  rw [flagPos_self hsh 0]
  dsimp only
  rw [Nat.and_self]
  rw [if_neg (one_shiftLeft_ne_zero _)]
  rw [List.get?_cons_zero]
  dsimp only
  rw [if_pos hkey]

/-- Tomb lifting: an entombed entry below a single-branch ancestor chain is
resurrected one level per retry until the root holds it as an S-node, and
the lookup then returns it. -/
theorem tomb_cascade {K V : Type} [DecidableEq K] [DecidableEq V]
    (eqf : K → K → Bool) (k : K) (hsh : Nat) (ea : Entry K V)
    (hkey : eqf ea.key k = true) (c : CMap) (hro : c.readOnly = false) :
    ∀ (anc : List Nat) (st : St K V) (cur lev : Nat),
      st.orc = [] →
      upChain st hsh lev cur anc →
      st.cell cur = some ⟨.tnode ea, 0⟩ →
      anc ≠ [] →
      c.root = chainRoot cur anc →
      List.Nodup (cur :: anc) →
      ∀ m, 2 * anc.length + 2 ≤ m →
        ∃ stf, lookupTop m st eqf c k hsh = some (stf, some ea.value) := by
  intro anc
  induction anc with
  | nil =>
    intro st cur lev horc hch hcur hne
    exact absurd rfl hne
  | cons p rest ih =>
    intro st cur lev horc hch hcur hne hroot hnd m hm
    obtain ⟨⟨cg, hp⟩, hlev5, hrest⟩ := hch
    obtain ⟨rcl, hrcell, hrgen⟩ :
        ∃ cl, st.cell (chainRoot cur (p :: rest)) = some cl ∧
          cl.gen = 0 := by
      rcases rest with _ | ⟨q, rest2⟩
      · exact ⟨_, hp, rfl⟩
      · exact upChain_root_cell (q :: rest2) (lev - 5) p hrest (by simp)
    rcases m with _ | m₁
    · omega
    have hlen : (p :: rest).length = rest.length + 1 := rfl
    obtain ⟨f₁, hf⟩ : ∃ f1, m₁ + 1 = (f1 + 1) + (p :: rest).length :=
      ⟨m₁ - 1 - rest.length, by rw [hlen]; omega⟩
    have hwtomb : (st.write p (MainNode.tnode ea)).cell p =
        some ⟨.tnode ea, 0⟩ := by
      rw [cell_write, if_pos rfl, hp]
      rfl
    rcases hre : rest with _ | ⟨q, rest2⟩
    · -- the parent is the root: the clean resurrects the entry there
      subst hre
      have hl0 : lev - 5 = 0 := hrest
      refine ⟨st.write p (.cnode (1 <<< ((hsh >>> 0) &&& 0x1f))
        [.snode ea] 0), ?_⟩
      simp only [lookupTop]
      rw [hroot, hrcell]
      dsimp only
      rw [hrgen, hf]
      rw [ilookup_chain_descend eqf st c k hsh [p] cur lev
        ⟨.tnode ea, 0⟩ ⟨⟨cg, hp⟩, hlev5, hrest⟩ hcur rfl (f₁ + 1)]
      rw [show ([p] : List Nat).head? = some p from rfl]
      rw [show lev = lev - 5 + 5 from by omega]
      rw [ilookup_tnode_clean eqf st c f₁ cur p (lev - 5) k hsh ea cg 0
        hro horc hcur hp]
      rw [hl0]
      dsimp only
      rw [toContracted_singleton_zero]
      have hm₁ : ∃ m₂, m₁ = m₂ + 1 := ⟨m₁ - 1, by omega⟩
      obtain ⟨m₂, rfl⟩ := hm₁
      have hwp : (st.write p (.cnode (1 <<< ((hsh >>> 0) &&& 0x1f))
          [.snode ea] 0)).cell p =
          some ⟨.cnode (1 <<< ((hsh >>> 0) &&& 0x1f))
            [.snode ea] 0, 0⟩ := by
        rw [cell_write, if_pos rfl, hp]
        rfl
      simp only [lookupTop]
      rw [hroot]
      rw [show chainRoot cur [p] = p from rfl]
      rw [hwp]
      dsimp only
      rw [ilookup_root_snode eqf _ c m₂ p none k hsh ea 0 _ hkey hwp]
    · -- the parent is tombed in turn; recurse one level up
      subst hre
      have hlev10 : 5 ≤ lev - 5 := hrest.2.1
      refine ?_
      obtain ⟨stf, hfin⟩ := ih (st.write p (MainNode.tnode ea)) p (lev - 5)
        horc
        (upChain_write (q :: rest2) (lev - 5) p p (MainNode.tnode ea)
          hrest ((List.nodup_cons.mp (List.nodup_cons.mp hnd).2).1))
        hwtomb (by simp) hroot
        (List.nodup_cons.mp hnd).2 m₁ (by
          rw [hlen] at hm
          simp only [List.length_cons] at hm ⊢
          omega)
      refine ⟨stf, ?_⟩
      simp only [lookupTop]
      rw [hroot, hrcell]
      dsimp only
      rw [hrgen, hf]
      rw [ilookup_chain_descend eqf st c k hsh (p :: q :: rest2) cur lev
        ⟨.tnode ea, 0⟩ ⟨⟨cg, hp⟩, hlev5, hrest⟩ hcur rfl (f₁ + 1)]
      rw [show (p :: q :: rest2).head? = some p from rfl]
      rw [show lev = lev - 5 + 5 from by omega]
      rw [ilookup_tnode_clean eqf st c f₁ cur p (lev - 5) k hsh ea cg 0
        hro horc hcur hp]
      dsimp only
      rw [toContracted_singleton_pos _ _ _ _ (by omega)]
      exact hfin

theorem iremove_selfflag_step {K V : Type} [DecidableEq K] [DecidableEq V]
    (eqf : K → K → Bool) (st : St K V) (c : CMap) (fuel p cur lev : Nat)
    (k : K) (hsh : Nat) (parent : Option Nat) (cg g : Nat)
    (ccur : Cell K V)
    (hp : st.cell p = some
      ⟨.cnode (1 <<< ((hsh >>> lev) &&& 0x1f)) [.inode cur] cg, g⟩)
    (hcur : st.cell cur = some ccur) (hgen : ccur.gen = 0) :
    iremove (fuel + 1) st eqf c p k hsh lev parent 0 =
      iremove fuel st eqf c cur k hsh (lev + 5) (some p) 0 := by
  simp only [iremove]
  rw [hp]
  dsimp only
  rw [flagPos_self hsh lev]
  dsimp only
  rw [Nat.and_self]
  rw [if_neg (one_shiftLeft_ne_zero _)]
  rw [List.get?_cons_zero]
  dsimp only
  rw [hcur]
  dsimp only
  rw [if_pos (by rw [hgen])]

theorem iremove_chain_descend {K V : Type} [DecidableEq K] [DecidableEq V]
    (eqf : K → K → Bool) (st : St K V) (c : CMap) (k : K) (hsh : Nat) :
    ∀ (anc : List Nat) (cur lev : Nat) (ccur : Cell K V),
      upChain st hsh lev cur anc →
      st.cell cur = some ccur → ccur.gen = 0 →
      ∀ fuel,
        iremove (fuel + anc.length) st eqf c (chainRoot cur anc) k hsh 0
          none 0 =
        iremove fuel st eqf c cur k hsh lev anc.head? 0 := by
  intro anc
  induction anc with
  | nil =>
    intro cur lev ccur hch hcell hgen fuel
    have hl : lev = 0 := hch
    subst hl
    simp only [List.length_nil, Nat.add_zero]
    rfl
  | cons p rest ih =>
    intro cur lev ccur hch hcell hgen fuel
    obtain ⟨⟨cg, hp⟩, hlev5, hrest⟩ := hch
    have hih := ih p (lev - 5)
      ⟨.cnode (1 <<< ((hsh >>> (lev - 5)) &&& 0x1f)) [.inode cur] cg, 0⟩
      hrest hp rfl (fuel + 1)
    have hstep := iremove_selfflag_step eqf st c fuel p cur (lev - 5) k hsh
      rest.head? cg 0 ccur hp hcell hgen
    rw [show lev - 5 + 5 = lev from by omega] at hstep
    show iremove (fuel + (rest.length + 1)) st eqf c (chainRoot p rest) k
      hsh 0 none 0 = iremove fuel st eqf c cur k hsh lev (some p) 0
    rw [show fuel + (rest.length + 1) = fuel + 1 + rest.length from by
      omega]
    rw [hih, hstep]

theorem upChain_collideSt2 {K V : Type} (a : K) (va : V) (b : K) (vb : V)
    (h : Nat) :
    upChain (collideSt2 a va b vb h) h 35 1 [2, 3, 4, 5, 6, 7, 0] :=
  ⟨⟨0, rfl⟩, by omega, ⟨0, rfl⟩, by omega, ⟨0, rfl⟩, by omega,
   ⟨0, rfl⟩, by omega, ⟨0, rfl⟩, by omega, ⟨0, rfl⟩, by omega,
   ⟨0, rfl⟩, by omega, rfl⟩

theorem ilookup_lnode_cell {K V : Type} [DecidableEq K] [DecidableEq V]
    (eqf : K → K → Bool) (st : St K V) (c : CMap) (fuel la : Nat) (k : K)
    (hsh lev : Nat) (parent : Option Nat) (es : List (Entry K V)) (g : Nat)
    (hla : st.cell la = some ⟨.lnode es, g⟩) :
    ilookup (fuel + 1) st eqf c la k hsh lev parent 0 =
      some (st, llookup eqf k es, true) := by
  simp only [ilookup]
  rw [hla]

theorem lookupTop_collideSt2 {K V : Type} [DecidableEq K] [DecidableEq V]
    (eqf : K → K → Bool) (a : K) (va : V) (b : K) (vb : V) (h : Nat)
    (k : K) :
    lookupTop 8 (collideSt2 a va b vb h) eqf newHandle k h =
      some (collideSt2 a va b vb h,
        llookup eqf k [⟨b, vb, h⟩, ⟨a, va, h⟩]) := by
  have hd := ilookup_chain_descend eqf (collideSt2 a va b vb h) newHandle
    k h [2, 3, 4, 5, 6, 7, 0] 1 35 ⟨.lnode [⟨b, vb, h⟩, ⟨a, va, h⟩], 0⟩
    (upChain_collideSt2 a va b vb h) rfl rfl 1
  rw [show (8 : Nat) = 7 + 1 from rfl]
  simp only [lookupTop]
  rw [show (collideSt2 a va b vb h).cell newHandle.root =
    some ⟨.cnode (1 <<< (h &&& 0x1f)) [.inode 7] 0, 0⟩ from rfl]
  dsimp only
  rw [show ilookup (7 + 1) (collideSt2 a va b vb h) eqf newHandle
      newHandle.root k h 0 none 0 =
    ilookup 1 (collideSt2 a va b vb h) eqf newHandle 1 k h 35 (some 2) 0
    from hd]
  rw [show ilookup 1 (collideSt2 a va b vb h) eqf newHandle 1 k h 35
      (some 2) 0 =
    some (collideSt2 a va b vb h,
      llookup eqf k [⟨b, vb, h⟩, ⟨a, va, h⟩], true)
    from ilookup_lnode_cell eqf (collideSt2 a va b vb h) newHandle 0 1 k h
      35 (some 2) [⟨b, vb, h⟩, ⟨a, va, h⟩] 0 rfl]

theorem iremove_lnode_pair {K V : Type} [DecidableEq K] [DecidableEq V]
    (eqf : K → K → Bool) (st : St K V) (c : CMap) (fuel la : Nat)
    (bk : K) (hsh lev : Nat) (parent : Option Nat)
    (ea eb : Entry K V) (g : Nat)
    (hla : st.cell la = some ⟨.lnode [eb, ea], g⟩)
    (horc : st.orc = [])
    (hbb : eqf bk eb.key = true) :
    iremove (fuel + 1) st eqf c la bk hsh lev parent 0 =
      some (st.write la (.tnode ea), some eb.value, true) := by
  simp only [iremove]
  rw [hla]
  dsimp only
  simp only [lremoved, hbb, if_true, llookup]
  simp only [gcas, hla]
  simp only [if_true]
  simp only [gcasOutcome, horc]
  dsimp only [entomb]
  simp only [if_true]

theorem removeTop_collideSt2 {K V : Type} [DecidableEq K] [DecidableEq V]
    (eqf : K → K → Bool) (a : K) (va : V) (b : K) (vb : V) (h : Nat)
    (hbb : eqf b b = true) :
    removeTop 8 (collideSt2 a va b vb h) eqf newHandle b h =
      some ((collideSt2 a va b vb h).write 1 (.tnode ⟨a, va, h⟩),
        some vb) := by
  have hd := iremove_chain_descend eqf (collideSt2 a va b vb h) newHandle
    b h [2, 3, 4, 5, 6, 7, 0] 1 35 ⟨.lnode [⟨b, vb, h⟩, ⟨a, va, h⟩], 0⟩
    (upChain_collideSt2 a va b vb h) rfl rfl 1
  rw [show (8 : Nat) = 7 + 1 from rfl]
  simp only [removeTop]
  rw [show (collideSt2 a va b vb h).cell newHandle.root =
    some ⟨.cnode (1 <<< (h &&& 0x1f)) [.inode 7] 0, 0⟩ from rfl]
  dsimp only
  rw [show iremove (7 + 1) (collideSt2 a va b vb h) eqf newHandle
      newHandle.root b h 0 none 0 =
    iremove 1 (collideSt2 a va b vb h) eqf newHandle 1 b h 35 (some 2) 0
    from hd]
  rw [show iremove 1 (collideSt2 a va b vb h) eqf newHandle 1 b h 35
      (some 2) 0 =
    some ((collideSt2 a va b vb h).write 1 (.tnode ⟨a, va, h⟩),
      some vb, true)
    from iremove_lnode_pair eqf (collideSt2 a va b vb h) newHandle 0 1 b h
      35 (some 2) ⟨a, va, h⟩ ⟨b, vb, h⟩ 0 rfl rfl hbb]

theorem insertTop_fresh {K V : Type} [DecidableEq K] [DecidableEq V]
    (eqf : K → K → Bool) (k : K) (v : V) (h : Nat) (n : Nat) :
    insertTop (n + 1) (newMapSt K V) eqf newHandle ⟨k, v, h⟩ =
      some { mem := [⟨.cnode (1 <<< (h &&& 0x1f)) [.snode ⟨k, v, h⟩] 0, 0⟩],
             nextGen := 1, orc := [] } := by
  simp [insertTop, iinsert, newMapSt, newHandle, St.cell, flagPos,
    popcount_zero, cnInserted, gcas, gcasOutcome, St.write, writeMem]

theorem insertTop_collision {K V : Type} [DecidableEq K] [DecidableEq V]
    (eqf : K → K → Bool) (a : K) (va : V) (b : K) (vb : V) (h : Nat)
    (n : Nat) (hab : eqf a b = false) :
    insertTop (n + 1)
      { mem := [⟨.cnode (1 <<< (h &&& 0x1f)) [.snode ⟨a, va, h⟩] 0, 0⟩],
        nextGen := 1, orc := [] } eqf newHandle ⟨b, vb, h⟩ =
      some (collideSt2 a va b vb h) := by
  simp [insertTop, iinsert, newHandle, St.cell, flagPos, two_pow_land_pred,
    popcount_zero, one_shiftLeft_ne_zero, hab, newMainNode, newMainNodeAux,
    St.alloc, cnUpdated, gcas, gcasOutcome, St.write, writeMem, collideSt2]

/-! ### Claims on helpers, read-only handles, clones and construction -/

/-- C6: `toContracted` returns a T-node wrapping the single S-node exactly
when the level is positive and the branch slice is a single S-node; in
every other case (level 0, a non-singleton slice, or a single I-node
branch) it returns the C-node unchanged. -/
theorem toContracted_spec {K V : Type} (bmp : Nat) (slice : List (Br K V))
    (gen lev : Nat) :
    (∀ e : Entry K V, 0 < lev → slice = [.snode e] →
      toContracted bmp slice gen lev = .tnode e) ∧
    ((lev = 0 ∨ ∀ e : Entry K V, slice ≠ [.snode e]) →
      toContracted bmp slice gen lev = .cnode bmp slice gen) := by
  constructor
  · rintro e hpos rfl
    simp [toContracted, entomb, hpos]
  · intro h
    unfold toContracted
    by_cases hc : 0 < lev ∧ slice.length = 1
    · rw [if_pos hc]
      rcases slice with _ | ⟨b, rest⟩
      · simp at hc
      · rcases rest with _ | ⟨b2, rest⟩
        · cases b with
          | snode e =>
            rcases h with rfl | hne
            · exact absurd hc.1 (lt_irrefl 0)
            · exact absurd rfl (hne e)
          | inode a => rfl
        · exfalso
          have := hc.2
          simp at this
    · rw [if_neg hc]

/-- C4: every mutating call (`Set`, `Delete`, `Clear`) on a read-only
handle panics with the `assertReadWrite` message; the panic is raised
before the operation reads or writes the heap, so the tree reachable from
the handle's root is untouched (the model's panic outcome carries no
state). -/
theorem readonly_mutation_aborts {K V : Type} [DecidableEq K] [DecidableEq V]
    (fuel : Nat) (st : St K V) (eqf : K → K → Bool) (hashf : K → Nat)
    (c : CMap) (k : K) (v : V) (hro : c.readOnly = true) :
    setOp fuel st eqf hashf c k v = .panic readOnlyMsg ∧
    deleteOp fuel st eqf hashf c k = .panic readOnlyMsg ∧
    clearOp st c = .panic readOnlyMsg := by
  refine ⟨?_, ?_, ?_⟩ <;> simp [setOp, deleteOp, clearOp, hro]

theorem readonly_mutation_aborts_witness :
    (({ root := 0, readOnly := true } : CMap).readOnly = true) ∧
    (setOp 3 (newMapSt Nat Nat) natEq hash42 { root := 0, readOnly := true } 5 6 =
        .panic readOnlyMsg ∧
      deleteOp 3 (newMapSt Nat Nat) natEq hash42 { root := 0, readOnly := true } 5 =
        .panic readOnlyMsg ∧
      clearOp (newMapSt Nat Nat) { root := 0, readOnly := true } = .panic readOnlyMsg) :=
  ⟨rfl, readonly_mutation_aborts 3 (newMapSt Nat Nat) natEq hash42
    { root := 0, readOnly := true } 5 6 rfl⟩

/-- C9: `Clone` on a read-only handle returns the receiver itself (and so
does `RClone`), and `RClone` is idempotent: the handle returned by
`RClone` is read-only, and a further `RClone` of it returns that same
handle with the state unchanged. -/
theorem clone_readonly_behavior {K V : Type} (st : St K V) (c : CMap) :
    (c.readOnly = true →
      cloneMap st c = .done (c, c, st) ∧ rcloneMap st c = .done (c, c, st)) ∧
    (∀ src r st', rcloneMap st c = .done (src, r, st') →
      rcloneMap st' r = .done (r, r, st')) := by
  constructor
  · intro h
    constructor
    · simp [cloneMap, cloneOp, h]
    · simp [rcloneMap, cloneOp, h]
  · intro src r st' h2
    by_cases hro : c.readOnly
    · rw [rcloneMap, cloneOp] at h2
      simp [hro] at h2
      obtain ⟨rfl, rfl, rfl⟩ := h2
      simp [rcloneMap, cloneOp, hro]
    · rw [rcloneMap, cloneOp] at h2
      simp [hro] at h2
      rcases hc : St.cell st c.root with _ | rc
      · rw [hc] at h2
        simp at h2
      · rw [hc] at h2
        simp at h2
        obtain ⟨rfl, rfl, rfl⟩ := h2
        simp [rcloneMap, cloneOp]

theorem clone_readonly_behavior_witness :
    (({ root := 0, readOnly := true } : CMap).readOnly = true →
      cloneMap (newMapSt Nat Nat) { root := 0, readOnly := true } =
          .done ({ root := 0, readOnly := true }, { root := 0, readOnly := true },
            newMapSt Nat Nat) ∧
        rcloneMap (newMapSt Nat Nat) { root := 0, readOnly := true } =
          .done ({ root := 0, readOnly := true }, { root := 0, readOnly := true },
            newMapSt Nat Nat)) ∧
    (∀ src r st', rcloneMap (newMapSt Nat Nat) { root := 0, readOnly := true } =
        .done (src, r, st') → rcloneMap st' r = .done (r, r, st')) :=
  clone_readonly_behavior (newMapSt Nat Nat) { root := 0, readOnly := true }

/-- C10: `NewWithFuncs` accepts nil function arguments: a nil equality is
replaced by the built-in `string` equality or `bytes.Equal` when the key
kind allows it, a nil hash by the process-seeded `StringHash` or
`BytesHash`; with any other key kind a nil function panics (equality is
checked first) and no map is constructed; non-nil functions are kept. -/
theorem newWithFuncs_defaults (K V : Type) :
    newWithFuncs K V .str none none =
      .done (.builtinStringEq, .builtinStringHash, newHandle, newMapSt K V) ∧
    newWithFuncs K V .byteSlice none none =
      .done (.builtinBytesEq, .builtinBytesHash, newHandle, newMapSt K V) ∧
    (∀ hc, newWithFuncs K V .other none hc = .panic "no equality type known") ∧
    (∀ ec, newWithFuncs K V .other (some ec) none = .panic "no hash type known") ∧
    (∀ ec hc, newWithFuncs K V .str (some ec) (some hc) =
      .done (ec, hc, newHandle, newMapSt K V)) :=
  ⟨rfl, rfl, fun _ => rfl, fun _ => rfl, fun _ _ => rfl⟩

theorem toContracted_spec_witness :
    toContracted 4 [Br.snode (⟨1, 2, 3⟩ : Entry Nat Nat)] 0 5 = .tnode ⟨1, 2, 3⟩ ∧
    toContracted 4 [(Br.inode 9 : Br Nat Nat)] 0 5 = .cnode 4 [Br.inode 9] 0 :=
  ⟨(toContracted_spec 4 [Br.snode ⟨1, 2, 3⟩] 0 5).1 ⟨1, 2, 3⟩ (by decide) rfl,
   (toContracted_spec 4 [Br.inode 9] 0 5).2 (Or.inr (fun e => by simp))⟩

/-- C7 counterexample: on a fresh read-write map, `Clone` leaves the source
handle holding the root installed by the RDCSS, whose generation is the
first fresh generation (`nextGen`, here `1`); the second fresh generation
(`nextGen + 1`, here `2`) goes to the returned clone's root, so the claim
that the source handle takes the second fresh generation `g2` fails. -/
theorem clone_generation_counterexample :
    cloneMap (newMapSt Nat Nat) newHandle =
      .done ({ root := 1, readOnly := false }, { root := 2, readOnly := false },
        { mem := [⟨.cnode 0 [] 0, 0⟩, ⟨.cnode 0 [] 0, 1⟩, ⟨.cnode 0 [] 0, 2⟩],
          nextGen := 3, orc := [] }) ∧
    (({ mem := [⟨.cnode 0 [] 0, 0⟩, ⟨.cnode 0 [] 0, 1⟩, ⟨.cnode 0 [] 0, 2⟩],
        nextGen := 3, orc := [] } : St Nat Nat).cell 1).map Cell.gen =
      some (newMapSt Nat Nat).nextGen ∧
    (newMapSt Nat Nat).nextGen ≠ (newMapSt Nat Nat).nextGen + 1 :=
  ⟨rfl, rfl, by decide⟩

/-- C7 amended: after `Clone` on a read-write handle, the RDCSS installs
the `copyToGen` copy in the first fresh generation `g1` as the source
handle's root, and the returned clone takes a second `copyToGen` copy in a
further fresh generation `g2`; source and clone hold distinct root
generations and neither equals any generation in the pre-clone heap, in
particular no pre-clone root generation. -/
theorem clone_generation_placement {K V : Type} (st : St K V) (c : CMap)
    (src r : CMap) (st' : St K V) (hro : c.readOnly = false)
    (hgb : ∀ a cl, st.cell a = some cl → cl.gen < st.nextGen)
    (hcl : cloneMap st c = .done (src, r, st')) :
    ∃ rc, st.cell c.root = some rc ∧
      st'.cell src.root = some ⟨rc.main, st.nextGen⟩ ∧
      st'.cell r.root = some ⟨rc.main, st.nextGen + 1⟩ ∧
      src.root ≠ r.root ∧
      st.nextGen ≠ st.nextGen + 1 ∧
      (∀ a cl, st.cell a = some cl →
        cl.gen ≠ st.nextGen ∧ cl.gen ≠ st.nextGen + 1) := by
  rw [cloneMap, cloneOp] at hcl
  simp only [hro, Bool.and_false, if_neg, Bool.false_eq_true, if_false] at hcl
  rcases hrc : st.cell c.root with _ | rc
  · rw [hrc] at hcl
    cases hcl
  · rw [hrc] at hcl
    simp only [hro, if_false, Bool.false_eq_true, St.alloc] at hcl
    cases hcl
    refine ⟨rc, rfl, ?_, ?_, ?_, by omega, ?_⟩
    · simp only [St.cell]
      rw [List.get?_append (by simp), List.get?_concat_length]
    · simp only [St.cell]
      rw [List.get?_concat_length]
    · simp only [List.length_append, List.length_cons, List.length_nil]
      omega
    · intro a cl h
      have := hgb a cl h
      omega

/-- C1: single-threaded round trip on a fresh read-write map: after
`Set(k, v1)` a `Get(k)` returns `v1` (present); after `Set(k, v2)` it
returns `v2`; `Delete(k)` returns `v2` reporting an entry was removed;
afterwards `Get(k)` reports absent, until a further insert of the equal
key `k` makes `Get(k)` return the new value again. -/
theorem single_key_roundtrip {K V : Type} [DecidableEq K] [DecidableEq V]
    (eqf : K → K → Bool) (hashf : K → Nat) (k : K) (v1 v2 v3 : V)
    (hrefl : eqf k k = true) (n : Nat) :
    ∃ st1 st2 st3 st4 : St K V,
      setOp (n + 1) (newMapSt K V) eqf hashf newHandle k v1 = .done st1 ∧
      getOp (n + 1) st1 eqf hashf newHandle k = some (st1, some v1) ∧
      setOp (n + 1) st1 eqf hashf newHandle k v2 = .done st2 ∧
      getOp (n + 1) st2 eqf hashf newHandle k = some (st2, some v2) ∧
      deleteOp (n + 1) st2 eqf hashf newHandle k = .done (st3, some v2) ∧
      getOp (n + 1) st3 eqf hashf newHandle k = some (st3, none) ∧
      setOp (n + 1) st3 eqf hashf newHandle k v3 = .done st4 ∧
      getOp (n + 1) st4 eqf hashf newHandle k = some (st4, some v3) := by
  have hz : ∀ m : Nat, (0 &&& m) = 0 := Nat.zero_and
  refine ⟨⟨[⟨.cnode (1 <<< (hash32 hashf k &&& 0x1f))
              [.snode ⟨k, v1, hash32 hashf k⟩] 0, 0⟩], 1, []⟩,
          ⟨[⟨.cnode (1 <<< (hash32 hashf k &&& 0x1f))
              [.snode ⟨k, v2, hash32 hashf k⟩] 0, 0⟩], 1, []⟩,
          ⟨[⟨.cnode 0 [] 0, 0⟩], 1, []⟩,
          ⟨[⟨.cnode (1 <<< (hash32 hashf k &&& 0x1f))
              [.snode ⟨k, v3, hash32 hashf k⟩] 0, 0⟩], 1, []⟩,
          ?_, ?_, ?_, ?_, ?_, ?_, ?_, ?_⟩
  · simp [setOp, insertTop, iinsert, newMapSt, newHandle, St.cell, flagPos,
      popcount_zero, cnInserted, gcas, gcasOutcome, St.write, writeMem]
  · simp [getOp, lookupTop, ilookup, newHandle, St.cell, flagPos,
      two_pow_land_pred, popcount_zero, one_shiftLeft_ne_zero, hrefl]
  · simp [setOp, insertTop, iinsert, newHandle, St.cell, flagPos,
      two_pow_land_pred, popcount_zero, one_shiftLeft_ne_zero, hrefl,
      cnUpdated, gcas, gcasOutcome, St.write, writeMem]
  · simp [getOp, lookupTop, ilookup, newHandle, St.cell, flagPos,
      two_pow_land_pred, popcount_zero, one_shiftLeft_ne_zero, hrefl]
  · simp [deleteOp, removeTop, iremove, newHandle, St.cell, flagPos,
      two_pow_land_pred, popcount_zero, one_shiftLeft_ne_zero, hrefl,
      cnRemoved, toContractedM, toContracted, gcas, gcasOutcome, St.write,
      writeMem]
  · simp [getOp, lookupTop, ilookup, newHandle, St.cell, flagPos,
      popcount_zero]
  · simp [setOp, insertTop, iinsert, newHandle, St.cell, flagPos,
      popcount_zero, cnInserted, gcas, gcasOutcome, St.write, writeMem]
  · simp [getOp, lookupTop, ilookup, newHandle, St.cell, flagPos,
      two_pow_land_pred, popcount_zero, one_shiftLeft_ne_zero, hrefl]

theorem single_key_roundtrip_witness :
    natEq 7 7 = true ∧
    (∃ st1 st2 st3 st4 : St Nat Nat,
      setOp 3 (newMapSt Nat Nat) natEq hash42 newHandle 7 100 = .done st1 ∧
      getOp 3 st1 natEq hash42 newHandle 7 = some (st1, some 100) ∧
      setOp 3 st1 natEq hash42 newHandle 7 200 = .done st2 ∧
      getOp 3 st2 natEq hash42 newHandle 7 = some (st2, some 200) ∧
      deleteOp 3 st2 natEq hash42 newHandle 7 = .done (st3, some 200) ∧
      getOp 3 st3 natEq hash42 newHandle 7 = some (st3, none) ∧
      setOp 3 st3 natEq hash42 newHandle 7 300 = .done st4 ∧
      getOp 3 st4 natEq hash42 newHandle 7 = some (st4, some 300)) :=
  ⟨rfl, single_key_roundtrip natEq hash42 7 100 200 300 rfl 2⟩

/-- C3: the retry policy breaks in `iremove`'s L-node arm.  On the map
`collideSt`, reachable from a fresh map by two `Set` calls under the
constant hash, key `1` is present; yet when the single GCAS of the delete
(the one replacing the old L-node) fails, `iremove` reports the attempt as
succeeded (`ok = true`) with an absent result, so `Delete` completes with
`(zero, false)` instead of retrying, and the entry is still present
afterwards.  This contradicts the function's own protocol (a `false` flag
means retry) which every other GCAS-failure path follows. -/
theorem iremove_lnode_gcas_failure :
    setOp 9 (newMapSt Nat Nat) natEq hash42 newHandle 1 11 =
      .done { mem := [⟨.cnode 1024 [.snode ⟨1, 11, 42⟩] 0, 0⟩],
              nextGen := 1, orc := [] } ∧
    setOp 9 { mem := [⟨.cnode 1024 [.snode ⟨1, 11, 42⟩] 0, 0⟩],
              nextGen := 1, orc := [] } natEq hash42 newHandle 2 22 =
      .done collideSt ∧
    (getOp 20 collideSt natEq hash42 newHandle 1).map (fun r => r.2) =
      some (some 11) ∧
    iremove 20 { collideSt with orc := [false] } natEq newHandle 0 1 42 0 none 0 =
      some (collideSt, none, true) ∧
    deleteOp 20 { collideSt with orc := [false] } natEq hash42 newHandle 1 =
      .done (collideSt, none) ∧
    (getOp 20 collideSt natEq hash42 newHandle 1).map (fun r => r.2) ≠
      some none :=
  ⟨rfl, rfl, rfl, rfl, rfl, by decide⟩

theorem clone_generation_placement_witness :
    ∃ rc, (newMapSt Nat Nat).cell newHandle.root = some rc ∧
      (({ mem := [⟨.cnode 0 [] 0, 0⟩, ⟨.cnode 0 [] 0, 1⟩, ⟨.cnode 0 [] 0, 2⟩],
          nextGen := 3, orc := [] } : St Nat Nat).cell 1) =
        some ⟨rc.main, (newMapSt Nat Nat).nextGen⟩ ∧
      (({ mem := [⟨.cnode 0 [] 0, 0⟩, ⟨.cnode 0 [] 0, 1⟩, ⟨.cnode 0 [] 0, 2⟩],
          nextGen := 3, orc := [] } : St Nat Nat).cell 2) =
        some ⟨rc.main, (newMapSt Nat Nat).nextGen + 1⟩ ∧
      (1 : Nat) ≠ 2 ∧
      (newMapSt Nat Nat).nextGen ≠ (newMapSt Nat Nat).nextGen + 1 ∧
      (∀ a cl, (newMapSt Nat Nat).cell a = some cl →
        cl.gen ≠ (newMapSt Nat Nat).nextGen ∧
        cl.gen ≠ (newMapSt Nat Nat).nextGen + 1) :=
  clone_generation_placement (newMapSt Nat Nat) newHandle
    { root := 1, readOnly := false } { root := 2, readOnly := false }
    { mem := [⟨.cnode 0 [] 0, 0⟩, ⟨.cnode 0 [] 0, 1⟩, ⟨.cnode 0 [] 0, 2⟩],
      nextGen := 3, orc := [] }
    rfl
    (fun a cl h => by
      match a with
      | 0 =>
        rw [show (newMapSt Nat Nat).cell 0 = some ⟨.cnode 0 [] 0, 0⟩ from rfl] at h
        cases h
        decide
      | n + 1 =>
        rw [show (newMapSt Nat Nat).cell (n + 1) = List.get? [] n from rfl] at h
        simp at h)
    rfl

/-- C8: every C-node constructed by the node algebra (`newMainNode`,
`cNode.inserted`, `cNode.updated`, `cNode.removed`, `cNode.renewed`) has a
branch slice of length `popcount bmp` whose branches appear in ascending
order of their 5-bit index, the branch of index-flag `f` stored at
position `popcount (bmp &&& (f - 1))`; and the branch-count invariant is
preserved by every insert, lookup and remove (including their retry
loops). Bit `i` is free in the bitmap (insertion case) and bit `j` is set
(update/removal case). -/
theorem branch_order_invariant {K V : Type} [DecidableEq K] [DecidableEq V]
    (bmp : Nat) (slice : List (Br K V)) (i j : Nat) (br : Br K V) (gen : Nat)
    (eqf : K → K → Bool) (c : CMap) (e : Entry K V) (k : K) (hsh : Nat)
    (hlen : slice.length = popcount bmp)
    (hi : bmp &&& (1 <<< i) = 0)
    (hj : bmp &&& (1 <<< j) ≠ 0) :
    branchOrderConcl bmp slice i j br gen eqf c e k hsh := by
  refine ⟨cnInserted_mapping bmp slice i br gen hlen hi,
          cnUpdated_mapping bmp slice j br gen hlen hj,
          cnRemoved_mapping bmp slice j gen hlen hj,
          fun st st' s2 hr => renewedSlice_length gen slice st st' s2 hr,
          fun st x xhc y yhc lev g => newMainNode_mainOK st x xhc y yhc lev g,
          fun fuel st st' hins hok =>
            (insertTop_frame fuel st eqf c e st' hins hok).1,
          ?_,
          fun fuel st st' v hrem hok =>
            (removeTop_frame fuel st eqf c k hsh st' v hrem hok).1⟩
  intro fuel st st' v hl hok
  cases hro : c.readOnly with
  | true =>
    rw [lookupTop_readonly fuel st eqf c k hsh st' v hro hl]
    exact hok
  | false =>
    exact (lookupTop_frame fuel st eqf c k hsh st' v hro hl hok).1

/-- C2: snapshot independence.  For every map built by a sequence of
inserts on a fresh map, `clone()` yields a handle `s` whose every `Get`
returns exactly the value the source showed at the moment of the clone;
further `Set`/`Delete` sequences through the source handle leave every
`Get` on `s` unchanged, and mutation sequences through `s` leave every
`Get` on the source handle unchanged.  The pure content is pinned by
`vlookup` with path fuel `n + 1`. -/
theorem snapshot_independence {K V : Type} [DecidableEq K] [DecidableEq V]
    (eqf : K → K → Bool) (hashf : K → Nat) (kvs : List (K × V))
    (f0 : Nat) (st0 : St K V) (src s : CMap) (st1 : St K V)
    (ops ops' : List (MOp K V)) (f1 f2 : Nat) (st2 st2' : St K V)
    (k k' : K) (n n' : Nat) (v v' : Option V)
    (hbuild : buildOps f0 eqf hashf kvs = some st0)
    (hclone : cloneOp st0 newHandle false = .done (src, s, st1))
    (hops : applyOps f1 eqf hashf src ops st1 = some st2)
    (hops2 : applyOps f2 eqf hashf s ops' st1 = some st2')
    (hv : vlookup eqf (n + 1) st1 s.root k (hash32 hashf k) 0 = some v)
    (hv2 : vlookup eqf (n' + 1) st1 src.root k' (hash32 hashf k') 0 =
      some v') :
    snapshotIndepConcl eqf hashf st0 st1 st2 st2' src s k k' n n' v v' := by
  obtain ⟨hA, h0, hok0, hne0, hng0, horc0⟩ :=
    buildOps_inv f0 eqf hashf kvs st0 hbuild
  obtain ⟨rc, hrc⟩ := cell_isSome_of_lt
    (show newHandle.root < st0.mem.length from by
      have hr0 : newHandle.root = 0 := rfl
      omega)
  obtain ⟨hsrc, hsC, hcellsOld, hcellA1, hcellA2, hlen1, hng1, horc1⟩ :=
    cloneOp_rw st0 newHandle rfl hrc hclone
  have hsrcro : src.readOnly = false := by rw [hsrc]
  have hsro : s.readOnly = false := by rw [hsC]
  have hsrcroot : src.root = st0.mem.length := by rw [hsrc]
  have hsroot : s.root = st0.mem.length + 1 := by rw [hsC]
  have hbrrc : branchesIn rc.main st0.mem.length := hA newHandle.root rc hrc
  have hreg0 : regionGen st0 st0.mem.length 0 := regionGen_of_inv hA h0
  have hreg1 : regionGen st1 st0.mem.length 0 := by
    intro a ha
    obtain ⟨cl, hcl, hg, hbr⟩ := hreg0 a ha
    exact ⟨cl, by rw [hcellsOld a ha]; exact hcl, hg, hbr⟩
  have hclos0 : ∀ b, b < st0.mem.length → ∀ c2, st0.cell b = some c2 →
      branchesIn c2.main st0.mem.length := fun b hb c2 hc2 => hA b c2 hc2
  have hclos1 : ∀ b, b < st0.mem.length → ∀ c2, st1.cell b = some c2 →
      branchesIn c2.main st0.mem.length := by
    intro b hb c2 hc2
    rw [hcellsOld b hb] at hc2
    exact hA b c2 hc2
  have hok1 : cnLenOK st1 := by
    intro a cl hcl
    by_cases ha : a < st0.mem.length
    · rw [hcellsOld a ha] at hcl
      exact hok0 a cl hcl
    · by_cases ha2 : a = st0.mem.length
      · subst ha2
        rw [hcellA1] at hcl
        cases hcl
        exact hok0 newHandle.root rc hrc
      · by_cases ha3 : a = st0.mem.length + 1
        · subst ha3
          rw [hcellA2] at hcl
          cases hcl
          exact hok0 newHandle.root rc hrc
        · rw [(cell_eq_none_iff st1 a).mpr (by omega)] at hcl
          cases hcl
  have horc1' : st1.orc = [] := by
    rw [horc1]
    exact horc0
  have hrcs1 : st1.cell s.root = some ⟨rc.main, st0.nextGen + 1⟩ := by
    rw [hsroot]
    exact hcellA2
  have hrcsrc1 : st1.cell src.root = some ⟨rc.main, st0.nextGen⟩ := by
    rw [hsrcroot]
    exact hcellA1
  refine ⟨?_, ?_, ?_⟩
  · -- (A) gets on `s` before and after the source mutations
    intro m hm
    have hfr12 := applyOps_frame f1 eqf hashf src ops st1 st2 hops hok1
      ⟨rc.main, st0.nextGen⟩ hrcsrc1
    have hextA : ∀ b, b < st0.mem.length → st2.cell b = st1.cell b := by
      intro b hb
      obtain ⟨cl, hcl, hg, hbr⟩ := hreg1 b hb
      refine hfr12.2.2.1 b (by omega) ?_
      intro cl2 hcl2
      rw [hcl] at hcl2
      cases hcl2
      rw [hg]
      show (0 : Nat) ≠ st0.nextGen
      omega
    have hcellA2s : st2.cell s.root = some ⟨rc.main, st0.nextGen + 1⟩ := by
      have hpres := hfr12.2.2.1 s.root (by rw [hsroot]; omega)
        (fun cl2 hcl2 => by
          rw [hrcs1] at hcl2
          cases hcl2
          show st0.nextGen + 1 ≠ st0.nextGen
          omega)
      rw [hpres, hrcs1]
    have hreg2 : regionGen st2 st0.mem.length 0 := by
      intro a ha
      obtain ⟨cl, hcl, hg, hbr⟩ := hreg1 a ha
      exact ⟨cl, by rw [hextA a ha]; exact hcl, hg, hbr⟩
    have horc2 : st2.orc = [] := hfr12.2.2.2.2.2.2 horc1'
    have hvA2 : vlookup eqf (n + 1) st2 s.root k (hash32 hashf k) 0 =
        some v := by
      rw [vlookup_agree_start eqf st0.mem.length st1 st2 hextA hclos1
        hcellA2s hrcs1 rfl hbrrc n k (hash32 hashf k) 0]
      exact hv
    constructor
    · exact lookupTop_pure_renew eqf st0.mem.length 0 st1 s k
        (hash32 hashf k) n v ⟨rc.main, st0.nextGen + 1⟩ hsro horc1' hreg1
        (by show (0 : Nat) ≠ st0.nextGen + 1; omega) hrcs1 hbrrc hv m hm
    · exact lookupTop_pure_renew eqf st0.mem.length 0 st2 s k
        (hash32 hashf k) n v ⟨rc.main, st0.nextGen + 1⟩ hsro horc2 hreg2
        (by show (0 : Nat) ≠ st0.nextGen + 1; omega) hcellA2s hbrrc hvA2
        m hm
  · -- (B) the clone reflects exactly the pre-clone content
    intro m hm
    have hv0 : vlookup eqf (n + 1) st0 newHandle.root k (hash32 hashf k)
        0 = some v := by
      rw [← vlookup_agree_start eqf st0.mem.length st0 st1 hcellsOld
        hclos0 hrcs1 hrc rfl hbrrc n k (hash32 hashf k) 0]
      exact hv
    have hrcg : rc.gen = 0 := h0 newHandle.root rc hrc
    refine lookupTop_pure_samegen eqf st0.mem.length st0 newHandle k
      (hash32 hashf k) n v rc rfl ?_ hrc ?_ hv0 m hm
    · rw [hrcg]
      exact hreg0
    · show newHandle.root < st0.mem.length
      have hr0 : newHandle.root = 0 := rfl
      omega
  · -- (C) gets on the source before and after the clone mutations
    intro m hm
    have hfr12 := applyOps_frame f2 eqf hashf s ops' st1 st2' hops2 hok1
      ⟨rc.main, st0.nextGen + 1⟩ hrcs1
    have hextC : ∀ b, b < st0.mem.length → st2'.cell b = st1.cell b := by
      intro b hb
      obtain ⟨cl, hcl, hg, hbr⟩ := hreg1 b hb
      refine hfr12.2.2.1 b (by omega) ?_
      intro cl2 hcl2
      rw [hcl] at hcl2
      cases hcl2
      rw [hg]
      show (0 : Nat) ≠ st0.nextGen + 1
      omega
    have hcellA1s : st2'.cell src.root = some ⟨rc.main, st0.nextGen⟩ := by
      have hpres := hfr12.2.2.1 src.root (by rw [hsrcroot]; omega)
        (fun cl2 hcl2 => by
          rw [hrcsrc1] at hcl2
          cases hcl2
          show st0.nextGen ≠ st0.nextGen + 1
          omega)
      rw [hpres, hrcsrc1]
    have hreg2 : regionGen st2' st0.mem.length 0 := by
      intro a ha
      obtain ⟨cl, hcl, hg, hbr⟩ := hreg1 a ha
      exact ⟨cl, by rw [hextC a ha]; exact hcl, hg, hbr⟩
    have horc2 : st2'.orc = [] := hfr12.2.2.2.2.2.2 horc1'
    have hvC2 : vlookup eqf (n' + 1) st2' src.root k' (hash32 hashf k')
        0 = some v' := by
      rw [vlookup_agree_start eqf st0.mem.length st1 st2' hextC hclos1
        hcellA1s hrcsrc1 rfl hbrrc n' k' (hash32 hashf k') 0]
      exact hv2
    constructor
    · exact lookupTop_pure_renew eqf st0.mem.length 0 st1 src k'
        (hash32 hashf k') n' v' ⟨rc.main, st0.nextGen⟩ hsrcro horc1'
        hreg1 (by show (0 : Nat) ≠ st0.nextGen; omega) hrcsrc1 hbrrc hv2
        m hm
    · exact lookupTop_pure_renew eqf st0.mem.length 0 st2' src k'
        (hash32 hashf k') n' v' ⟨rc.main, st0.nextGen⟩ hsrcro horc2 hreg2
        (by show (0 : Nat) ≠ st0.nextGen; omega) hcellA1s hbrrc hvC2 m hm

theorem snapshot_independence_witness :
    (buildOps 3 natEq idHash [(1, 10)] = some snapSt0 ∧
      cloneOp snapSt0 newHandle false = .done (snapSrc, snapS, snapSt1) ∧
      applyOps 4 natEq idHash snapSrc [MOp.mdel 1] snapSt1 =
        some snapSt2 ∧
      applyOps 4 natEq idHash snapS [MOp.mset 1 99] snapSt1 =
        some snapSt2' ∧
      vlookup natEq 2 snapSt1 snapS.root 1 (hash32 idHash 1) 0 =
        some (some 10) ∧
      vlookup natEq 2 snapSt1 snapSrc.root 1 (hash32 idHash 1) 0 =
        some (some 10)) ∧
    snapshotIndepConcl natEq idHash snapSt0 snapSt1 snapSt2 snapSt2'
      snapSrc snapS 1 1 1 1 (some 10) (some 10) :=
  ⟨⟨by rfl, by rfl, by rfl, by rfl, by rfl, by rfl⟩,
   snapshot_independence natEq idHash [(1, 10)] 3 snapSt0 snapSrc snapS
     snapSt1 [MOp.mdel 1] [MOp.mset 1 99] 4 4 snapSt2 snapSt2' 1 1 1 1
     (some 10) (some 10) (by rfl) (by rfl) (by rfl) (by rfl) (by rfl)
     (by rfl)⟩

theorem branch_order_invariant_witness :
    (([Br.snode ⟨7, 8, 9⟩] : List (Br Nat Nat)).length = popcount 2 ∧
      2 &&& (1 <<< 0) = 0 ∧ 2 &&& (1 <<< 1) ≠ 0) ∧
    branchOrderConcl 2 [Br.snode ⟨7, 8, 9⟩] 0 1
      (Br.snode (⟨1, 2, 3⟩ : Entry Nat Nat)) 0 natEq newHandle
      (⟨1, 2, 3⟩ : Entry Nat Nat) 5 6 :=
  ⟨⟨by decide, by decide, by decide⟩,
   branch_order_invariant 2 [Br.snode ⟨7, 8, 9⟩] 0 1
     (Br.snode (⟨1, 2, 3⟩ : Entry Nat Nat)) 0 natEq newHandle
     (⟨1, 2, 3⟩ : Entry Nat Nat) 5 6 (by decide) (by decide) (by decide)⟩

/-- C5: hash-collision correctness.  For any two keys `a`, `b` that the
map's equality distinguishes but whose full 32-bit hashes agree:
`newMainNode` resolves a collision with an L-node only at level ≥ 32;
inserting both keys on a fresh map builds `collideSt2`, whose two entries
share the L-node at level 35 below a chain of single-branch C-nodes;
`Get` finds each of the two entries; `Delete b` returns `vb`, entombing
the remaining entry; and a `Get a` afterwards (which lifts the tomb back
to the root over the retry loop) still returns `va`. -/
theorem hash_collision_correct {K V : Type} [DecidableEq K] [DecidableEq V]
    (eqf : K → K → Bool) (hashf : K → Nat) (a b : K) (va vb : V)
    (haa : eqf a a = true) (hbb : eqf b b = true)
    (hab : eqf a b = false)
    (hh : hash32 hashf a = hash32 hashf b) :
    collisionConcl eqf hashf a b va vb := by
  unfold collisionConcl
  refine ⟨?_, ?_, ?_, rfl, ?_, ?_, ?_, ?_⟩
  · intro st x xhc y yhc lev g es hln
    exact newMainNodeAux_lnode_lev 8 st x xhc y yhc lev g es hln
  · simp only [setOp]
    rw [if_neg (by decide : ¬ (newHandle.readOnly = true))]
    rw [show insertTop 1 (newMapSt K V) eqf newHandle
        ⟨a, va, hash32 hashf a⟩ =
      some { mem := [⟨.cnode (1 <<< (hash32 hashf a &&& 0x1f))
          [.snode ⟨a, va, hash32 hashf a⟩] 0, 0⟩], nextGen := 1, orc := [] }
      from insertTop_fresh eqf a va (hash32 hashf a) 0]
  · simp only [setOp]
    rw [if_neg (by decide : ¬ (newHandle.readOnly = true))]
    rw [← hh]
    rw [show insertTop 1 { mem := [⟨.cnode (1 <<< (hash32 hashf a &&& 0x1f))
          [.snode ⟨a, va, hash32 hashf a⟩] 0, 0⟩], nextGen := 1, orc := [] }
        eqf newHandle ⟨b, vb, hash32 hashf a⟩ =
      some (collideSt2 a va b vb (hash32 hashf a))
      from insertTop_collision eqf a va b vb (hash32 hashf a) 0 hab]
  · simp only [getOp]
    rw [lookupTop_collideSt2 eqf a va b vb (hash32 hashf a) a]
    simp only [llookup]
    rw [hab, haa]
    rw [if_neg Bool.false_ne_true, if_pos rfl]
  · simp only [getOp]
    rw [← hh]
    rw [lookupTop_collideSt2 eqf a va b vb (hash32 hashf a) b]
    simp only [llookup]
    rw [hbb]
    rw [if_pos rfl]
  · simp only [deleteOp]
    rw [if_neg (by decide : ¬ (newHandle.readOnly = true))]
    rw [← hh]
    rw [removeTop_collideSt2 eqf a va b vb (hash32 hashf a) hbb]
  · simp only [getOp]
    exact tomb_cascade eqf a (hash32 hashf a) ⟨a, va, hash32 hashf a⟩ haa
      newHandle rfl [2, 3, 4, 5, 6, 7, 0]
      ((collideSt2 a va b vb (hash32 hashf a)).write 1
        (.tnode ⟨a, va, hash32 hashf a⟩)) 1 35 rfl
      (upChain_write [2, 3, 4, 5, 6, 7, 0] 35 1 1
        (.tnode ⟨a, va, hash32 hashf a⟩)
        (upChain_collideSt2 a va b vb (hash32 hashf a)) (by decide))
      rfl (by simp) rfl (by decide) 16 (by decide)

theorem hash_collision_correct_witness :
    (natEq 1 1 = true ∧ natEq 2 2 = true ∧ natEq 1 2 = false ∧
      hash32 hash42 1 = hash32 hash42 2) ∧
    collisionConcl natEq hash42 1 2 10 20 :=
  ⟨⟨by decide, by decide, by decide, rfl⟩,
   hash_collision_correct natEq hash42 1 2 10 20 (by decide) (by decide)
     (by decide) rfl⟩

end Ctrie
